import Mathlib

/-!
# Parallel multidimensional sort: model and verified properties

A shallow embedding of the ranking engine (`load_points.cpp`, `cpu_distance.cpp`,
`cpu_mergesort.cpp`, `gpu_hip.cpp`, and the load check of `main.cpp`).

Conventions of the embedding.
* `float` is an arbitrary scalar type `F` carrying `0`, `+`, `-`, `*`.  The CPU ranker compares
  in a linear order on `F`.  The GPU ranker is given twice: on a linear order (`run_gpu_sort`),
  and on the two `float` comparisons of the kernel, false on a NaN (`FloatCmp`,
  `run_gpu_sort_f`); the two agree on keys that are not NaN.  `Flt` is a type of binary32
  values with rounding, NaN and the infinities, on which examples are evaluated.
* `std::vector<T>` is `List T`; `v[i]` is `v.getD i default` for reads and `v.set i x` for writes.
  A default-constructed `Point` has no coordinates and `dist = 0`.
* `int` and `size_t` values are natural numbers in the definitions that follow the algorithms.
  The 32-bit range of the counters of `gpu_hip.cpp` is in the definitions whose names end in
  `_i32` and in `run_gpu_sort_f`: a loop that may not end takes a bound on its steps.
* Reads of the file mapping are unchecked in `load_points` (the byte in front of the mapping
  is a parameter) and checked in `load_points_checked`.
* OpenMP regions are run one worker after the other, tasks in program order; a
  kernel launch runs its threads by increasing thread index.
-/

namespace PMSort

variable {F : Type}

/-! ## Point.hpp -/

/-- A point: its coordinates and its distance from the reference (`struct Point`). -/
structure Point (F : Type) where
  coords : List F
  dist : F
deriving DecidableEq

/-- The value of `Point()`: no coordinates, `dist = 0.0f`. -/
instance instInhabitedPoint [Zero F] : Inhabited (Point F) := ⟨⟨[], 0⟩⟩

/-! ## cpu_distance.cpp -/

/-- The inner loop of `compute_distances_cpu` (and of `distance_kernel`):
`for (j = 0; j < D; j++) { diff = p_ptr[j] - r_ptr[j]; sum += diff * diff; }` from `sum = 0`,
the terms added in the order of the iterations with the operations of `F`.  This is the
device loop as written; the CPU loop carries `#pragma omp simd reduction(+:sum)`, which leaves
the order of the additions open, and `compute_distances_simd` takes it with a reduction of
any order. -/
def sq_dist [Zero F] [Add F] [Sub F] [Mul F] (p_ptr r_ptr : List F) (D : ℕ) : F :=
  (List.range D).foldl
    (fun sum j => sum + (p_ptr.getD j 0 - r_ptr.getD j 0) * (p_ptr.getD j 0 - r_ptr.getD j 0)) 0

/-- The function `compute_distances_cpu(pts, ref)`: `N = pts.size()`, `D = ref.size()`, and for
`i = 0 .. N-1` the field `pts[i].dist` is overwritten with the sum of the inner loop. -/
def compute_distances_cpu [Zero F] [Add F] [Sub F] [Mul F]
    (pts : List (Point F)) (ref : List F) : List (Point F) :=
  (List.range pts.length).foldl
    (fun acc i => acc.set i { acc.getD i default with
      dist := sq_dist (acc.getD i default).coords ref ref.length }) pts

/-! ## cpu_mergesort.cpp -/

/-- First loop of `merge_optimized`:
`while (i <= mid && j <= right) { if (pts[i].dist <= pts[j].dist) scratch[k++] = pts[i++];
else scratch[k++] = pts[j++]; }`.  Returns the final `(i, j, k, scratch)`. -/
def merge_both [LinearOrder F] [Zero F] (pts : List (Point F)) (mid right : ℕ)
    (i j k : ℕ) (scratch : List (Point F)) : ℕ × ℕ × ℕ × List (Point F) :=
  if i ≤ mid ∧ j ≤ right then
    if (pts.getD i default).dist ≤ (pts.getD j default).dist then
      merge_both pts mid right (i + 1) j (k + 1) (scratch.set k (pts.getD i default))
    else
      merge_both pts mid right i (j + 1) (k + 1) (scratch.set k (pts.getD j default))
  else (i, j, k, scratch)
termination_by (mid + 1 - i) + (right + 1 - j)
decreasing_by
  all_goals simp_wf
  all_goals omega

/-- The two tail loops of `merge_optimized`, `while (i <= last) scratch[k++] = pts[i++];`
(with `last = mid`, then with `j` and `last = right`).  Returns the final `(i, k, scratch)`. -/
def copy_run [Zero F] (pts : List (Point F)) (last : ℕ)
    (i k : ℕ) (scratch : List (Point F)) : ℕ × ℕ × List (Point F) :=
  if i ≤ last then
    copy_run pts last (i + 1) (k + 1) (scratch.set k (pts.getD i default))
  else (i, k, scratch)
termination_by last + 1 - i
decreasing_by
  all_goals simp_wf
  all_goals omega

/-- The copy-back loop of `merge_optimized`:
`for (p = left; p <= right; ++p) pts[p] = scratch[p];`. -/
def copy_back [Zero F] (scratch : List (Point F)) (right : ℕ)
    (p : ℕ) (pts : List (Point F)) : List (Point F) :=
  if p ≤ right then
    copy_back scratch right (p + 1) (pts.set p (scratch.getD p default))
  else pts
termination_by right + 1 - p
decreasing_by
  all_goals simp_wf
  all_goals omega

/-- The function `merge_optimized(pts, scratch, left, mid, right)`; returns the new
`(pts, scratch)`. -/
def merge_optimized [LinearOrder F] [Zero F] (pts scratch : List (Point F))
    (left mid right : ℕ) : List (Point F) × List (Point F) :=
  let s1 := merge_both pts mid right left (mid + 1) left scratch
  let s2 := copy_run pts mid s1.1 s1.2.2.1 s1.2.2.2
  let s3 := copy_run pts right s1.2.1 s2.2.1 s2.2.2
  (copy_back s3.2.2 right left pts, s3.2.2)

/-- The call `std::sort(pts.begin() + first, pts.begin() + last, comp)`: the library sort
(a parameter `sort` of the model) rearranges the elements of `[first, last)` and leaves the rest
of the vector alone. -/
def std_sort_range (sort : List (Point F) → List (Point F)) (pts : List (Point F))
    (first last : ℕ) : List (Point F) :=
  pts.take first ++ sort ((pts.drop first).take (last - first)) ++ pts.drop last

/-- The contract of `std::sort` with the comparator `a.dist < b.dist`: the result is a
rearrangement of the range in which no element is followed by one that compares less. -/
def StdSortContract [LinearOrder F] (sort : List (Point F) → List (Point F)) : Prop :=
  ∀ l : List (Point F), (sort l).Perm l ∧ (sort l).Pairwise (fun a b => ¬ b.dist < a.dist)

/-- The function `mergesort_recursive(pts, scratch, left, right, grain_size)`; the two tasks run
one after the other, then the merge.  Returns the new `(pts, scratch)`. -/
def mergesort_recursive [LinearOrder F] [Zero F] (sort : List (Point F) → List (Point F))
    (pts scratch : List (Point F)) (left right grain_size : ℕ) :
    List (Point F) × List (Point F) :=
  if left ≥ right then (pts, scratch)
  else if right - left < grain_size then (std_sort_range sort pts left (right + 1), scratch)
  else
    let mid := left + (right - left) / 2
    let r1 := mergesort_recursive sort pts scratch left mid grain_size
    let r2 := mergesort_recursive sort r1.1 r1.2 (mid + 1) right grain_size
    merge_optimized r2.1 r2.2 left mid right
termination_by right - left
decreasing_by
  all_goals simp_wf
  all_goals omega

/-- The first-touch loop of `mergesort_cpu`: `for (i = 0; i < n; i++) scratch[i].dist = 0;`. -/
def first_touch [Zero F] (n : ℕ) (scratch : List (Point F)) : List (Point F) :=
  (List.range n).foldl
    (fun acc i => acc.set i { acc.getD i default with dist := 0 }) scratch

/-- The function `mergesort_cpu(pts)`; `num_threads` is the value of `omp_get_max_threads()`. -/
def mergesort_cpu [LinearOrder F] [Zero F] (sort : List (Point F) → List (Point F))
    (num_threads : ℕ) (pts : List (Point F)) : List (Point F) :=
  let n := pts.length
  if n ≤ 1 then pts
  else
    let scratch : List (Point F) := List.replicate n default
    let grain_size := max 2000 (n / (num_threads * 8))
    (mergesort_recursive sort pts (first_touch n scratch) 0 (n - 1) grain_size).1

/-! ## gpu_hip.cpp -/

/-- The state of the device arrays `keys` (`d_keys`) and `vals` (`d_vals`). -/
abbrev DevState (F : Type) := List F × List ℕ

/-- The flattening loop of `run_gpu_sort`: `h_coords` has `N * D` zero-initialised slots and
`h_coords[i * D + j] = pts[i].coords[j]` for `i < N`, `j < D`. -/
def flatten_coords [Zero F] (pts : List (Point F)) (N D : ℕ) : List F :=
  (List.range N).foldl
    (fun h i => (List.range D).foldl
      (fun h j => h.set (i * D + j) ((pts.getD i default).coords.getD j 0)) h)
    (List.replicate (N * D) 0)

/-- The loop of `next_pow2`: `while (p < v) p <<= 1;`.  The variable `p` starts at `1` and is
only ever doubled, so it is positive whenever the test is made; the conjunct `0 < p` records
this and makes the recursion well founded.  The counter is a natural number that does not
wrap: for `v ≤ 2^30` this is the loop on the 32-bit `int` (`next_pow2_i32_eq`), and above
`2^30` the 32-bit loop `next_pow2_loop_i32` does not end (`next_pow2_i32_diverges`). -/
def next_pow2_loop (v p : ℕ) : ℕ :=
  if p < v ∧ 0 < p then next_pow2_loop v (p <<< 1) else p
termination_by v - p
decreasing_by
  all_goals simp_wf
  all_goals simp only [Nat.shiftLeft_eq, pow_one]
  all_goals omega

/-- The function `next_pow2(v)`. -/
def next_pow2 (v : ℕ) : ℕ :=
  if v ≤ 1 then 1 else next_pow2_loop v 1

/-- The index array of `run_gpu_sort`: `h_idx[i] = i < N ? i : (N + i)` for `i < M`. -/
def make_idx (N M : ℕ) : List ℕ :=
  (List.range M).map (fun i => if i < N then i else N + i)

/-- One thread of `distance_kernel`, thread index `i`, writing into `out_dists`.  The row of
point `i` is `coords_flat[i * D ..]`; `inf` is the value of `INFINITY`. -/
def distance_thread [Zero F] [Add F] [Sub F] [Mul F] (inf : F) (coords_flat ref : List F)
    (N D M : ℕ) (out_dists : List F) (i : ℕ) : List F :=
  if i ≥ M then out_dists
  else if i ≥ N then out_dists.set i inf
  else out_dists.set i (sq_dist (coords_flat.drop (i * D)) ref D)

/-- A launch of `distance_kernel` with `nthreads = grid * block` threads. -/
def distance_kernel [Zero F] [Add F] [Sub F] [Mul F] (inf : F) (coords_flat ref : List F)
    (N D M nthreads : ℕ) (out_dists : List F) : List F :=
  (List.range nthreads).foldl (distance_thread inf coords_flat ref N D M) out_dists

/-- One thread of `bitonic_step_kernel`, thread index `i`, the keys compared in a linear
order.  On keys that are not NaN this is the thread on `float` comparisons,
`bitonic_step_thread_f` (`bitonic_step_thread_f_eq`). -/
def bitonic_step_thread [LinearOrder F] [Zero F] (M k j : ℕ) (st : DevState F) (i : ℕ) :
    DevState F :=
  if i ≥ M then st
  else
    let ixj := i ^^^ j
    if ixj ≤ i then st
    else
      let key_i := st.1.getD i 0
      let key_j := st.1.getD ixj 0
      let val_i := st.2.getD i 0
      let val_j := st.2.getD ixj 0
      let ascending := (i &&& k) = 0
      if ascending then
        if key_i > key_j ∨ (key_i = key_j ∧ val_i > val_j) then
          ((st.1.set i key_j).set ixj key_i, (st.2.set i val_j).set ixj val_i)
        else st
      else
        if key_i < key_j ∨ (key_i = key_j ∧ val_i < val_j) then
          ((st.1.set i key_j).set ixj key_i, (st.2.set i val_j).set ixj val_i)
        else st

/-- A launch of `bitonic_step_kernel` with `nthreads = grid * block` threads. -/
def bitonic_step_kernel [LinearOrder F] [Zero F] (M k j nthreads : ℕ) (st : DevState F) :
    DevState F :=
  (List.range nthreads).foldl (bitonic_step_thread M k j) st

/-- The inner loop of the sort in `run_gpu_sort`, entered with the current `j`:
`for (; j > 0; j >>= 1) launch bitonic_step_kernel(keys, vals, M, k, j);`. -/
def sort_inner [LinearOrder F] [Zero F] (M k nthreads j : ℕ) (st : DevState F) : DevState F :=
  if j > 0 then sort_inner M k nthreads (j >>> 1) (bitonic_step_kernel M k j nthreads st)
  else st
termination_by j
decreasing_by
  all_goals simp_wf
  all_goals simp only [Nat.shiftRight_eq_div_pow, pow_one]
  all_goals omega

/-- The outer loop of the sort in `run_gpu_sort`, entered with the current `k`:
`for (; k <= M; k <<= 1) { inner loop from j = k >> 1 }`.  The variable `k` starts at `2` and
is only ever doubled; the conjunct `0 < k` records this and makes the recursion well founded.
The counter is a natural number that does not wrap: for `M ≤ 2^29` these are the launches of
the loops on the 32-bit `int` (`stage_passes_i32_pow`, `sort_outer_eq_run_passes`), and for
`M = 2^30` the 32-bit loop `stage_passes_i32` does not end (`stage_passes_i32_diverges`). -/
def sort_outer [LinearOrder F] [Zero F] (M nthreads k : ℕ) (st : DevState F) : DevState F :=
  if k ≤ M ∧ 0 < k then
    sort_outer M nthreads (k <<< 1) (sort_inner M k nthreads (k >>> 1) st)
  else st
termination_by M + 1 - k
decreasing_by
  all_goals simp_wf
  all_goals simp only [Nat.shiftLeft_eq, pow_one]
  all_goals omega

/-- One step of the host reorder loop of `run_gpu_sort`, acting on `(pts, temp_pts)`:
`old_idx = sorted_idx[i]; temp_pts[i] = std::move(pts[old_idx]); temp_pts[i].dist =
sorted_keys[i];`.  Moving a `Point` hands its coordinate vector over and leaves the source
without coordinates.  Reading `pts[old_idx]` outside the vector has no defined result:
`none`. -/
def host_reorder_step [Zero F] (sorted_idx : List ℕ) (sorted_keys : List F)
    (st : Option (List (Point F) × List (Point F))) (i : ℕ) :
    Option (List (Point F) × List (Point F)) :=
  match st with
  | none => none
  | some (pts, temp_pts) =>
    let old_idx := sorted_idx.getD i 0
    if old_idx < pts.length then
      some (pts.set old_idx { pts.getD old_idx default with coords := [] },
            temp_pts.set i { coords := (pts.getD old_idx default).coords,
                             dist := sorted_keys.getD i 0 })
    else none

/-- The function `run_gpu_sort(pts, ref)`; `inf` is the value of `INFINITY`.  The result is the
new content of `pts`, or `none` when the host reorder reads outside `pts`.  The counters are
natural numbers and the keys are compared in a linear order: for at most `2^29` points whose
keys are not NaN this is the result of the code on 32-bit counters and `float` comparisons,
`run_gpu_sort_f` (`run_gpu_sort_f_eq`); beyond that range `run_gpu_sort_f` is the code. -/
def run_gpu_sort [LinearOrder F] [Zero F] [Add F] [Sub F] [Mul F] (inf : F)
    (pts : List (Point F)) (ref : List F) : Option (List (Point F)) :=
  let N := pts.length
  if N = 0 then some pts
  else
    let D := ref.length
    let h_coords := flatten_coords pts N D
    let M := next_pow2 N
    let h_idx := make_idx N M
    let block := 256
    let grid := (M + block - 1) / block
    let d_keys := distance_kernel inf h_coords ref N D M (grid * block) (List.replicate M 0)
    let sorted := sort_outer M (((M + block - 1) / block) * block) 2 (d_keys, h_idx)
    let sorted_idx := sorted.2
    let sorted_keys := sorted.1
    let temp_pts : List (Point F) := List.replicate N default
    match (List.range N).foldl (host_reorder_step sorted_idx sorted_keys) (some (pts, temp_pts)) with
    | none => none
    | some (_, temp) => some temp

/-! ## Notions used in the proofs about the sorting network -/

/-- One compare-exchange pass `(k, j)` on an array seen as a function of the index: slot `i` and
its partner `i xor j` keep the smaller value in the lower slot when bit `k` of `i` is clear,
and in the upper slot otherwise. -/
def cmpx_pass {α : Type} [LinearOrder α] (k j : ℕ) (a : ℕ → α) : ℕ → α :=
  fun i => if (i < i ^^^ j ↔ i &&& k = 0) then min (a i) (a (i ^^^ j))
    else max (a i) (a (i ^^^ j))

/-- The passes `j = 2^(n-1), ..., 2, 1` of stage `k`, in that order. -/
def merge_net {α : Type} [LinearOrder α] (k : ℕ) : ℕ → (ℕ → α) → (ℕ → α)
  | 0, a => a
  | n + 1, a => merge_net k n (cmpx_pass k (2 ^ n) a)

/-- The stages `k = 2, 4, ..., 2^s`, in that order. -/
def sort_net {α : Type} [LinearOrder α] : ℕ → (ℕ → α) → (ℕ → α)
  | 0, a => a
  | s + 1, a => merge_net (2 ^ (s + 1)) (s + 1) (sort_net s a)

/-- A Boolean array is bitonic on `[lo, lo + n)`: it takes one value on a segment `[p, q)` and
the other value elsewhere. -/
def Bitonic01 (a : ℕ → Bool) (lo n : ℕ) : Prop :=
  ∃ p q v, p ≤ q ∧ q ≤ n ∧ ∀ x, x < n → a (lo + x) = (if p ≤ x ∧ x < q then v else !v)

/-- A Boolean array is sorted on `[lo, lo + n)`, ascending when `desc = false` and descending
when `desc = true`. -/
def Sorted01 (desc : Bool) (a : ℕ → Bool) (lo n : ℕ) : Prop :=
  ∃ p, p ≤ n ∧ ∀ x, x < n → a (lo + x) = (if x < p then desc else !desc)

/-- The device arrays as one array of (key, index) pairs in lexicographic order. -/
def dev_pairs (st : DevState F) : List (Lex (F × ℕ)) :=
  List.zipWith (fun k v => toLex (k, v)) st.1 st.2

/-- The (key, index) pair held in slot `x` of the device arrays. -/
def dev_view [Zero F] (st : DevState F) (x : ℕ) : Lex (F × ℕ) :=
  toLex (st.1.getD x 0, st.2.getD x 0)

/-! ## Concrete data used to instantiate the statements -/

/-- A sort that meets the contract of `std::sort`: insertion sort by `dist`. -/
def insertion_sort_by_dist [LinearOrder F] (l : List (Point F)) : List (Point F) :=
  l.insertionSort (fun a b => a.dist ≤ b.dist)

/-- Five thousand one-dimensional points with scattered integer distances (more than the
sequential cutoff of `mergesort_cpu`). -/
def sample_points : List (Point ℤ) :=
  (List.range 5000).map
    (fun i : ℕ => { coords := [Int.ofNat i], dist := Int.ofNat (i * 37 % 1013) })

/-- Three two-dimensional integer points; ranking them on the device needs one padding slot. -/
def sample_triple : List (Point ℤ) :=
  [{ coords := [0, 0], dist := 0 }, { coords := [3, 4], dist := 0 },
   { coords := [1, 1], dist := 0 }]

/-- The points of the worked ranking scenario, in input order, as loaded (`dist = 0`). -/
def scenario_pts : List (Point ℚ) :=
  [{ coords := [0, 0], dist := 0 }, { coords := [3, 4], dist := 0 },
   { coords := [1, 1], dist := 0 }, { coords := [10, 10], dist := 0 }]

/-- The points of the worked ranking scenario with their squared distances to `(0,0)`. -/
def scenario_keyed : List (Point ℚ) :=
  [{ coords := [0, 0], dist := 0 }, { coords := [3, 4], dist := 25 },
   { coords := [1, 1], dist := 2 }, { coords := [10, 10], dist := 200 }]

/-- The expected ranking of the worked scenario. -/
def scenario_ranked : List (Point ℚ) :=
  [{ coords := [0, 0], dist := 0 }, { coords := [1, 1], dist := 2 },
   { coords := [3, 4], dist := 25 }, { coords := [10, 10], dist := 200 }]

/-! ## load_points.cpp

The file content is the list `buf` of its bytes (`addr[0 .. length)`), positions are offsets
from `addr`.  The library routines `isspace` and `strtof` are not part of the repository:
`isspace` is the one of the "C" locale, `strtof` is a parameter of the model, a function from
the text at `curr` (up to the end of the mapping) to the value read and the number of bytes
consumed (`next - curr`).  The workers of the parallel region run one after the other, by
increasing thread number.  Loops over a pointer range whose bound is known on entry recurse on
that bound, given as their first argument. -/

/-- The result of `load_points`: the returned flag, the vector `points` and `D`. -/
structure LoadResult (F : Type) where
  ok : Bool
  points : List (Point F)
  D : ℕ
deriving DecidableEq

/-- The routine `isspace` of the "C" locale: space, `\t`, `\n`, `\v`, `\f`, `\r`. -/
def isspace (c : Char) : Bool :=
  c = ' ' || c = '\t' || c = '\n' || c = '\x0b' || c = '\x0c' || c = '\r'

/-- Step 1 of `load_points`, the scan of the first line, walking the bytes from `addr`:
`while (*p != '\n' && p < addr + length) { if (!isspace(*p)) { if (!in_val) { D++; in_val =
true; } } else in_val = false; p++; }`.  At the end of the buffer the loop stops whatever byte
`*p` reads there. -/
def first_line_dims : List Char → Bool → ℕ → ℕ
  | [], _, D => D
  | c :: rest, in_val, D =>
    if c ≠ '\n' then
      if !isspace c then
        if !in_val then first_line_dims rest true (D + 1)
        else first_line_dims rest in_val D
      else first_line_dims rest false D
    else D

/-- Step 2 of `load_points`, `#pragma omp parallel for reduction(+:N)`: iteration `i` is run by
worker `sched i % n_threads` (any assignment `sched`), each worker counts the `\n` among its
iterations, and the counts are added up. -/
def count_newlines_by (buf : List Char) (n_threads : ℕ) (sched : ℕ → ℕ) : ℕ :=
  ((List.range n_threads).map (fun t =>
    ((List.range buf.length).filter
      (fun i => sched i % n_threads = t ∧ buf.getD i '\x00' = '\n')).length)).sum

/-- The number `N` of step 2: the reduction, plus one when the last byte is not `\n`. -/
def count_records (buf : List Char) (n_threads : ℕ) (sched : ℕ → ℕ) : ℕ :=
  count_newlines_by buf n_threads sched
    + (if buf.length > 0 ∧ buf.getD (buf.length - 1) '\x00' ≠ '\n' then 1 else 0)

/-- The byte `*(my_start - 1)`; `before` is what lies at `addr[-1]`, outside the mapping.
That read has no defined result: `byte_at` gives it none, and the loader that checks every
read is `load_points_checked`.  With at most as many workers as bytes the read is never made
(`load_points_env_irrel`). -/
def prev_byte (buf : List Char) (before : Char) (my_start : ℕ) : Char :=
  if my_start = 0 then before else buf.getD (my_start - 1) '\x00'

/-- The realignment loop `while (my_start < my_end && *(my_start - 1) != '\n') my_start++;`
(first argument: the bound `my_end - my_start`). -/
def realign (buf : List Char) (before : Char) (my_end : ℕ) : ℕ → ℕ → ℕ
  | 0, my_start => my_start
  | fuel + 1, my_start =>
    if my_start < my_end ∧ prev_byte buf before my_start ≠ '\n' then
      realign buf before my_end fuel (my_start + 1)
    else my_start

/-- The loop `for (i = 0; i < D; ++i) { points[idx].coords[i] = strtof(curr, &next);
curr = next; }`; returns the final `(curr, points)`. -/
def parse_record [Zero F] (strtof : List Char → F × ℕ) (buf : List Char) (D idx : ℕ)
    (curr : ℕ) (points : List (Point F)) : ℕ × List (Point F) :=
  (List.range D).foldl
    (fun st i =>
      (st.1 + (strtof (buf.drop st.1)).2,
       st.2.set idx { st.2.getD idx default with
         coords := (st.2.getD idx default).coords.set i (strtof (buf.drop st.1)).1 }))
    (curr, points)

/-- The loop `while (curr < my_end && (*curr == '\n' || *curr == '\r' || *curr == ' '))
curr++;` (first argument: the bound `my_end - curr`). -/
def skip_breaks (buf : List Char) (my_end : ℕ) : ℕ → ℕ → ℕ
  | 0, curr => curr
  | fuel + 1, curr =>
    if curr < my_end ∧ (buf.getD curr '\x00' = '\n' ∨ buf.getD curr '\x00' = '\r'
        ∨ buf.getD curr '\x00' = ' ') then
      skip_breaks buf my_end fuel (curr + 1)
    else curr

/-- The record loop of a worker: `while (curr < my_end) { if (global_idx + local_count >= N)
break; <parse D tokens>; local_count++; <skip line breaks>; }` (first argument: the bound
`N - (global_idx + local_count)`). -/
def parse_chunk [Zero F] (strtof : List Char → F × ℕ) (buf : List Char) (D N my_end
    global_idx : ℕ) : ℕ → ℕ → ℕ → List (Point F) → List (Point F)
  | 0, _, _, points => points
  | fuel + 1, curr, local_count, points =>
    if curr < my_end then
      if global_idx + local_count ≥ N then points
      else
        parse_chunk strtof buf D N my_end global_idx fuel
          (skip_breaks buf my_end
            (my_end - (parse_record strtof buf D (global_idx + local_count) curr points).1)
            (parse_record strtof buf D (global_idx + local_count) curr points).1)
          (local_count + 1)
          (parse_record strtof buf D (global_idx + local_count) curr points).2
    else points

/-- The body of the parallel region of step 4 for worker `tid` of `n_threads`. -/
def load_thread [Zero F] (strtof : List Char → F × ℕ) (buf : List Char) (before : Char)
    (D N n_threads : ℕ) (points : List (Point F)) (tid : ℕ) : List (Point F) :=
  let length := buf.length
  let chunk_size := length / n_threads
  let my_end := if tid = n_threads - 1 then length else (tid + 1) * chunk_size
  let my_start :=
    if tid ≠ 0 then realign buf before my_end (my_end - tid * chunk_size) (tid * chunk_size)
    else tid * chunk_size
  let global_idx := (buf.take my_start).count '\n'
  parse_chunk strtof buf D N my_end global_idx (N - global_idx) my_start 0 points

/-- The function `load_points` on a file with content `buf`, called with an empty `points`
(as `main` does), run by `n_threads` workers. -/
def load_points [Zero F] (strtof : List Char → F × ℕ) (before : Char) (n_threads : ℕ)
    (sched : ℕ → ℕ) (buf : List Char) : LoadResult F :=
  let D := first_line_dims buf false 0
  let N := count_records buf n_threads sched
  let resized : List (Point F) := List.replicate N { coords := List.replicate D 0, dist := 0 }
  let points := (List.range n_threads).foldl (load_thread strtof buf before D N n_threads) resized
  { ok := !points.isEmpty, points := points, D := D }

/-- The number of line records of a file: its `\n` bytes, plus one when it is not empty and
does not end in `\n`. -/
def line_records (buf : List Char) : ℕ :=
  buf.count '\n' + (if buf ≠ [] ∧ buf.getLast? ≠ some '\n' then 1 else 0)

/-! ### A decimal `strtof`

Modelled from the C standard: leading white space is skipped, then an optional sign, decimal
digits with an optional fraction, and an optional exponent are read; the value is exact (no
rounding to `float`), and when no digit is found nothing is consumed and the value is `0`.
Hexadecimal forms, `inf` and `nan` are left out. -/

/-- The leading run of decimal digits: its value, its length. -/
def digit_run : List Char → ℕ → ℕ → ℕ × ℕ
  | [], acc, n => (acc, n)
  | c :: rest, acc, n =>
    if '0' ≤ c ∧ c ≤ '9' then digit_run rest (acc * 10 + (c.toNat - 48)) (n + 1)
    else (acc, n)

/-- The number of leading white-space bytes. -/
def space_run : List Char → ℕ
  | [] => 0
  | c :: rest => if isspace c then space_run rest + 1 else 0

/-- The length of a sign, and whether it is a minus. -/
def sign_of (txt : List Char) : ℕ × Bool :=
  match txt with
  | '-' :: _ => (1, true)
  | '+' :: _ => (1, false)
  | _ => (0, false)

/-- The exponent part `e[sign]digits` at the head of `txt`: its length and value. -/
def exponent_of (txt : List Char) : ℕ × ℤ :=
  match txt with
  | c :: rest =>
    if c = 'e' ∨ c = 'E' then
      if (digit_run (rest.drop (sign_of rest).1) 0 0).2 = 0 then (0, 0)
      else
        (1 + (sign_of rest).1 + (digit_run (rest.drop (sign_of rest).1) 0 0).2,
         if (sign_of rest).2 then -((digit_run (rest.drop (sign_of rest).1) 0 0).1 : ℤ)
         else ((digit_run (rest.drop (sign_of rest).1) 0 0).1 : ℤ))
    else (0, 0)
  | [] => (0, 0)

/-- A decimal `strtof` with exact rational values. -/
def strtof_dec (txt : List Char) : ℚ × ℕ :=
  let ws := space_run txt
  let t1 := txt.drop ws
  let sg := sign_of t1
  let t2 := t1.drop sg.1
  let ip := digit_run t2 0 0
  let t3 := t2.drop ip.2
  let has_dot := t3.head? = some '.'
  let fp := if has_dot then digit_run (t3.drop 1) 0 0 else (0, 0)
  if ip.2 + fp.2 = 0 then (0, 0)
  else
    let flen := if has_dot then 1 + fp.2 else 0
    let t4 := t3.drop flen
    let ex := exponent_of t4
    let mant : ℚ := (ip.1 : ℚ) + (fp.1 : ℚ) / (10 : ℚ) ^ fp.2
    let val : ℚ :=
      if 0 ≤ ex.2 then mant * (10 : ℚ) ^ ex.2.toNat else mant / (10 : ℚ) ^ (-ex.2).toNat
    (if sg.2 then -val else val, ws + sg.1 + ip.2 + flen + ex.1)

/-- The text of the worked loading scenario, fifteen bytes without a final line break. -/
def scenario_text : List Char := "1.0 2.0\n3.0 4.0".toList

/-- A file of two records, seven bytes, without a final line break. -/
def two_line_text : List Char := "1 2\n3 4".toList

/-- A file of two records whose second line begins with a space, ten bytes. -/
def indented_text : List Char := "1 2\n 3 4 \n".toList

/-! ## main.cpp: the exit after loading -/

/-- The exit status of `main` as far as loading decides it: `1` when fewer than three
arguments are given, `1` ("Could not load dataset") when `load_points` reports `false`, and
`0` at the end of the run otherwise. -/
def main_exit_status (argc : ℕ) (loaded : LoadResult F) : ℕ :=
  if argc < 3 then 1
  else if !loaded.ok then 1
  else 0

/-! ## gpu_hip.cpp: the device arrays before the host reorder -/

/-- The arrays `(sorted_keys, sorted_idx)` of `run_gpu_sort`: the device arrays after the
launch of `distance_kernel` and the two sort loops, as copied back to the host.  Counters and
keys as in `run_gpu_sort`: for at most `2^29` points whose keys are not NaN these are the
arrays of the code, `gpu_sorted_arrays_f` (`gpu_sorted_arrays_f_eq`). -/
def gpu_sorted_arrays [LinearOrder F] [Zero F] [Add F] [Sub F] [Mul F] (inf : F)
    (pts : List (Point F)) (ref : List F) : DevState F :=
  let N := pts.length
  let D := ref.length
  let h_coords := flatten_coords pts N D
  let M := next_pow2 N
  let h_idx := make_idx N M
  let block := 256
  let grid := (M + block - 1) / block
  let d_keys := distance_kernel inf h_coords ref N D M (grid * block) (List.replicate M 0)
  sort_outer M (((M + block - 1) / block) * block) 2 (d_keys, h_idx)

/-! ## gpu_hip.cpp: the loop counters as 32-bit `int`

The counters `p`, `k` and `j` are `int`.  Here they are integers kept in
`[-2^31, 2^31)`: a left shift wraps modulo `2^32`, a right shift is arithmetic.  A loop
that may run for ever takes a bound on the number of tests of its condition and returns
`none` when the bound is used up. -/

/-- The 32-bit two's complement value of an integer. -/
def wrap_i32 (x : ℤ) : ℤ := (x + 2 ^ 31) % 2 ^ 32 - 2 ^ 31

/-- The statement `x <<= 1` on an `int`. -/
def shl1_i32 (x : ℤ) : ℤ := wrap_i32 (x * 2)

/-- The statement `x >>= 1` on an `int` (arithmetic shift). -/
def shr1_i32 (x : ℤ) : ℤ := x / 2

/-- The loop `while (p < v) p <<= 1;` of `next_pow2` on 32-bit counters, with at most
`fuel` tests of the condition; the result is the final `p`. -/
def next_pow2_loop_i32 : ℕ → ℤ → ℤ → Option ℤ
  | 0, _, _ => none
  | fuel + 1, v, p => if p < v then next_pow2_loop_i32 fuel v (shl1_i32 p) else some p

/-- The function `next_pow2(v)` on 32-bit counters. -/
def next_pow2_i32 (fuel : ℕ) (v : ℤ) : Option ℤ :=
  if v ≤ 1 then some 1 else next_pow2_loop_i32 fuel v 1

/-- The inner loop `for (; j > 0; j >>= 1) launch(k, j)` of the sort on 32-bit counters: the
list of the launches `(k, j)` it makes, in order. -/
def inner_passes_i32 : ℕ → ℤ → ℤ → Option (List (ℤ × ℤ))
  | 0, _, _ => none
  | fuel + 1, k, j =>
    if j > 0 then (inner_passes_i32 fuel k (shr1_i32 j)).map (fun rest => (k, j) :: rest)
    else some []

/-- The outer loop `for (; k <= M; k <<= 1) { for (j = k >> 1; ...) }` of the sort on 32-bit
counters: the list of the launches `(k, j)` it makes, in order. -/
def stage_passes_i32 : ℕ → ℤ → ℤ → Option (List (ℤ × ℤ))
  | 0, _, _ => none
  | fuel + 1, M, k =>
    if k ≤ M then
      (inner_passes_i32 fuel k (shr1_i32 k)).bind (fun here =>
        (stage_passes_i32 fuel M (shl1_i32 k)).map (fun rest => here ++ rest))
    else some []

/-- The launches of the sort loops for `M = 2^m` as the schedule lists them: stage
`k = 2^(s+1)` for `s = 0, ..., m-1`, and within it `j = 2^s, 2^(s-1), ..., 1`. -/
def stage_list (m : ℕ) : List (ℕ × ℕ) :=
  (List.range m).flatMap (fun s => (List.range (s + 1)).map (fun t => (2 ^ (s + 1), 2 ^ (s - t))))

/-- The launches `(k, j)` applied in order to the device arrays. -/
def run_passes [LinearOrder F] [Zero F] (M nthreads : ℕ) (passes : List (ℕ × ℕ))
    (st : DevState F) : DevState F :=
  passes.foldl (fun s kj => bitonic_step_kernel M kj.1 kj.2 nthreads s) st

/-! ## cpu_mergesort.cpp: the tree of splits -/

/-- The depth of the tree of splits of `mergesort_recursive(pts, scratch, left, right,
grain_size)`: the function returns at once or sorts sequentially under the same two tests
(depth `0`), and otherwise recurses on `[left, mid]` and `[mid + 1, right]` with the same
`mid`. -/
def split_depth (left right grain_size : ℕ) : ℕ :=
  if left ≥ right then 0
  else if right - left < grain_size then 0
  else
    let mid := left + (right - left) / 2
    1 + max (split_depth left mid grain_size) (split_depth (mid + 1) right grain_size)
termination_by right - left
decreasing_by
  all_goals simp_wf
  all_goals omega

/-- The grain size chosen by `mergesort_cpu` for `n` points and `num_threads` workers. -/
def grain_size_of (n num_threads : ℕ) : ℕ := max 2000 (n / (num_threads * 8))

/-! ## Sample data -/

/-- A single point with `dist` still `0`, as the loader leaves it. -/
def lone_point : List (Point ℤ) := [{ coords := [3, 4], dist := 0 }]

/-- Two points out of order. -/
def sample_pair : List (Point ℤ) :=
  [{ coords := [3, 4], dist := 25 }, { coords := [1, 1], dist := 2 }]

/-- The first line of a buffer: the bytes before the first `\n`, or the whole buffer when it
holds no `\n`. -/
def first_line (buf : List Char) : List Char :=
  buf.takeWhile (fun c => c ≠ '\n')

/-- The number of maximal runs of non-whitespace bytes of a line, counted by their first
bytes: the positions `i` that hold a non-whitespace byte and are either the first position or
preceded by a whitespace byte. -/
def token_runs (line : List Char) : ℕ :=
  ((List.range line.length).filter
    (fun i => !isspace (line.getD i ' ') && (i == 0 || isspace (line.getD (i - 1) ' ')))).length

/-- The same count for a line that follows a byte which is non-whitespace exactly when
`in_val` holds (the state of the scan on entering the line). -/
def token_runs_from (in_val : Bool) (line : List Char) : ℕ :=
  ((List.range line.length).filter
    (fun i => !isspace (line.getD i ' ')
      && (if i = 0 then !in_val else isspace (line.getD (i - 1) ' ')))).length

/-! ## load_points.cpp with checked reads

A read `addr[i]` of the mapping is `buf[i]?`: it has a value for `0 ≤ i < length` only.  The
functions below are the loops of `load_points` with every dereference made through such a
read; their result is `none` as soon as a read falls outside the mapping. -/

/-- The read `addr[i]` for a signed offset `i`. -/
def byte_at (buf : List Char) (i : ℤ) : Option Char :=
  if 0 ≤ i then buf[i.toNat]? else none

/-- Step 1 of `load_points` from position `pos`, with checked reads.  The loop test
`*first_line_ptr != '\n' && first_line_ptr < addr + length` reads the byte first and compares
the pointer with the end afterwards. -/
def first_line_checked (buf : List Char) (pos : ℕ) (in_val : Bool) (D : ℕ) : Option ℕ :=
  match byte_at buf pos with
  | none => none
  | some c =>
    if _hc : c ≠ '\n' ∧ pos < buf.length then
      if !isspace c then
        if !in_val then first_line_checked buf (pos + 1) true (D + 1)
        else first_line_checked buf (pos + 1) in_val D
      else first_line_checked buf (pos + 1) false D
    else some D
termination_by buf.length - pos
decreasing_by
  all_goals simp_wf
  all_goals omega

/-- The realignment loop `while (my_start < my_end && *(my_start - 1) != '\n') my_start++;`
with checked reads (first argument: the bound `my_end - my_start`). -/
def realign_checked (buf : List Char) (my_end : ℕ) : ℕ → ℕ → Option ℕ
  | 0, my_start => some my_start
  | fuel + 1, my_start =>
    if my_start < my_end then
      match byte_at buf ((my_start : ℤ) - 1) with
      | none => none
      | some c =>
        if c ≠ '\n' then realign_checked buf my_end fuel (my_start + 1)
        else some my_start
    else some my_start

/-- The loop `for (p = addr; p < my_start; p++) if (*p == '\n') global_idx++;` with checked
reads. -/
def count_before_checked (buf : List Char) (my_start : ℕ) : Option ℕ :=
  (List.range my_start).foldl
    (fun acc (p : ℕ) =>
      match acc, byte_at buf (p : ℤ) with
      | some global_idx, some c => some (if c = '\n' then global_idx + 1 else global_idx)
      | _, _ => none)
    (some 0)

/-- The loop `while (curr < my_end && (*curr == '\n' || *curr == '\r' || *curr == ' '))
curr++;` with checked reads (first argument: the bound `my_end - curr`). -/
def skip_breaks_checked (buf : List Char) (my_end : ℕ) : ℕ → ℕ → Option ℕ
  | 0, curr => some curr
  | fuel + 1, curr =>
    if curr < my_end then
      match byte_at buf curr with
      | none => none
      | some c =>
        if c = '\n' ∨ c = '\r' ∨ c = ' ' then skip_breaks_checked buf my_end fuel (curr + 1)
        else some curr
    else some curr

/-- A call `strtof(curr, &next)` with checked reads.  The routine reads the bytes it
consumes and the byte `*next` at which the conversion stops (the mapping holds no terminating
NUL byte for it to stop at). -/
def strtof_checked (strtof : List Char → F × ℕ) (buf : List Char) (curr : ℕ) :
    Option (F × ℕ) :=
  match byte_at buf ((curr : ℤ) + ((strtof (buf.drop curr)).2 : ℤ)) with
  | none => none
  | some _ => some (strtof (buf.drop curr))

/-- The loop `for (i = 0; i < D; ++i) { points[idx].coords[i] = strtof(curr, &next);
curr = next; }` with checked reads; returns the final `(curr, points)`. -/
def parse_record_checked [Zero F] (strtof : List Char → F × ℕ) (buf : List Char) (D idx : ℕ)
    (curr : ℕ) (points : List (Point F)) : Option (ℕ × List (Point F)) :=
  (List.range D).foldl
    (fun st i =>
      match st with
      | none => none
      | some (curr, points) =>
        match strtof_checked strtof buf curr with
        | none => none
        | some r =>
          some (curr + r.2,
            points.set idx { points.getD idx default with
              coords := (points.getD idx default).coords.set i r.1 }))
    (some (curr, points))

/-- The record loop of a worker with checked reads (first argument: the bound
`N - (global_idx + local_count)`). -/
def parse_chunk_checked [Zero F] (strtof : List Char → F × ℕ) (buf : List Char) (D N my_end
    global_idx : ℕ) : ℕ → ℕ → ℕ → List (Point F) → Option (List (Point F))
  | 0, _, _, points => some points
  | fuel + 1, curr, local_count, points =>
    if curr < my_end then
      if global_idx + local_count ≥ N then some points
      else
        match parse_record_checked strtof buf D (global_idx + local_count) curr points with
        | none => none
        | some (curr1, points1) =>
          match skip_breaks_checked buf my_end (my_end - curr1) curr1 with
          | none => none
          | some curr2 =>
            parse_chunk_checked strtof buf D N my_end global_idx fuel curr2 (local_count + 1)
              points1
    else some points

/-- The body of the parallel region of step 4 for worker `tid` of `n_threads`, with checked
reads. -/
def load_thread_checked [Zero F] (strtof : List Char → F × ℕ) (buf : List Char)
    (D N n_threads : ℕ) (points : List (Point F)) (tid : ℕ) : Option (List (Point F)) :=
  let length := buf.length
  let chunk_size := length / n_threads
  let my_end := if tid = n_threads - 1 then length else (tid + 1) * chunk_size
  match (if tid ≠ 0 then realign_checked buf my_end (my_end - tid * chunk_size) (tid * chunk_size)
         else some (tid * chunk_size)) with
  | none => none
  | some my_start =>
    match count_before_checked buf my_start with
    | none => none
    | some global_idx =>
      parse_chunk_checked strtof buf D N my_end global_idx (N - global_idx) my_start 0 points

/-- The function `load_points` with checked reads, run by `n_threads` workers: `none` when
some read falls outside the mapping.  (Step 2 reads `addr[i]` for `i < length` and
`addr[length - 1]` for `length > 0` only.) -/
def load_points_checked [Zero F] (strtof : List Char → F × ℕ) (n_threads : ℕ)
    (sched : ℕ → ℕ) (buf : List Char) : Option (LoadResult F) :=
  match first_line_checked buf 0 false 0 with
  | none => none
  | some D =>
    let N := count_records buf n_threads sched
    let resized : List (Point F) := List.replicate N { coords := List.replicate D 0, dist := 0 }
    match (List.range n_threads).foldl
        (fun acc tid =>
          match acc with
          | none => none
          | some points => load_thread_checked strtof buf D N n_threads points tid)
        (some resized) with
    | none => none
    | some points => some { ok := !points.isEmpty, points := points, D := D }

/-- A file of one record, three bytes, without a final line break. -/
def one_line_text : List Char := "1 2".toList

/-- A file of one record of one value, two bytes, ending in a line break. -/
def short_text : List Char := "1\n".toList

/-- A first line with leading, repeated and trailing white space around three tokens. -/
def spaced_text : List Char := "  1.5\t -2   3e4 \r\n7 8 9\n".toList

/-! ## gpu_hip.cpp with `float` comparisons and 32-bit counters

The definitions above take the keys in a linear order and the counters as natural numbers.
Here the kernel compares keys with the two comparisons of `float` it really uses, which are
both false on a NaN, and the host loops run on 32-bit counters (`next_pow2_i32`,
`stage_passes_i32`) with a bound on their steps. -/

/-- The comparisons of `float` keys made by `bitonic_step_kernel`: `a < b` and `a == b`
(`a > b` is `b < a`). -/
structure FloatCmp (F : Type) where
  lt : F → F → Bool
  eq : F → F → Bool

/-- A value is not a NaN when it compares equal to itself. -/
def FloatCmp.not_nan (cmp : FloatCmp F) (a : F) : Prop := cmp.eq a a = true

instance instDecidableNotNan (cmp : FloatCmp F) (a : F) : Decidable (cmp.not_nan a) :=
  inferInstanceAs (Decidable (cmp.eq a a = true))

/-- The comparisons are those of the linear order of `F` on the values that are not NaN, and
`0.0f` is not a NaN. -/
def FloatCmp.Agrees [LinearOrder F] [Zero F] (cmp : FloatCmp F) : Prop :=
  cmp.eq 0 0 = true ∧
  ∀ a b, cmp.eq a a = true → cmp.eq b b = true →
    (cmp.lt a b = true ↔ a < b) ∧ (cmp.eq a b = true ↔ a = b)

/-- The comparisons of a linearly ordered type that has no NaN. -/
def exact_cmp [LinearOrder F] : FloatCmp F :=
  { lt := fun a b => decide (a < b), eq := fun a b => decide (a = b) }

/-- One thread of `bitonic_step_kernel`, thread index `i`, with the comparisons `cmp`. -/
def bitonic_step_thread_f [Zero F] (cmp : FloatCmp F) (M k j : ℕ) (st : DevState F) (i : ℕ) :
    DevState F :=
  if i ≥ M then st
  else
    let ixj := i ^^^ j
    if ixj ≤ i then st
    else
      let key_i := st.1.getD i 0
      let key_j := st.1.getD ixj 0
      let val_i := st.2.getD i 0
      let val_j := st.2.getD ixj 0
      let ascending := (i &&& k) = 0
      if ascending then
        if cmp.lt key_j key_i = true ∨ (cmp.eq key_i key_j = true ∧ val_i > val_j) then
          ((st.1.set i key_j).set ixj key_i, (st.2.set i val_j).set ixj val_i)
        else st
      else
        if cmp.lt key_i key_j = true ∨ (cmp.eq key_i key_j = true ∧ val_i < val_j) then
          ((st.1.set i key_j).set ixj key_i, (st.2.set i val_j).set ixj val_i)
        else st

/-- A launch of `bitonic_step_kernel` with `nthreads = grid * block` threads. -/
def bitonic_step_kernel_f [Zero F] (cmp : FloatCmp F) (M k j nthreads : ℕ) (st : DevState F) :
    DevState F :=
  (List.range nthreads).foldl (bitonic_step_thread_f cmp M k j) st

/-- The launches `(k, j)` made by the sort loops, applied in order to the device arrays. -/
def run_passes_f [Zero F] (cmp : FloatCmp F) (M nthreads : ℕ) (passes : List (ℤ × ℤ))
    (st : DevState F) : DevState F :=
  passes.foldl (fun s kj => bitonic_step_kernel_f cmp M kj.1.toNat kj.2.toNat nthreads s) st

/-- The arrays `(sorted_keys, sorted_idx)` of `run_gpu_sort` for `N ≥ 1`: the device arrays
after `next_pow2`, the launch of `distance_kernel` and the two sort loops, all on 32-bit
counters; `none` when a loop has not ended within `fuel` tests of its condition. -/
def gpu_sorted_arrays_f [Zero F] [Add F] [Sub F] [Mul F] (cmp : FloatCmp F) (fuel : ℕ)
    (inf : F) (pts : List (Point F)) (ref : List F) : Option (DevState F) :=
  let N := pts.length
  let D := ref.length
  let h_coords := flatten_coords pts N D
  match next_pow2_i32 fuel (N : ℤ) with
  | none => none
  | some Mz =>
    let M := Mz.toNat
    let h_idx := make_idx N M
    let block := 256
    let grid := (M + block - 1) / block
    let d_keys := distance_kernel inf h_coords ref N D M (grid * block) (List.replicate M 0)
    match stage_passes_i32 fuel Mz 2 with
    | none => none
    | some passes =>
      some (run_passes_f cmp M (((M + block - 1) / block) * block) passes (d_keys, h_idx))

/-- What a call of `run_gpu_sort` comes to. -/
inductive GpuRun (F : Type) where
  /-- A loop of the host has not ended within the bound on its steps. -/
  | no_return : GpuRun F
  /-- The host reorder has read `pts[old_idx]` outside the vector. -/
  | out_of_bounds : GpuRun F
  /-- The call has returned, leaving `out` in `pts`. -/
  | finished (out : List (Point F)) : GpuRun F
deriving DecidableEq

/-- The function `run_gpu_sort(pts, ref)` with the comparisons of `float` and 32-bit
counters; `inf` is the value of `INFINITY`.  The size of `pts` is taken below `2^31`, where
the cast `(int)pts.size()` keeps it. -/
def run_gpu_sort_f [Zero F] [Add F] [Sub F] [Mul F] (cmp : FloatCmp F) (fuel : ℕ) (inf : F)
    (pts : List (Point F)) (ref : List F) : GpuRun F :=
  let N := pts.length
  if N = 0 then GpuRun.finished pts
  else
    match gpu_sorted_arrays_f cmp fuel inf pts ref with
    | none => GpuRun.no_return
    | some sorted =>
      match (List.range N).foldl (host_reorder_step sorted.2 sorted.1)
          (some (pts, List.replicate N default)) with
      | none => GpuRun.out_of_bounds
      | some (_, temp) => GpuRun.finished temp

/-! ## cpu_distance.cpp: the inner loop as a reduction -/

/-- The terms `diff * diff` of the inner loop, for `j < D`. -/
def sq_terms [Zero F] [Sub F] [Mul F] (p_ptr r_ptr : List F) (D : ℕ) : List F :=
  (List.range D).map
    (fun j => (p_ptr.getD j 0 - r_ptr.getD j 0) * (p_ptr.getD j 0 - r_ptr.getD j 0))

/-- The function `compute_distances_cpu` with its inner loop taken as the
`#pragma omp simd reduction(+:sum)` it is: the order in which the terms are added is left to
the compiler, and `reduce` is the value the reduction gives to the list of terms. -/
def compute_distances_simd [Zero F] [Sub F] [Mul F] (reduce : List F → F)
    (pts : List (Point F)) (ref : List F) : List (Point F) :=
  (List.range pts.length).foldl
    (fun acc i => acc.set i { acc.getD i default with
      dist := reduce (sq_terms (acc.getD i default).coords ref ref.length) })
    pts

/-- A reduction over two lanes: the terms of even and of odd position are added up
separately, from `0`, and the two sums are added. -/
def two_lane_sum [Zero F] [Add F] (terms : List F) : F :=
  (terms.enum.foldl (fun (s : F × F) (t : ℕ × F) =>
    if t.1 % 2 = 0 then (s.1 + t.2, s.2) else (s.1, s.2 + t.2)) (0, 0)).1
  + (terms.enum.foldl (fun (s : F × F) (t : ℕ × F) =>
    if t.1 % 2 = 0 then (s.1 + t.2, s.2) else (s.1, s.2 + t.2)) (0, 0)).2

/-! ## The values of `float`

The values of IEEE binary32: NaN, the two infinities and the finite values, held as
rationals.  An operation on finite values gives the exact result rounded to the nearest
binary32 value, ties to even.  The sign of zero is not kept. -/

/-- A value of `float`. -/
inductive Flt where
  | nan : Flt
  | ninf : Flt
  | pinf : Flt
  | fin (q : ℚ) : Flt
deriving DecidableEq

/-- The power `2^e` for an integer `e`. -/
def pow2 (e : ℤ) : ℚ :=
  if 0 ≤ e then (2 : ℚ) ^ e.toNat else 1 / (2 : ℚ) ^ (-e).toNat

/-- The number of halvings that bring `n` below `2` (first argument: a bound on their
number, `n` itself serves). -/
def halvings : ℕ → ℕ → ℕ
  | 0, _ => 0
  | fuel + 1, n => if n < 2 then 0 else halvings fuel (n / 2) + 1

/-- The exponent of a positive natural number: the `e` with `2^e ≤ n < 2^(e+1)`. -/
def nat_log2 (n : ℕ) : ℕ := halvings n n

/-- The exponent of a positive rational: the `e` with `2^e ≤ a < 2^(e+1)`. -/
def floor_log2 (a : ℚ) : ℤ :=
  if pow2 ((nat_log2 a.num.natAbs : ℤ) - (nat_log2 a.den : ℤ)) ≤ a then
    (nat_log2 a.num.natAbs : ℤ) - (nat_log2 a.den : ℤ)
  else (nat_log2 a.num.natAbs : ℤ) - (nat_log2 a.den : ℤ) - 1

/-- The integer nearest to a non-negative rational, ties to even. -/
def round_even (x : ℚ) : ℤ :=
  if x - ((x.num / x.den : ℤ) : ℚ) < 1 / 2 then x.num / x.den
  else if 1 / 2 < x - ((x.num / x.den : ℤ) : ℚ) then x.num / x.den + 1
  else if (x.num / x.den) % 2 = 0 then x.num / x.den
  else x.num / x.den + 1

/-- The binary32 value nearest to a rational: 24 significant bits, exponents from `-126`
(below which the spacing stays `2^-149`), overflow to an infinity from `2^128`. -/
def round_f32 (q : ℚ) : Flt :=
  if q = 0 then Flt.fin 0
  else
    let a : ℚ := if q < 0 then -q else q
    let e : ℤ := max (floor_log2 a) (-126)
    let ulp : ℚ := pow2 (e - 23)
    let r : ℚ := (round_even (a / ulp) : ℚ) * ulp
    if pow2 128 ≤ r then (if q < 0 then Flt.ninf else Flt.pinf)
    else Flt.fin (if q < 0 then -r else r)

/-- The negation of a `float`. -/
def Flt.neg : Flt → Flt
  | Flt.nan => Flt.nan
  | Flt.ninf => Flt.pinf
  | Flt.pinf => Flt.ninf
  | Flt.fin q => Flt.fin (-q)

/-- The sum of two `float`s. -/
def Flt.add : Flt → Flt → Flt
  | Flt.nan, _ => Flt.nan
  | _, Flt.nan => Flt.nan
  | Flt.pinf, Flt.ninf => Flt.nan
  | Flt.ninf, Flt.pinf => Flt.nan
  | Flt.pinf, _ => Flt.pinf
  | _, Flt.pinf => Flt.pinf
  | Flt.ninf, _ => Flt.ninf
  | _, Flt.ninf => Flt.ninf
  | Flt.fin a, Flt.fin b => round_f32 (a + b)

/-- The product of two `float`s. -/
def Flt.mul : Flt → Flt → Flt
  | Flt.nan, _ => Flt.nan
  | _, Flt.nan => Flt.nan
  | Flt.fin a, Flt.fin b => round_f32 (a * b)
  | Flt.fin a, Flt.pinf => if a = 0 then Flt.nan else if a < 0 then Flt.ninf else Flt.pinf
  | Flt.fin a, Flt.ninf => if a = 0 then Flt.nan else if a < 0 then Flt.pinf else Flt.ninf
  | Flt.pinf, Flt.fin b => if b = 0 then Flt.nan else if b < 0 then Flt.ninf else Flt.pinf
  | Flt.ninf, Flt.fin b => if b = 0 then Flt.nan else if b < 0 then Flt.pinf else Flt.ninf
  | Flt.pinf, Flt.pinf => Flt.pinf
  | Flt.ninf, Flt.ninf => Flt.pinf
  | Flt.pinf, Flt.ninf => Flt.ninf
  | Flt.ninf, Flt.pinf => Flt.ninf

instance instZeroFlt : Zero Flt := ⟨Flt.fin 0⟩

instance instAddFlt : Add Flt := ⟨Flt.add⟩

instance instSubFlt : Sub Flt := ⟨fun a b => Flt.add a (Flt.neg b)⟩

instance instMulFlt : Mul Flt := ⟨Flt.mul⟩

/-- The place of a `float` in the order `-inf < finite < +inf < NaN`: its class, and its
value when finite. -/
def Flt.rank : Flt → Lex (ℕ × ℚ)
  | Flt.ninf => toLex (1, 0)
  | Flt.fin q => toLex (2, q)
  | Flt.pinf => toLex (3, 0)
  | Flt.nan => toLex (4, 0)

/-- The order `-inf < finite < +inf < NaN` on `float`: the order of the values that are not
NaN, with NaN put last. -/
instance instLinearOrderFlt : LinearOrder Flt :=
  LinearOrder.lift' Flt.rank (by
    intro a b h
    cases a <;> cases b <;> simp_all [Flt.rank])

/-- The comparisons `<` and `==` of `float`: false whenever an operand is a NaN. -/
def ieee_cmp : FloatCmp Flt :=
  { lt := fun a b =>
      match a, b with
      | Flt.nan, _ => false
      | _, Flt.nan => false
      | a, b => decide (Flt.rank a < Flt.rank b)
    eq := fun a b =>
      match a, b with
      | Flt.nan, _ => false
      | _, Flt.nan => false
      | a, b => decide (a = b) }

/-! ## Sample data for the device -/

/-- Six points of dimension one: five at `1` and one whose coordinate is a NaN. -/
def nan_points : List (Point Flt) :=
  [{ coords := [Flt.fin 1], dist := 0 }, { coords := [Flt.fin 1], dist := 0 },
   { coords := [Flt.fin 1], dist := 0 }, { coords := [Flt.fin 1], dist := 0 },
   { coords := [Flt.fin 1], dist := 0 }, { coords := [Flt.nan], dist := 0 }]

/-- Three points of the plane whose keys from the origin are `25`, `+inf` and `2`: none is a
NaN, and one real key equals the key of the padding. -/
def flt_points : List (Point Flt) :=
  [{ coords := [Flt.fin 3, Flt.fin 4], dist := 0 }, { coords := [Flt.pinf, Flt.fin 0], dist := 0 },
   { coords := [Flt.fin 1, Flt.fin 1], dist := 0 }]

/-- One point of dimension three whose squared differences from the origin are `1`, `2^24`
and `1`. -/
def rounding_point : List (Point Flt) :=
  [{ coords := [Flt.fin 1, Flt.fin 4096, Flt.fin 1], dist := 0 }]

/-- Four points of the line whose keys from the origin are `1`, `4`, `1` and a NaN. -/
def unordered_points : List (Point Flt) :=
  [{ coords := [Flt.fin 1], dist := 0 }, { coords := [Flt.fin 2], dist := 0 },
   { coords := [Flt.fin 1], dist := 0 }, { coords := [Flt.nan], dist := 0 }]

/-- A collection of `n` points at the origin of the line. -/
def origin_points (n : ℕ) : List (Point ℤ) :=
  List.replicate n { coords := [0], dist := 0 }

/-! ## List bookkeeping -/

theorem getD_append_cons {α : Type} (P R : List α) (a d : α) :
    (P ++ a :: R).getD P.length d = a := by
  induction P with
  | nil => rfl
  | cons x P ih => simpa using ih

theorem set_append_cons {α : Type} (P R : List α) (s a : α) :
    (P ++ s :: R).set P.length a = P ++ a :: R := by
  induction P with
  | nil => rfl
  | cons x P ih => simp [ih]

theorem getD_append_cons_at {α : Type} (P R : List α) (a d : α) (n : ℕ) (h : P.length = n) :
    (P ++ a :: R).getD n d = a := by
  subst h; exact getD_append_cons P R a d

theorem set_append_cons_at {α : Type} (P R : List α) (s a : α) (n : ℕ) (h : P.length = n) :
    (P ++ s :: R).set n a = P ++ a :: R := by
  subst h; exact set_append_cons P R s a

/-! ## cpu_mergesort.cpp: the merge -/

theorem copy_run_append [Zero F] (A : List (Point F)) :
    ∀ (P Q P' S' Q' : List (Point F)) (last i k : ℕ),
      P.length = i → A.length = last + 1 - i → i ≤ last + 1 →
      P'.length = k → S'.length = A.length →
      copy_run (P ++ A ++ Q) last i k (P' ++ S' ++ Q') = (last + 1, k + A.length, P' ++ A ++ Q') := by
  induction A with
  | nil =>
    intro P Q P' S' Q' last i k hP hA hi hP' hS'
    have hS : S' = [] := List.length_eq_zero.mp (by simpa using hS')
    subst hS
    have hi' : i = last + 1 := by simp at hA; omega
    subst hi'
    rw [copy_run]
    simp
  | cons a A ih =>
    intro P Q P' S' Q' last i k hP hA hi hP' hS'
    cases S' with
    | nil => simp at hS'
    | cons s S'' =>
      simp only [List.length_cons] at hA hS'
      have hle : i ≤ last := by omega
      rw [copy_run, if_pos hle]
      have h1 : (P ++ a :: A ++ Q).getD i default = a := by
        rw [List.append_assoc, List.cons_append, ← hP]; exact getD_append_cons _ _ _ _
      have h2 : (P' ++ s :: S'' ++ Q').set k a = P' ++ a :: S'' ++ Q' := by
        rw [List.append_assoc, List.cons_append, ← hP', set_append_cons]; simp
      rw [h1, h2]
      have h3 : P ++ a :: A ++ Q = (P ++ [a]) ++ A ++ Q := by simp
      have h4 : P' ++ a :: S'' ++ Q' = (P' ++ [a]) ++ S'' ++ Q' := by simp
      rw [h3, h4, ih (P ++ [a]) Q (P' ++ [a]) S'' Q' last (i + 1) (k + 1)
        (by simp [hP]) (by omega) (by omega) (by simp [hP']) (by omega)]
      simp
      omega

theorem copy_back_append [Zero F] (S : List (Point F)) :
    ∀ (P A Q P' Q' : List (Point F)) (right p : ℕ),
      P.length = p → P'.length = p → S.length = right + 1 - p → p ≤ right + 1 →
      A.length = S.length →
      copy_back (P' ++ S ++ Q') right p (P ++ A ++ Q) = P ++ S ++ Q := by
  induction S with
  | nil =>
    intro P A Q P' Q' right p hP hP' hS hp hA
    have hA' : A = [] := List.length_eq_zero.mp (by simpa using hA)
    subst hA'
    have hp' : p = right + 1 := by simp at hS; omega
    subst hp'
    rw [copy_back]
    simp
  | cons s S ih =>
    intro P A Q P' Q' right p hP hP' hS hp hA
    cases A with
    | nil => simp at hA
    | cons a A =>
      simp only [List.length_cons] at hA hS
      have hle : p ≤ right := by omega
      rw [copy_back, if_pos hle]
      have h1 : (P' ++ s :: S ++ Q').getD p default = s := by
        rw [List.append_assoc, List.cons_append, ← hP']; exact getD_append_cons _ _ _ _
      have h2 : (P ++ a :: A ++ Q).set p s = P ++ s :: A ++ Q := by
        rw [List.append_assoc, List.cons_append, ← hP, set_append_cons]; simp
      rw [h1, h2]
      have h3 : P ++ s :: A ++ Q = (P ++ [s]) ++ A ++ Q := by simp
      have h4 : P' ++ s :: S ++ Q' = (P' ++ [s]) ++ S ++ Q' := by simp
      rw [h3, h4, ih (P ++ [s]) A Q (P' ++ [s]) Q' right (p + 1)
        (by simp [hP]) (by simp [hP']) (by omega) (by omega) (by omega)]
      simp

theorem copy_run_stop [Zero F] (pts scratch : List (Point F)) (last i k : ℕ) (h : last < i) :
    copy_run pts last i k scratch = (i, k, scratch) := by
  rw [copy_run, if_neg (by omega)]

theorem merge_fill_append [LinearOrder F] [Zero F] (pts : List (Point F)) (mid right : ℕ)
    (A : List (Point F)) :
    ∀ (B Pa Ra Pb Rb P' S' Q' : List (Point F)) (i j k : ℕ),
      pts = Pa ++ A ++ Ra → pts = Pb ++ B ++ Rb → Pa.length = i → Pb.length = j →
      A.length = mid + 1 - i → i ≤ mid + 1 → B.length = right + 1 - j → j ≤ right + 1 →
      P'.length = k → S'.length = A.length + B.length →
      (copy_run pts right (merge_both pts mid right i j k (P' ++ S' ++ Q')).2.1
        (copy_run pts mid (merge_both pts mid right i j k (P' ++ S' ++ Q')).1
          (merge_both pts mid right i j k (P' ++ S' ++ Q')).2.2.1
          (merge_both pts mid right i j k (P' ++ S' ++ Q')).2.2.2).2.1
        (copy_run pts mid (merge_both pts mid right i j k (P' ++ S' ++ Q')).1
          (merge_both pts mid right i j k (P' ++ S' ++ Q')).2.2.1
          (merge_both pts mid right i j k (P' ++ S' ++ Q')).2.2.2).2.2).2.2
        = P' ++ List.merge A B (fun a b => decide (a.dist ≤ b.dist)) ++ Q' := by
  induction A with
  | nil =>
    intro B Pa Ra Pb Rb P' S' Q' i j k hA hB hPa hPb hAl hi hBl hj hP' hS'
    have hi' : i = mid + 1 := by simp at hAl; omega
    rw [merge_both, if_neg (by omega)]
    simp only
    rw [copy_run_stop pts _ mid i k (by omega)]
    simp only
    rw [hB, copy_run_append B Pb Rb P' S' Q' right j k hPb hBl hj hP' (by simpa using hS')]
    simp
  | cons a A ihA =>
    intro B
    induction B with
    | nil =>
      intro Pa Ra Pb Rb P' S' Q' i j k hA hB hPa hPb hAl hi hBl hj hP' hS'
      have hj' : j = right + 1 := by simp at hBl; omega
      rw [merge_both, if_neg (by omega)]
      simp only
      rw [hA, copy_run_append (a :: A) Pa Ra P' S' Q' mid i k hPa hAl hi hP' (by simpa using hS')]
      simp only
      rw [copy_run_stop _ _ right j _ (by omega)]
      simp
    | cons b B ihB =>
      intro Pa Ra Pb Rb P' S' Q' i j k hA hB hPa hPb hAl hi hBl hj hP' hS'
      simp only [List.length_cons] at hAl hBl hS'
      cases S' with
      | nil => simp at hS'; omega
      | cons s S'' =>
        simp only [List.length_cons] at hS'
        have hga : pts.getD i default = a := by
          rw [hA, List.append_assoc, List.cons_append, ← hPa]; exact getD_append_cons _ _ _ _
        have hgb : pts.getD j default = b := by
          rw [hB, List.append_assoc, List.cons_append, ← hPb]; exact getD_append_cons _ _ _ _
        have hset : ∀ x, (P' ++ s :: S'' ++ Q').set k x = (P' ++ [x]) ++ S'' ++ Q' := by
          intro x
          rw [List.append_assoc, List.cons_append, ← hP', set_append_cons]; simp
        rw [merge_both, if_pos (by omega), hga, hgb]
        by_cases hle : a.dist ≤ b.dist
        · rw [if_pos hle, hset]
          have := ihA (b :: B) (Pa ++ [a]) Ra Pb Rb (P' ++ [a]) S'' Q' (i + 1) j (k + 1)
            (by simp [hA]) hB (by simp [hPa]) hPb (by omega) (by omega)
            (by simp; omega) hj (by simp [hP']) (by simp; omega)
          rw [this]
          simp [List.merge, hle]
        · rw [if_neg hle, hset]
          have := ihB Pa Ra (Pb ++ [b]) Rb (P' ++ [b]) S'' Q' i (j + 1) (k + 1)
            hA (by simp [hB]) hPa (by simp [hPb]) (by simp; omega) hi
            (by omega) (by omega) (by simp [hP']) (by simp; omega)
          rw [this]
          simp [List.merge, hle]

theorem merge_optimized_append [LinearOrder F] [Zero F]
    (P A B Q P' S' Q' : List (Point F)) (left mid right : ℕ)
    (hP : P.length = left) (hP' : P'.length = left) (hlm : left ≤ mid) (hmr : mid ≤ right)
    (hA : A.length = mid + 1 - left) (hB : B.length = right - mid)
    (hS' : S'.length = A.length + B.length) :
    merge_optimized (P ++ A ++ B ++ Q) (P' ++ S' ++ Q') left mid right
      = (P ++ List.merge A B (fun a b => decide (a.dist ≤ b.dist)) ++ Q,
         P' ++ List.merge A B (fun a b => decide (a.dist ≤ b.dist)) ++ Q') := by
  have hfill := merge_fill_append (P ++ A ++ B ++ Q) mid right A B P (B ++ Q) (P ++ A) Q P' S' Q'
    left (mid + 1) left (by simp) (by simp) hP (by simp [hP, hA]; omega) hA (by omega)
    (by omega) (by omega) hP' hS'
  unfold merge_optimized
  simp only
  rw [hfill]
  have hml : (List.merge A B (fun a b => decide (a.dist ≤ b.dist))).length
      = A.length + B.length := by
    simp [(@List.merge_perm_append _ (fun a b : Point F => decide (a.dist ≤ b.dist))
      A B).length_eq]
  have hcb := copy_back_append (List.merge A B (fun a b => decide (a.dist ≤ b.dist)))
    P (A ++ B) Q P' Q' right left hP hP' (by rw [hml]; omega) (by omega) (by simp [hml])
  have hre : P ++ A ++ B ++ Q = P ++ (A ++ B) ++ Q := by simp
  rw [hre, hcb]

theorem split_middle {α : Type} (P S Q : List α) (n : ℕ) :
    P ++ S ++ Q = P ++ S.take n ++ (S.drop n ++ Q) := by
  rw [List.append_assoc P (S.take n), ← List.append_assoc (S.take n), List.take_append_drop,
    List.append_assoc]

theorem pairwise_of_length_le_one {α : Type} (R : α → α → Prop) (l : List α)
    (h : l.length ≤ 1) : l.Pairwise R := by
  match l, h with
  | [], _ => exact List.Pairwise.nil
  | [a], _ => exact List.pairwise_singleton R a
  | _ :: _ :: _, h => simp at h

theorem sorted_merge_dist [LinearOrder F] (A B : List (Point F))
    (hA : A.Pairwise (fun a b => a.dist ≤ b.dist))
    (hB : B.Pairwise (fun a b => a.dist ≤ b.dist)) :
    (List.merge A B (fun a b => decide (a.dist ≤ b.dist))).Pairwise
      (fun a b => a.dist ≤ b.dist) := by
  have h := @List.sorted_merge _ (fun a b : Point F => decide (a.dist ≤ b.dist))
    (by intro a b c hab hbc; simp only [decide_eq_true_eq] at *; exact le_trans hab hbc)
    (by intro a b; simp only [Bool.or_eq_true, decide_eq_true_eq]; exact le_total _ _)
    A B (by simpa using hA) (by simpa using hB)
  simpa using h

/-- What a call of `mergesort_recursive` on the range `[left, right]` does: the range is
replaced by a sorted rearrangement of itself, the rest of `pts` is untouched, and `scratch`
changes at most inside the range. -/
theorem mergesort_recursive_append [LinearOrder F] [Zero F]
    (sort : List (Point F) → List (Point F)) (hsort : StdSortContract sort) (grain_size : ℕ) :
    ∀ (d left right : ℕ) (P S Q P' S' Q' : List (Point F)),
      right - left = d → P.length = left → P'.length = left →
      S.length = right + 1 - left → left ≤ right + 1 → S'.length = S.length →
      ∃ X T, mergesort_recursive sort (P ++ S ++ Q) (P' ++ S' ++ Q') left right grain_size
          = (P ++ X ++ Q, P' ++ T ++ Q') ∧
        X.Perm S ∧ X.Pairwise (fun a b => a.dist ≤ b.dist) ∧ T.length = S'.length := by
  intro d
  induction d using Nat.strong_induction_on with
  | _ d ih =>
    intro left right P S Q P' S' Q' hd hP hP' hS hlr hS'
    rw [mergesort_recursive]
    by_cases h1 : left ≥ right
    · rw [if_pos h1]
      exact ⟨S, S', rfl, List.Perm.refl _,
        pairwise_of_length_le_one _ _ (by omega), rfl⟩
    · rw [if_neg h1]
      by_cases h2 : right - left < grain_size
      · rw [if_pos h2]
        refine ⟨sort S, S', ?_, (hsort S).1, ?_, rfl⟩
        · unfold std_sort_range
          have e1 : (P ++ S ++ Q).take left = P := by
            rw [List.append_assoc, ← hP]; simp
          have e2 : ((P ++ S ++ Q).drop left).take (right + 1 - left) = S := by
            rw [List.append_assoc, List.drop_left' hP, List.take_left' hS]
          have e3 : (P ++ S ++ Q).drop (right + 1) = Q := by
            have : right + 1 = (P ++ S).length := by simp [hP, hS]; omega
            rw [this]; simp
          rw [e1, e2, e3]
        · exact (hsort S).2.imp (fun h => not_lt.mp h)
      · rw [if_neg h2]
        simp only
        have hm1 : left ≤ left + (right - left) / 2 := by omega
        have hm2 : left + (right - left) / 2 < right := by omega
        generalize hmid : left + (right - left) / 2 = mid at hm1 hm2 ⊢
        have hsplit : S = S.take (mid + 1 - left) ++ S.drop (mid + 1 - left) :=
          (List.take_append_drop _ _).symm
        have hsplit' : S' = S'.take (mid + 1 - left) ++ S'.drop (mid + 1 - left) :=
          (List.take_append_drop _ _).symm
        have hl1 : (S.take (mid + 1 - left)).length = mid + 1 - left := by
          simp [hS]; omega
        have hl2 : (S.drop (mid + 1 - left)).length = right - mid := by
          simp [hS]; omega
        have hl1' : (S'.take (mid + 1 - left)).length = mid + 1 - left := by
          simp [hS', hS]; omega
        have hl2' : (S'.drop (mid + 1 - left)).length = right - mid := by
          simp [hS', hS]; omega
        obtain ⟨X1, T1, e1, p1, s1, t1⟩ := ih (mid - left) (by omega) left mid P
          (S.take (mid + 1 - left)) (S.drop (mid + 1 - left) ++ Q) P'
          (S'.take (mid + 1 - left)) (S'.drop (mid + 1 - left) ++ Q') rfl hP hP'
          hl1 (by omega) (by rw [hl1', hl1])
        have epts : P ++ S ++ Q
            = P ++ S.take (mid + 1 - left) ++ (S.drop (mid + 1 - left) ++ Q) := by
          exact split_middle P S Q _
        have escr : P' ++ S' ++ Q'
            = P' ++ S'.take (mid + 1 - left) ++ (S'.drop (mid + 1 - left) ++ Q') := by
          exact split_middle P' S' Q' _
        rw [epts, escr, e1]
        simp only
        have hX1 : X1.length = mid + 1 - left := by rw [p1.length_eq, hl1]
        have hT1 : T1.length = mid + 1 - left := by rw [t1, hl1']
        obtain ⟨X2, T2, e2, p2, s2, t2⟩ := ih (right - (mid + 1)) (by omega) (mid + 1) right
          (P ++ X1) (S.drop (mid + 1 - left)) Q (P' ++ T1) (S'.drop (mid + 1 - left)) Q' rfl
          (by simp [hP, hX1]; omega) (by simp [hP', hT1]; omega)
          (by rw [hl2]; omega) (by omega) (by rw [hl2', hl2])
        have e2a : P ++ X1 ++ (S.drop (mid + 1 - left) ++ Q)
            = P ++ X1 ++ S.drop (mid + 1 - left) ++ Q := by simp
        have e2b : P' ++ T1 ++ (S'.drop (mid + 1 - left) ++ Q')
            = P' ++ T1 ++ S'.drop (mid + 1 - left) ++ Q' := by simp
        rw [e2a, e2b, e2]
        simp only
        have hX2 : X2.length = right - mid := by rw [p2.length_eq, hl2]
        have hT2 : T2.length = right - mid := by rw [t2, hl2']
        have e3b : P' ++ T1 ++ T2 ++ Q' = P' ++ (T1 ++ T2) ++ Q' := by simp
        rw [e3b, merge_optimized_append P X1 X2 Q P' (T1 ++ T2) Q' left mid right hP hP'
          hm1 (by omega) hX1 hX2 (by simp [hT1, hT2, hX1, hX2])]
        refine ⟨_, _, rfl, ?_, sorted_merge_dist X1 X2 s1 s2, ?_⟩
        · refine (List.merge_perm_append _).trans ?_
          conv_rhs => rw [hsplit]
          exact p1.append p2
        · rw [(List.merge_perm_append _).length_eq]
          simp [hX1, hX2, hS', hS]; omega

/-- A loop `for i in [0, n): v[i] = f(v[i])` rewrites the first `n` slots elementwise. -/
theorem foldl_set_range {α : Type} (f : α → α) (d : α) (l : List α) :
    ∀ n, n ≤ l.length →
      (List.range n).foldl (fun acc i => acc.set i (f (acc.getD i d))) l
        = (l.take n).map f ++ l.drop n := by
  intro n
  induction n with
  | zero => intro _; simp
  | succ n ih =>
    intro hn
    rw [List.range_succ, List.foldl_append, ih (by omega)]
    simp only [List.foldl_cons, List.foldl_nil]
    have hlen : ((l.take n).map f).length = n := by simp; omega
    obtain ⟨x, R, hx⟩ : ∃ x R, l.drop n = x :: R := by
      cases h : l.drop n with
      | nil => simp at h; omega
      | cons x R => exact ⟨x, R, rfl⟩
    have h1 : (List.map f (List.take n l) ++ List.drop n l).getD n d = x := by
      rw [hx]
      exact getD_append_cons_at _ _ _ _ _ hlen
    have h2 : l.take (n + 1) = l.take n ++ [x] := by
      rw [List.take_succ]
      congr 1
      have : l[n]? = (l.drop n)[0]? := by simp
      rw [this, hx]; simp
    have h3 : l.drop (n + 1) = R := by
      have : l.drop (n + 1) = (l.drop n).drop 1 := by simp [List.drop_drop, Nat.add_comm]
      rw [this, hx]; rfl
    rw [h1, h2, h3, hx, set_append_cons_at _ _ _ _ _ hlen]
    simp

theorem foldl_set_range_all {α : Type} (f : α → α) (d : α) (l : List α) :
    (List.range l.length).foldl (fun acc i => acc.set i (f (acc.getD i d))) l = l.map f := by
  rw [foldl_set_range f d l l.length le_rfl]
  simp

theorem first_touch_length [Zero F] (n : ℕ) (scratch : List (Point F)) (h : n ≤ scratch.length) :
    (first_touch n scratch).length = scratch.length := by
  unfold first_touch
  rw [foldl_set_range (fun p : Point F => { p with dist := 0 }) default scratch n h]
  simp
  omega

/-- The whole of `mergesort_cpu`: a sorted rearrangement of the input. -/
theorem mergesort_cpu_perm_sorted [LinearOrder F] [Zero F]
    (sort : List (Point F) → List (Point F)) (hsort : StdSortContract sort)
    (num_threads : ℕ) (pts : List (Point F)) :
    (mergesort_cpu sort num_threads pts).Perm pts ∧
      (mergesort_cpu sort num_threads pts).Pairwise (fun a b => a.dist ≤ b.dist) := by
  unfold mergesort_cpu
  simp only
  by_cases hn : pts.length ≤ 1
  · rw [if_pos hn]
    exact ⟨List.Perm.refl _, pairwise_of_length_le_one _ _ hn⟩
  · rw [if_neg hn]
    have hft : (first_touch pts.length (List.replicate pts.length (default : Point F))).length
        = pts.length := by
      rw [first_touch_length _ _ (by simp)]; simp
    obtain ⟨X, T, e, p, s, _⟩ := mergesort_recursive_append sort hsort
      (max 2000 (pts.length / (num_threads * 8))) (pts.length - 1 - 0) 0 (pts.length - 1)
      [] pts [] []
      (first_touch pts.length (List.replicate pts.length (default : Point F))) []
      rfl rfl rfl (by omega) (by omega) hft
    simp only [List.nil_append, List.append_nil] at e
    rw [e]
    exact ⟨p, s⟩

/-! ## cpu_distance.cpp -/

theorem compute_distances_cpu_eq_map [Zero F] [Add F] [Sub F] [Mul F]
    (pts : List (Point F)) (ref : List F) :
    compute_distances_cpu pts ref
      = pts.map (fun p => { p with dist := sq_dist p.coords ref ref.length }) := by
  unfold compute_distances_cpu
  exact foldl_set_range_all
    (fun p : Point F => { p with dist := sq_dist p.coords ref ref.length }) default pts

theorem sq_dist_eq_sum [CommRing F] (p r : List F) (D : ℕ) :
    sq_dist p r D = ((List.range D).map (fun j => (p.getD j 0 - r.getD j 0) ^ 2)).sum := by
  unfold sq_dist
  induction D with
  | zero => simp
  | succ D ih =>
    rw [List.range_succ, List.foldl_append, ih]
    simp [pow_two]

theorem range_map_getD_eq_zipWith {α β : Type} (g : α → α → β) (d : α) :
    ∀ (p r : List α), p.length = r.length →
      (List.range r.length).map (fun j => g (p.getD j d) (r.getD j d)) = List.zipWith g p r := by
  intro p r h
  apply List.ext_getElem
  · simp [h]
  · intro n h1 h2
    simp only [List.length_map, List.length_range] at h1
    simp [List.getD_eq_getElem?_getD, List.getElem?_eq_getElem, h1, h ▸ h1]

theorem sq_dist_eq_zipWith [CommRing F] (p r : List F) (h : p.length = r.length) :
    sq_dist p r r.length = (List.zipWith (fun c x => (c - x) ^ 2) p r).sum := by
  rw [sq_dist_eq_sum, range_map_getD_eq_zipWith (fun c x => (c - x) ^ 2) 0 p r h]

/-! ## Bit arithmetic of the partner index -/

theorem testBit_block_add (c x t j : ℕ) (hx : x < 2 ^ t) :
    (2 ^ t * c + x).testBit j = if j < t then x.testBit j else c.testBit (j - t) :=
  Nat.testBit_mul_pow_two_add c hx j

theorem xor_two_pow_low (c x t : ℕ) (hx : x < 2 ^ t) :
    (2 ^ (t + 1) * c + x) ^^^ 2 ^ t = 2 ^ (t + 1) * c + x + 2 ^ t := by
  apply Nat.eq_of_testBit_eq
  intro j
  have hx1 : x < 2 ^ (t + 1) := by rw [pow_succ]; omega
  have hx2 : x + 2 ^ t < 2 ^ (t + 1) := by rw [pow_succ]; omega
  have e : 2 ^ (t + 1) * c + x + 2 ^ t = 2 ^ (t + 1) * c + (x + 2 ^ t) := by omega
  have e2 : x + 2 ^ t = 2 ^ t * 1 + x := by omega
  rw [Nat.testBit_xor, e, testBit_block_add c x (t + 1) j hx1,
    testBit_block_add c (x + 2 ^ t) (t + 1) j hx2, Nat.testBit_two_pow, e2,
    testBit_block_add 1 x t j hx]
  by_cases h1 : j < t
  · have : ¬ t = j := by omega
    simp [h1, this, show j < t + 1 by omega]
  · by_cases h2 : j = t
    · subst h2
      have : x.testBit j = false := Nat.testBit_lt_two_pow hx
      simp [this]
    · have h3 : ¬ j < t + 1 := by omega
      have : ¬ t = j := by omega
      simp [h3, this]

theorem xor_two_pow_high (c x t : ℕ) (hx : x < 2 ^ t) :
    (2 ^ (t + 1) * c + x + 2 ^ t) ^^^ 2 ^ t = 2 ^ (t + 1) * c + x := by
  rw [← xor_two_pow_low c x t hx, Nat.xor_cancel_right]

theorem and_two_pow_block (c x t s : ℕ) (hx : x < 2 ^ (t + 1)) (hts : t < s) :
    ((2 ^ (t + 1) * c + x) &&& 2 ^ s = 0) ↔ (2 ^ (t + 1) * c).testBit s = false := by
  have h0 : (0 : ℕ) < 2 ^ (t + 1) := by positivity
  have e : 2 ^ (t + 1) * c = 2 ^ (t + 1) * c + 0 := by omega
  have hs : ¬ s < t + 1 := by omega
  have hp : 2 ^ s ≠ 0 := by positivity
  rw [Nat.and_two_pow, testBit_block_add c x (t + 1) s hx]
  conv_rhs => rw [e, testBit_block_add c 0 (t + 1) s h0]
  simp only [hs, if_false]
  cases c.testBit (s - (t + 1)) <;> simp [hp]

/-! ## One pass, pointwise -/

theorem cmpx_pass_low {α : Type} [LinearOrder α] (a : ℕ → α) (c x t s : ℕ)
    (hx : x < 2 ^ t) (hts : t < s) :
    cmpx_pass (2 ^ s) (2 ^ t) a (2 ^ (t + 1) * c + x)
      = if (2 ^ (t + 1) * c).testBit s = false
        then min (a (2 ^ (t + 1) * c + x)) (a (2 ^ (t + 1) * c + x + 2 ^ t))
        else max (a (2 ^ (t + 1) * c + x)) (a (2 ^ (t + 1) * c + x + 2 ^ t)) := by
  have hx1 : x < 2 ^ (t + 1) := by rw [pow_succ]; omega
  have hpos : 0 < 2 ^ t := by positivity
  have hiff := and_two_pow_block c x t s hx1 hts
  unfold cmpx_pass
  rw [xor_two_pow_low c x t hx]
  have hlt : 2 ^ (t + 1) * c + x < 2 ^ (t + 1) * c + x + 2 ^ t := by omega
  by_cases hb : (2 ^ (t + 1) * c).testBit s = false
  · have h0 := hiff.mpr hb
    rw [if_pos (by simp [hlt, h0]), if_pos hb]
  · have h0 : ¬ (2 ^ (t + 1) * c + x &&& 2 ^ s = 0) := fun h => hb (hiff.mp h)
    rw [if_neg (by simp [hlt, h0]), if_neg hb]

theorem cmpx_pass_high {α : Type} [LinearOrder α] (a : ℕ → α) (c x t s : ℕ)
    (hx : x < 2 ^ t) (hts : t < s) :
    cmpx_pass (2 ^ s) (2 ^ t) a (2 ^ (t + 1) * c + x + 2 ^ t)
      = if (2 ^ (t + 1) * c).testBit s = false
        then max (a (2 ^ (t + 1) * c + x)) (a (2 ^ (t + 1) * c + x + 2 ^ t))
        else min (a (2 ^ (t + 1) * c + x)) (a (2 ^ (t + 1) * c + x + 2 ^ t)) := by
  have hx2 : x + 2 ^ t < 2 ^ (t + 1) := by rw [pow_succ]; omega
  have hpos : 0 < 2 ^ t := by positivity
  have e : 2 ^ (t + 1) * c + x + 2 ^ t = 2 ^ (t + 1) * c + (x + 2 ^ t) := by omega
  have hiff := and_two_pow_block c (x + 2 ^ t) t s hx2 hts
  rw [← e] at hiff
  unfold cmpx_pass
  rw [xor_two_pow_high c x t hx]
  have hlt : ¬ 2 ^ (t + 1) * c + x + 2 ^ t < 2 ^ (t + 1) * c + x := by omega
  by_cases hb : (2 ^ (t + 1) * c).testBit s = false
  · have h0 := hiff.mpr hb
    rw [if_neg (by simp [hlt, h0]), if_pos hb]
    exact max_comm _ _
  · have h0 : ¬ (2 ^ (t + 1) * c + x + 2 ^ t &&& 2 ^ s = 0) := fun h => hb (hiff.mp h)
    rw [if_pos (by simp [hlt, h0]), if_neg hb]
    exact min_comm _ _

/-! ## The half-cleaner on Boolean arrays -/

theorem half_cleaner01 (f g : ℕ → Bool) (h p q : ℕ) (v : Bool) (hpq : p ≤ q) (hq : q ≤ 2 * h)
    (hf : ∀ x, x < h → f x = if p ≤ x ∧ x < q then v else !v)
    (hg : ∀ x, x < h → g x = if p ≤ x + h ∧ x + h < q then v else !v) :
    (∃ p1 q1 v1, p1 ≤ q1 ∧ q1 ≤ h ∧
        ∀ x, x < h → (f x && g x) = if p1 ≤ x ∧ x < q1 then v1 else !v1) ∧
    (∃ p2 q2 v2, p2 ≤ q2 ∧ q2 ≤ h ∧
        ∀ x, x < h → (f x || g x) = if p2 ≤ x ∧ x < q2 then v2 else !v2) ∧
    ((∀ x, x < h → (f x && g x) = false) ∨ (∀ x, x < h → (f x || g x) = true)) := by
  cases v
  · -- zeros on `[p, q)`
    by_cases h1 : q ≤ p + h
    · have hmx : ∀ x, x < h → (f x || g x) = true := by
        intro x hx; rw [hf x hx, hg x hx]
        split_ifs <;> (try simp) <;> omega
      refine ⟨?_, ⟨0, h, true, by omega, by omega, ?_⟩, Or.inr hmx⟩
      · by_cases h2 : q ≤ h
        · refine ⟨p, q, false, hpq, h2, ?_⟩
          intro x hx; rw [hf x hx, hg x hx]
          split_ifs <;> (try simp) <;> omega
        · by_cases h3 : h ≤ p
          · refine ⟨p - h, q - h, false, by omega, by omega, ?_⟩
            intro x hx; rw [hf x hx, hg x hx]
            split_ifs <;> (try simp) <;> omega
          · refine ⟨q - h, p, true, by omega, by omega, ?_⟩
            intro x hx; rw [hf x hx, hg x hx]
            split_ifs <;> (try simp) <;> omega
      · intro x hx; rw [hmx x hx]
        split_ifs <;> (try simp) <;> omega
    · have hmn : ∀ x, x < h → (f x && g x) = false := by
        intro x hx; rw [hf x hx, hg x hx]
        split_ifs <;> (try simp) <;> omega
      refine ⟨⟨0, 0, true, by omega, by omega, ?_⟩, ⟨p, q - h, false, by omega, by omega, ?_⟩,
        Or.inl hmn⟩
      · intro x hx; rw [hmn x hx]
        split_ifs <;> (try simp) <;> omega
      · intro x hx; rw [hf x hx, hg x hx]
        split_ifs <;> (try simp) <;> omega
  · -- ones on `[p, q)`
    by_cases h1 : q ≤ p + h
    · have hmn : ∀ x, x < h → (f x && g x) = false := by
        intro x hx; rw [hf x hx, hg x hx]
        split_ifs <;> (try simp) <;> omega
      refine ⟨⟨0, 0, true, by omega, by omega, ?_⟩, ?_, Or.inl hmn⟩
      · intro x hx; rw [hmn x hx]
        split_ifs <;> (try simp) <;> omega
      · by_cases h2 : q ≤ h
        · refine ⟨p, q, true, hpq, h2, ?_⟩
          intro x hx; rw [hf x hx, hg x hx]
          split_ifs <;> (try simp) <;> omega
        · by_cases h3 : h ≤ p
          · refine ⟨p - h, q - h, true, by omega, by omega, ?_⟩
            intro x hx; rw [hf x hx, hg x hx]
            split_ifs <;> (try simp) <;> omega
          · refine ⟨q - h, p, false, by omega, by omega, ?_⟩
            intro x hx; rw [hf x hx, hg x hx]
            split_ifs <;> (try simp) <;> omega
    · have hmx : ∀ x, x < h → (f x || g x) = true := by
        intro x hx; rw [hf x hx, hg x hx]
        split_ifs <;> (try simp) <;> omega
      refine ⟨⟨p, q - h, true, by omega, by omega, ?_⟩, ⟨0, h, true, by omega, by omega, ?_⟩,
        Or.inr hmx⟩
      · intro x hx; rw [hf x hx, hg x hx]
        split_ifs <;> (try simp) <;> omega
      · intro x hx; rw [hmx x hx]
        split_ifs <;> (try simp) <;> omega

/-! ## The merge passes sort bitonic Boolean blocks -/

theorem bool_min_eq (a b : Bool) : min a b = (a && b) := by
  cases a <;> cases b <;> rfl

theorem bool_max_eq (a b : Bool) : max a b = (a || b) := by
  cases a <;> cases b <;> rfl

theorem testBit_block_high (c x t s : ℕ) (hx : x < 2 ^ t) (hts : t ≤ s) :
    (2 ^ t * c + x).testBit s = c.testBit (s - t) := by
  rw [testBit_block_add c x t s hx, if_neg (by omega)]

theorem block_split_low (n c x : ℕ) : 2 ^ (n + 1) * c + x = 2 ^ n * (2 * c) + x := by
  rw [pow_succ]; ring

theorem block_split_high (n c x : ℕ) :
    2 ^ (n + 1) * c + x + 2 ^ n = 2 ^ n * (2 * c + 1) + x := by
  rw [pow_succ]; ring

theorem merge_net_const (s : ℕ) (v : Bool) :
    ∀ (n c : ℕ) (a : ℕ → Bool), n ≤ s →
      (∀ x, x < 2 ^ n → a (2 ^ n * c + x) = v) →
      ∀ x, x < 2 ^ n → merge_net (2 ^ s) n a (2 ^ n * c + x) = v := by
  intro n
  induction n with
  | zero => intro c a _ ha x hx; exact ha x hx
  | succ n ih =>
    intro c a hn ha x hx
    have hlo : ∀ y, y < 2 ^ n → a (2 ^ (n + 1) * c + y) = v := fun y hy =>
      ha y (by rw [pow_succ]; omega)
    have hhi : ∀ y, y < 2 ^ n → a (2 ^ (n + 1) * c + y + 2 ^ n) = v := fun y hy => by
      have := ha (y + 2 ^ n) (by rw [pow_succ]; omega)
      rwa [← Nat.add_assoc] at this
    have h1 : ∀ y, y < 2 ^ n → cmpx_pass (2 ^ s) (2 ^ n) a (2 ^ n * (2 * c) + y) = v := by
      intro y hy
      rw [← block_split_low, cmpx_pass_low a c y n s hy (by omega), hlo y hy, hhi y hy]
      simp
    have h2 : ∀ y, y < 2 ^ n → cmpx_pass (2 ^ s) (2 ^ n) a (2 ^ n * (2 * c + 1) + y) = v := by
      intro y hy
      rw [← block_split_high, cmpx_pass_high a c y n s hy (by omega), hlo y hy, hhi y hy]
      simp
    show merge_net (2 ^ s) n (cmpx_pass (2 ^ s) (2 ^ n) a) (2 ^ (n + 1) * c + x) = v
    by_cases hxn : x < 2 ^ n
    · rw [block_split_low]
      exact ih (2 * c) _ (by omega) h1 x hxn
    · have hx' : x - 2 ^ n < 2 ^ n := by rw [pow_succ] at hx; omega
      have e : 2 ^ (n + 1) * c + x = 2 ^ n * (2 * c + 1) + (x - 2 ^ n) := by
        rw [← block_split_high]; omega
      rw [e]
      exact ih (2 * c + 1) _ (by omega) h2 (x - 2 ^ n) hx'

theorem merge_net_sorted01 (s : ℕ) :
    ∀ (n c : ℕ) (a : ℕ → Bool), n ≤ s → Bitonic01 a (2 ^ n * c) (2 ^ n) →
      Sorted01 ((2 ^ n * c).testBit s) (merge_net (2 ^ s) n a) (2 ^ n * c) (2 ^ n) := by
  intro n
  induction n with
  | zero =>
    intro c a _ _
    by_cases h : a (2 ^ 0 * c) = (2 ^ 0 * c).testBit s
    · refine ⟨1, by simp, ?_⟩
      intro x hx
      have : x = 0 := by simpa using hx
      subst this
      simpa [merge_net] using h
    · refine ⟨0, by simp, ?_⟩
      intro x hx
      have : x = 0 := by simpa using hx
      subst this
      simp only [merge_net, Nat.add_zero, Nat.lt_irrefl, if_false]
      revert h
      cases a (2 ^ 0 * c) <;> cases (2 ^ 0 * c).testBit s <;> simp
  | succ n ih =>
    intro c a hn hbit
    obtain ⟨p, q, v, hpq, hq, ha⟩ := hbit
    have hq' : q ≤ 2 * 2 ^ n := by rw [pow_succ] at hq; omega
    have hf : ∀ x, x < 2 ^ n →
        a (2 ^ (n + 1) * c + x) = if p ≤ x ∧ x < q then v else !v := fun x hx =>
      ha x (by rw [pow_succ]; omega)
    have hg : ∀ x, x < 2 ^ n →
        a (2 ^ (n + 1) * c + x + 2 ^ n) = if p ≤ x + 2 ^ n ∧ x + 2 ^ n < q then v else !v :=
      fun x hx => by
        have := ha (x + 2 ^ n) (by rw [pow_succ]; omega)
        rwa [← Nat.add_assoc] at this
    obtain ⟨⟨p1, q1, v1, hpq1, hq1, hmn⟩, ⟨p2, q2, v2, hpq2, hq2, hmx⟩, hclean⟩ :=
      half_cleaner01 (fun x => a (2 ^ (n + 1) * c + x))
        (fun x => a (2 ^ (n + 1) * c + x + 2 ^ n)) (2 ^ n) p q v hpq hq' hf hg
    have hd1 : (2 ^ n * (2 * c)).testBit s = (2 ^ (n + 1) * c).testBit s := by
      have := block_split_low n c 0
      simp only [Nat.add_zero] at this
      rw [this]
    have hd2 : (2 ^ n * (2 * c + 1)).testBit s = (2 ^ (n + 1) * c).testBit s := by
      have h0 : (0 : ℕ) < 2 ^ n := by positivity
      have h1 : (0 : ℕ) < 2 ^ (n + 1) := by positivity
      have e1 : 2 ^ n * (2 * c + 1) = 2 ^ (n + 1) * c + 2 ^ n := by rw [pow_succ]; ring
      have e2 : 2 ^ (n + 1) * c = 2 ^ (n + 1) * c + 0 := by omega
      have hlt : 2 ^ n < 2 ^ (n + 1) := by rw [pow_succ]; omega
      rw [e1, testBit_block_high c (2 ^ n) (n + 1) s hlt hn]
      conv_rhs => rw [e2, testBit_block_high c 0 (n + 1) s h1 hn]
    have hsplit : ∀ x, x < 2 ^ (n + 1) → ¬ x < 2 ^ n →
        2 ^ (n + 1) * c + x = 2 ^ n * (2 * c + 1) + (x - 2 ^ n) := by
      intro x _ hxn
      rw [← block_split_high]; omega
    show Sorted01 _ (merge_net (2 ^ s) n (cmpx_pass (2 ^ s) (2 ^ n) a)) _ _
    cases hd : (2 ^ (n + 1) * c).testBit s
    · -- ascending block: minima below, maxima above
      have hlow : ∀ y, y < 2 ^ n → cmpx_pass (2 ^ s) (2 ^ n) a (2 ^ n * (2 * c) + y)
          = (a (2 ^ (n + 1) * c + y) && a (2 ^ (n + 1) * c + y + 2 ^ n)) := by
        intro y hy
        rw [← block_split_low, cmpx_pass_low a c y n s hy (by omega), if_pos hd, bool_min_eq]
      have hhigh : ∀ y, y < 2 ^ n → cmpx_pass (2 ^ s) (2 ^ n) a (2 ^ n * (2 * c + 1) + y)
          = (a (2 ^ (n + 1) * c + y) || a (2 ^ (n + 1) * c + y + 2 ^ n)) := by
        intro y hy
        rw [← block_split_high, cmpx_pass_high a c y n s hy (by omega), if_pos hd, bool_max_eq]
      obtain ⟨r1, hr1, hs1⟩ := ih (2 * c) (cmpx_pass (2 ^ s) (2 ^ n) a) (by omega)
        ⟨p1, q1, v1, hpq1, hq1, fun x hx => by rw [hlow x hx]; exact hmn x hx⟩
      obtain ⟨r2, hr2, hs2⟩ := ih (2 * c + 1) (cmpx_pass (2 ^ s) (2 ^ n) a) (by omega)
        ⟨p2, q2, v2, hpq2, hq2, fun x hx => by rw [hhigh x hx]; exact hmx x hx⟩
      rw [hd1.trans hd] at hs1
      rw [hd2.trans hd] at hs2
      rcases hclean with hz | ho
      · have hc := merge_net_const s false n (2 * c) (cmpx_pass (2 ^ s) (2 ^ n) a) (by omega)
          (fun x hx => by rw [hlow x hx]; exact hz x hx)
        refine ⟨2 ^ n + r2, by rw [pow_succ]; omega, ?_⟩
        intro x hx
        by_cases hxn : x < 2 ^ n
        · rw [block_split_low, hc x hxn, if_pos (by omega)]
        · rw [hsplit x hx hxn, hs2 (x - 2 ^ n) (by rw [pow_succ] at hx; omega)]
          by_cases hxr : x - 2 ^ n < r2
          · rw [if_pos hxr, if_pos (by omega)]
          · rw [if_neg hxr, if_neg (by omega)]
      · have hc := merge_net_const s true n (2 * c + 1) (cmpx_pass (2 ^ s) (2 ^ n) a) (by omega)
          (fun x hx => by rw [hhigh x hx]; exact ho x hx)
        refine ⟨r1, by rw [pow_succ]; omega, ?_⟩
        intro x hx
        by_cases hxn : x < 2 ^ n
        · rw [block_split_low, hs1 x hxn]
        · rw [hsplit x hx hxn, hc (x - 2 ^ n) (by rw [pow_succ] at hx; omega),
            if_neg (by omega)]
          rfl
    · -- descending block: maxima below, minima above
      have hd' : ¬ (2 ^ (n + 1) * c).testBit s = false := by simp [hd]
      have hlow : ∀ y, y < 2 ^ n → cmpx_pass (2 ^ s) (2 ^ n) a (2 ^ n * (2 * c) + y)
          = (a (2 ^ (n + 1) * c + y) || a (2 ^ (n + 1) * c + y + 2 ^ n)) := by
        intro y hy
        rw [← block_split_low, cmpx_pass_low a c y n s hy (by omega), if_neg hd', bool_max_eq]
      have hhigh : ∀ y, y < 2 ^ n → cmpx_pass (2 ^ s) (2 ^ n) a (2 ^ n * (2 * c + 1) + y)
          = (a (2 ^ (n + 1) * c + y) && a (2 ^ (n + 1) * c + y + 2 ^ n)) := by
        intro y hy
        rw [← block_split_high, cmpx_pass_high a c y n s hy (by omega), if_neg hd', bool_min_eq]
      obtain ⟨r1, hr1, hs1⟩ := ih (2 * c) (cmpx_pass (2 ^ s) (2 ^ n) a) (by omega)
        ⟨p2, q2, v2, hpq2, hq2, fun x hx => by rw [hlow x hx]; exact hmx x hx⟩
      obtain ⟨r2, hr2, hs2⟩ := ih (2 * c + 1) (cmpx_pass (2 ^ s) (2 ^ n) a) (by omega)
        ⟨p1, q1, v1, hpq1, hq1, fun x hx => by rw [hhigh x hx]; exact hmn x hx⟩
      rw [hd1.trans hd] at hs1
      rw [hd2.trans hd] at hs2
      rcases hclean with hz | ho
      · have hc := merge_net_const s false n (2 * c + 1) (cmpx_pass (2 ^ s) (2 ^ n) a)
          (by omega) (fun x hx => by rw [hhigh x hx]; exact hz x hx)
        refine ⟨r1, by rw [pow_succ]; omega, ?_⟩
        intro x hx
        by_cases hxn : x < 2 ^ n
        · rw [block_split_low, hs1 x hxn]
        · rw [hsplit x hx hxn, hc (x - 2 ^ n) (by rw [pow_succ] at hx; omega),
            if_neg (by omega)]
          rfl
      · have hc := merge_net_const s true n (2 * c) (cmpx_pass (2 ^ s) (2 ^ n) a) (by omega)
          (fun x hx => by rw [hlow x hx]; exact ho x hx)
        refine ⟨2 ^ n + r2, by rw [pow_succ]; omega, ?_⟩
        intro x hx
        by_cases hxn : x < 2 ^ n
        · rw [block_split_low, hc x hxn, if_pos (by omega)]
        · rw [hsplit x hx hxn, hs2 (x - 2 ^ n) (by rw [pow_succ] at hx; omega)]
          by_cases hxr : x - 2 ^ n < r2
          · rw [if_pos hxr, if_pos (by omega)]
          · rw [if_neg hxr, if_neg (by omega)]

/-! ## The whole network sorts Boolean arrays -/

theorem testBit_block_self (s c : ℕ) : (2 ^ s * c).testBit s = c.testBit 0 := by
  have h0 : (0 : ℕ) < 2 ^ s := by positivity
  have := testBit_block_high c 0 s s h0 le_rfl
  simpa using this

theorem sort_net_sorted01 :
    ∀ (s c : ℕ) (a : ℕ → Bool),
      Sorted01 ((2 ^ s * c).testBit s) (sort_net s a) (2 ^ s * c) (2 ^ s) := by
  intro s
  induction s with
  | zero =>
    intro c a
    by_cases h : a (2 ^ 0 * c) = (2 ^ 0 * c).testBit 0
    · refine ⟨1, by simp, ?_⟩
      intro x hx
      have : x = 0 := by simpa using hx
      subst this
      simpa [sort_net] using h
    · refine ⟨0, by simp, ?_⟩
      intro x hx
      have : x = 0 := by simpa using hx
      subst this
      simp only [sort_net, Nat.add_zero, Nat.lt_irrefl, if_false]
      revert h
      cases a (2 ^ 0 * c) <;> cases (2 ^ 0 * c).testBit 0 <;> simp
  | succ s ih =>
    intro c a
    show Sorted01 _ (merge_net (2 ^ (s + 1)) (s + 1) (sort_net s a)) _ _
    apply merge_net_sorted01 (s + 1) (s + 1) c (sort_net s a) le_rfl
    obtain ⟨r1, hr1, hs1⟩ := ih (2 * c) a
    obtain ⟨r2, hr2, hs2⟩ := ih (2 * c + 1) a
    have hb1 : (2 ^ s * (2 * c)).testBit s = false := by
      rw [testBit_block_self]; simp [Nat.testBit_zero]
    have hb2 : (2 ^ s * (2 * c + 1)).testBit s = true := by
      rw [testBit_block_self]; simp [Nat.testBit_zero, Nat.add_mod]
    rw [hb1] at hs1
    rw [hb2] at hs2
    refine ⟨r1, 2 ^ s + r2, true, by omega, by rw [pow_succ]; omega, ?_⟩
    intro x hx
    by_cases hxn : x < 2 ^ s
    · rw [block_split_low, hs1 x hxn]
      by_cases hxr : x < r1
      · rw [if_pos hxr, if_neg (by omega)]; rfl
      · rw [if_neg hxr, if_pos (by omega)]; rfl
    · have e : 2 ^ (s + 1) * c + x = 2 ^ s * (2 * c + 1) + (x - 2 ^ s) := by
        rw [← block_split_high]; omega
      rw [e, hs2 (x - 2 ^ s) (by rw [pow_succ] at hx; omega)]
      by_cases hxr : x - 2 ^ s < r2
      · rw [if_pos hxr, if_pos (by omega)]
      · rw [if_neg hxr, if_neg (by omega)]

/-! ## Monotone maps commute with the network (zero-one principle) -/

theorem cmpx_pass_map {α β : Type} [LinearOrder α] [LinearOrder β] (f : α → β)
    (hf : Monotone f) (k j : ℕ) (a : ℕ → α) :
    cmpx_pass k j (fun i => f (a i)) = fun i => f (cmpx_pass k j a i) := by
  funext i
  unfold cmpx_pass
  by_cases h : (i < i ^^^ j ↔ i &&& k = 0)
  · rw [if_pos h, if_pos h, hf.map_min]
  · rw [if_neg h, if_neg h, hf.map_max]

theorem merge_net_map {α β : Type} [LinearOrder α] [LinearOrder β] (f : α → β)
    (hf : Monotone f) (k : ℕ) :
    ∀ (n : ℕ) (a : ℕ → α),
      merge_net k n (fun i => f (a i)) = fun i => f (merge_net k n a i) := by
  intro n
  induction n with
  | zero => intro a; rfl
  | succ n ih =>
    intro a
    show merge_net k n (cmpx_pass k (2 ^ n) (fun i => f (a i))) = _
    rw [cmpx_pass_map f hf, ih]
    rfl

theorem sort_net_map {α β : Type} [LinearOrder α] [LinearOrder β] (f : α → β)
    (hf : Monotone f) :
    ∀ (s : ℕ) (a : ℕ → α),
      sort_net s (fun i => f (a i)) = fun i => f (sort_net s a i) := by
  intro s
  induction s with
  | zero => intro a; rfl
  | succ s ih =>
    intro a
    show merge_net (2 ^ (s + 1)) (s + 1) (sort_net s (fun i => f (a i))) = _
    rw [ih, merge_net_map f hf]
    rfl

/-- The network of `m` stages sorts every array of `2^m` elements of a linear order. -/
theorem sort_net_sorted {α : Type} [LinearOrder α] (m : ℕ) (a : ℕ → α) (i j : ℕ)
    (hij : i ≤ j) (hj : j < 2 ^ m) : sort_net m a i ≤ sort_net m a j := by
  by_contra hlt
  rw [not_le] at hlt
  have hmono : Monotone (fun x : α => decide (sort_net m a i ≤ x)) := by
    intro x y hxy
    by_cases h : sort_net m a i ≤ x
    · have h2 : sort_net m a i ≤ y := le_trans h hxy
      simp [h, h2]
    · simp [h]
  have hcomm := sort_net_map (fun x : α => decide (sort_net m a i ≤ x)) hmono m a
  obtain ⟨p, _, hp⟩ := sort_net_sorted01 m 0
    (fun t => decide (sort_net m a i ≤ a t))
  rw [hcomm] at hp
  have h0 : (2 ^ m * 0).testBit m = false := by simp
  rw [h0] at hp
  have hi := hp i (by omega)
  have hj2 := hp j hj
  simp only [Nat.mul_zero, Nat.zero_add, le_refl, decide_True, Bool.not_false] at hi hj2
  have hnj : ¬ sort_net m a i ≤ sort_net m a j := not_le.mpr hlt
  simp only [hnj, decide_False] at hj2
  by_cases hjp : j < p
  · rw [if_pos (by omega)] at hi
    exact Bool.noConfusion hi
  · rw [if_neg hjp] at hj2
    exact Bool.noConfusion hj2

/-! ## Swapping two slots of a list -/

theorem getD_set_of_lt {α : Type} (l : List α) (i z : ℕ) (x d : α) (h : i < l.length) :
    (l.set i x).getD z d = if i = z then x else l.getD z d := by
  simp only [List.getD_eq_getElem?_getD, List.getElem?_set, h, if_true]
  by_cases hz : i = z
  · simp [hz]
  · simp [hz]

theorem exists_split_at {α : Type} (l : List α) (i : ℕ) (h : i < l.length) :
    ∃ A x B, l = A ++ x :: B ∧ A.length = i :=
  ⟨l.take i, l[i], l.drop (i + 1), by
    rw [List.getElem_cons_drop, List.take_append_drop], by simp; omega⟩

theorem swap_perm {α : Type} (l : List α) (i p : ℕ) (d : α) (hip : i < p)
    (hp : p < l.length) :
    ((l.set i (l.getD p d)).set p (l.getD i d)).Perm l := by
  obtain ⟨A, x, R, hl, hA⟩ := exists_split_at l i (by omega)
  have hR : p - i - 1 < R.length := by
    have := congrArg List.length hl
    simp at this; omega
  obtain ⟨B, y, C, hR2, hB⟩ := exists_split_at R (p - i - 1) hR
  subst hR2
  have hAB : (A ++ x :: B).length = p := by simp; omega
  have e1 : l = (A ++ x :: B) ++ y :: C := by rw [hl]; simp
  have gi : l.getD i d = x := by rw [hl]; exact getD_append_cons_at _ _ _ _ _ hA
  have gp : l.getD p d = y := by rw [e1]; exact getD_append_cons_at _ _ _ _ _ hAB
  have s1 : l.set i y = A ++ y :: (B ++ y :: C) := by
    rw [hl]; exact set_append_cons_at _ _ _ _ _ hA
  have hAB' : (A ++ y :: B).length = p := by simp; omega
  have s2 : (A ++ y :: (B ++ y :: C)).set p x = (A ++ y :: B) ++ x :: C := by
    have : A ++ y :: (B ++ y :: C) = (A ++ y :: B) ++ y :: C := by simp
    rw [this]; exact set_append_cons_at _ _ _ _ _ hAB'
  rw [gi, gp, s1, s2, hl]
  simp only [List.append_assoc, List.cons_append]
  apply List.Perm.append_left
  have h1 : (y :: (B ++ x :: C)).Perm (y :: x :: (B ++ C)) :=
    List.Perm.cons _ List.perm_middle
  have h2 : (x :: (B ++ y :: C)).Perm (x :: y :: (B ++ C)) :=
    List.Perm.cons _ List.perm_middle
  exact h1.trans ((List.Perm.swap x y _).trans h2.symm)

theorem zipWith_set_both {α β γ : Type} (f : α → β → γ) :
    ∀ (l1 : List α) (l2 : List β) (i : ℕ) (a : α) (b : β),
      List.zipWith f (l1.set i a) (l2.set i b) = (List.zipWith f l1 l2).set i (f a b) := by
  intro l1
  induction l1 with
  | nil => intro l2 i a b; simp
  | cons x l1 ih =>
    intro l2 i a b
    cases l2 with
    | nil => simp
    | cons y l2 =>
      cases i with
      | zero => simp
      | succ i => simp [ih]

theorem getD_zipWith {α β γ : Type} (f : α → β → γ) (da : α) (db : β) :
    ∀ (l1 : List α) (l2 : List β) (i : ℕ), l1.length = l2.length →
      (List.zipWith f l1 l2).getD i (f da db) = f (l1.getD i da) (l2.getD i db) := by
  intro l1
  induction l1 with
  | nil =>
    intro l2 i h
    have : l2 = [] := List.length_eq_zero.mp (by simpa using h.symm)
    subst this; simp
  | cons x l1 ih =>
    intro l2 i h
    cases l2 with
    | nil => simp at h
    | cons y l2 =>
      cases i with
      | zero => simp
      | succ i =>
        simp only [List.zipWith_cons_cons, List.getD_cons_succ]
        exact ih l2 i (by simpa using h)

/-! ## The device arrays as an array of pairs -/

theorem dev_pairs_length (st : DevState F) (M : ℕ) (h1 : st.1.length = M)
    (h2 : st.2.length = M) : (dev_pairs st).length = M := by
  simp [dev_pairs, h1, h2]

theorem dev_view_eq_getD [Zero F] (st : DevState F) (h : st.1.length = st.2.length) (x : ℕ) :
    dev_view st x = (dev_pairs st).getD x (toLex (0, 0)) := by
  unfold dev_view dev_pairs
  rw [getD_zipWith (fun k v => toLex (k, v)) 0 0 st.1 st.2 x h]

/-! ## One thread and one launch of `bitonic_step_kernel` -/

theorem and_two_pow_xor (n t s : ℕ) (hts : t ≠ s) :
    ((n ^^^ 2 ^ t) &&& 2 ^ s = 0) ↔ (n &&& 2 ^ s = 0) := by
  rw [Nat.and_two_pow, Nat.and_two_pow, Nat.testBit_xor, Nat.testBit_two_pow]
  simp [hts]

theorem xor_two_pow_ne (n t : ℕ) : n ^^^ 2 ^ t ≠ n := by
  intro h
  have := congrArg (fun z => z.testBit t) h
  simp [Nat.testBit_xor, Nat.testBit_two_pow] at this

theorem bitonic_step_thread_pairs [LinearOrder F] [Zero F] (M k j : ℕ) (st : DevState F)
    (i : ℕ) (h1 : st.1.length = M) (h2 : st.2.length = M) (hi : i < M)
    (hp : i ^^^ j < M) (hlt : i < i ^^^ j) :
    (bitonic_step_thread M k j st i).1.length = M ∧
    (bitonic_step_thread M k j st i).2.length = M ∧
    dev_pairs (bitonic_step_thread M k j st i)
      = if (if i &&& k = 0
            then (dev_pairs st).getD (i ^^^ j) (toLex (0, 0)) < (dev_pairs st).getD i (toLex (0, 0))
            else (dev_pairs st).getD i (toLex (0, 0)) < (dev_pairs st).getD (i ^^^ j) (toLex (0, 0)))
        then ((dev_pairs st).set i ((dev_pairs st).getD (i ^^^ j) (toLex (0, 0)))).set (i ^^^ j)
              ((dev_pairs st).getD i (toLex (0, 0)))
        else dev_pairs st := by
  have hlen : st.1.length = st.2.length := by rw [h1, h2]
  have gi := getD_zipWith (fun (k : F) (v : ℕ) => toLex (k, v)) 0 0 st.1 st.2 i hlen
  have gp := getD_zipWith (fun (k : F) (v : ℕ) => toLex (k, v)) 0 0 st.1 st.2 (i ^^^ j) hlen
  have hsw : dev_pairs ((st.1.set i (st.1.getD (i ^^^ j) 0)).set (i ^^^ j) (st.1.getD i 0),
      (st.2.set i (st.2.getD (i ^^^ j) 0)).set (i ^^^ j) (st.2.getD i 0))
      = ((dev_pairs st).set i ((dev_pairs st).getD (i ^^^ j) (toLex (0, 0)))).set (i ^^^ j)
          ((dev_pairs st).getD i (toLex (0, 0))) := by
    unfold dev_pairs
    simp only
    rw [zipWith_set_both, zipWith_set_both, gi, gp]
  unfold bitonic_step_thread
  simp only [ge_iff_le, gt_iff_lt]
  rw [if_neg (by omega), if_neg (by omega)]
  unfold dev_pairs at gi gp
  by_cases hasc : i &&& k = 0
  · simp only [hasc, if_true]
    by_cases hc : st.1.getD (i ^^^ j) 0 < st.1.getD i 0 ∨
        (st.1.getD i 0 = st.1.getD (i ^^^ j) 0 ∧ st.2.getD (i ^^^ j) 0 < st.2.getD i 0)
    · have hc' : (dev_pairs st).getD (i ^^^ j) (toLex (0, 0))
          < (dev_pairs st).getD i (toLex (0, 0)) := by
        unfold dev_pairs
        rw [gi, gp, Prod.Lex.lt_iff]
        rcases hc with h | ⟨h, h'⟩
        · exact Or.inl h
        · exact Or.inr ⟨h.symm, h'⟩
      rw [if_pos hc, if_pos hc', ← hsw]
      simp [h1, h2]
    · have hc' : ¬ (dev_pairs st).getD (i ^^^ j) (toLex (0, 0))
          < (dev_pairs st).getD i (toLex (0, 0)) := by
        unfold dev_pairs
        rw [gi, gp, Prod.Lex.lt_iff]
        intro h
        apply hc
        rcases h with h | ⟨h, h'⟩
        · exact Or.inl h
        · exact Or.inr ⟨h.symm, h'⟩
      rw [if_neg hc, if_neg hc']
      exact ⟨h1, h2, rfl⟩
  · simp only [hasc, if_false]
    by_cases hc : st.1.getD i 0 < st.1.getD (i ^^^ j) 0 ∨
        (st.1.getD i 0 = st.1.getD (i ^^^ j) 0 ∧ st.2.getD i 0 < st.2.getD (i ^^^ j) 0)
    · have hc' : (dev_pairs st).getD i (toLex (0, 0))
          < (dev_pairs st).getD (i ^^^ j) (toLex (0, 0)) := by
        unfold dev_pairs
        rw [gi, gp, Prod.Lex.lt_iff]
        exact hc
      rw [if_pos hc, if_pos hc', ← hsw]
      simp [h1, h2]
    · have hc' : ¬ (dev_pairs st).getD i (toLex (0, 0))
          < (dev_pairs st).getD (i ^^^ j) (toLex (0, 0)) := by
        unfold dev_pairs
        rw [gi, gp, Prod.Lex.lt_iff]
        exact hc
      rw [if_neg hc, if_neg hc']
      exact ⟨h1, h2, rfl⟩

/-- A compare-exchange on a list of pairs: slot `i` gets the smaller (or, descending, the
larger) of the two values, slot `p` the other, and nothing else moves. -/
theorem cmpx_list_getD {α : Type} [LinearOrder α] (P : List α) (i p : ℕ) (d : α) (asc : Prop)
    [Decidable asc] (hip : i < p) (hp : p < P.length) (x : ℕ) :
    (if (if asc then P.getD p d < P.getD i d else P.getD i d < P.getD p d)
      then (P.set i (P.getD p d)).set p (P.getD i d) else P).getD x d
      = if x = i then (if asc then min (P.getD i d) (P.getD p d) else max (P.getD i d) (P.getD p d))
        else if x = p then
          (if asc then max (P.getD i d) (P.getD p d) else min (P.getD i d) (P.getD p d))
        else P.getD x d := by
  have hi : i < P.length := by omega
  have hsetlen : p < (P.set i (P.getD p d)).length := by simpa using hp
  have hne : i ≠ p := by omega
  by_cases hasc : asc
  · simp only [hasc, if_true]
    by_cases hc : P.getD p d < P.getD i d
    · rw [if_pos hc, getD_set_of_lt _ _ _ _ _ hsetlen, getD_set_of_lt _ _ _ _ _ hi]
      by_cases hx1 : x = i
      · subst hx1
        rw [if_neg (by omega), if_pos rfl, if_pos rfl, min_eq_right (le_of_lt hc)]
      · by_cases hx2 : x = p
        · subst hx2
          rw [if_pos rfl, if_neg hx1, if_pos rfl, max_eq_left (le_of_lt hc)]
        · rw [if_neg (fun h => hx2 h.symm), if_neg (fun h => hx1 h.symm), if_neg hx1,
            if_neg hx2]
    · rw [if_neg hc]
      have hle := not_lt.mp hc
      by_cases hx1 : x = i
      · subst hx1; rw [if_pos rfl, min_eq_left hle]
      · by_cases hx2 : x = p
        · subst hx2; rw [if_neg hx1, if_pos rfl, max_eq_right hle]
        · rw [if_neg hx1, if_neg hx2]
  · simp only [hasc, if_false]
    by_cases hc : P.getD i d < P.getD p d
    · rw [if_pos hc, getD_set_of_lt _ _ _ _ _ hsetlen, getD_set_of_lt _ _ _ _ _ hi]
      by_cases hx1 : x = i
      · subst hx1
        rw [if_neg (by omega), if_pos rfl, if_pos rfl, max_eq_right (le_of_lt hc)]
      · by_cases hx2 : x = p
        · subst hx2
          rw [if_pos rfl, if_neg hx1, if_pos rfl, min_eq_left (le_of_lt hc)]
        · rw [if_neg (fun h => hx2 h.symm), if_neg (fun h => hx1 h.symm), if_neg hx1,
            if_neg hx2]
    · rw [if_neg hc]
      have hle := not_lt.mp hc
      by_cases hx1 : x = i
      · subst hx1; rw [if_pos rfl, max_eq_left hle]
      · by_cases hx2 : x = p
        · subst hx2; rw [if_neg hx1, if_pos rfl, min_eq_right hle]
        · rw [if_neg hx1, if_neg hx2]

theorem cmpx_list_perm {α : Type} [LinearOrder α] (P : List α) (i p : ℕ) (d : α) (c : Prop)
    [Decidable c] (hip : i < p) (hp : p < P.length) :
    (if c then (P.set i (P.getD p d)).set p (P.getD i d) else P).Perm P := by
  by_cases hc : c
  · rw [if_pos hc]; exact swap_perm P i p d hip hp
  · rw [if_neg hc]

theorem xor_two_pow_lt (n t m : ℕ) (hn : n < 2 ^ m) (htm : t < m) : n ^^^ 2 ^ t < 2 ^ m :=
  Nat.xor_lt_two_pow hn (Nat.pow_lt_pow_right (by norm_num) htm)

theorem xor_eq_iff (x n j : ℕ) : x ^^^ j = n ↔ x = n ^^^ j := by
  constructor
  · intro h; rw [← h, Nat.xor_cancel_right]
  · intro h; rw [h, Nat.xor_cancel_right]

/-- After the threads `0 .. n-1` of a launch, exactly the pairs whose lower slot is below `n`
have been compare-exchanged. -/
theorem bitonic_step_kernel_inv [LinearOrder F] [Zero F] (m s t : ℕ) (hts : t < s)
    (htm : t < m) (st0 : DevState F) (h1 : st0.1.length = 2 ^ m) (h2 : st0.2.length = 2 ^ m) :
    ∀ n : ℕ,
      ((List.range n).foldl (bitonic_step_thread (2 ^ m) (2 ^ s) (2 ^ t)) st0).1.length = 2 ^ m ∧
      ((List.range n).foldl (bitonic_step_thread (2 ^ m) (2 ^ s) (2 ^ t)) st0).2.length = 2 ^ m ∧
      (dev_pairs ((List.range n).foldl (bitonic_step_thread (2 ^ m) (2 ^ s) (2 ^ t)) st0)).Perm
        (dev_pairs st0) ∧
      ∀ x, x < 2 ^ m →
        (dev_pairs ((List.range n).foldl (bitonic_step_thread (2 ^ m) (2 ^ s) (2 ^ t)) st0)).getD
            x (toLex (0, 0))
          = if x < n ∨ x ^^^ 2 ^ t < n
            then cmpx_pass (2 ^ s) (2 ^ t) (fun y => (dev_pairs st0).getD y (toLex (0, 0))) x
            else (dev_pairs st0).getD x (toLex (0, 0)) := by
  intro n
  induction n with
  | zero =>
    refine ⟨h1, h2, List.Perm.refl _, ?_⟩
    intro x _
    simp
  | succ n ih =>
    rw [List.range_succ, List.foldl_append]
    simp only [List.foldl_cons, List.foldl_nil]
    generalize (List.range n).foldl (bitonic_step_thread (2 ^ m) (2 ^ s) (2 ^ t)) st0 = st at ih ⊢
    obtain ⟨l1, l2, hperm, hval⟩ := ih
    by_cases hnM : n < 2 ^ m
    · have hp := xor_two_pow_lt n t m hnM htm
      have hne := xor_two_pow_ne n t
      by_cases hlt : n < n ^^^ 2 ^ t
      · obtain ⟨l1', l2', hpairs⟩ :=
          bitonic_step_thread_pairs (2 ^ m) (2 ^ s) (2 ^ t) st n l1 l2 hnM hp hlt
        have hplen : n ^^^ 2 ^ t < (dev_pairs st).length := by
          rw [dev_pairs_length st _ l1 l2]; exact hp
        refine ⟨l1', l2', ?_, ?_⟩
        · rw [hpairs]
          exact (cmpx_list_perm _ _ _ _ _ hlt hplen).trans hperm
        · intro x hx
          rw [hpairs, cmpx_list_getD _ _ _ _ _ hlt hplen x]
          have hPn : (dev_pairs st).getD n (toLex (0, 0))
              = (dev_pairs st0).getD n (toLex (0, 0)) := by
            have hc : ¬ (n < n ∨ n ^^^ 2 ^ t < n) := by omega
            rw [hval n hnM, if_neg hc]
          have hPp : (dev_pairs st).getD (n ^^^ 2 ^ t) (toLex (0, 0))
              = (dev_pairs st0).getD (n ^^^ 2 ^ t) (toLex (0, 0)) := by
            have hc : ¬ (n ^^^ 2 ^ t < n ∨ n < n) := by omega
            rw [hval _ hp, Nat.xor_cancel_right, if_neg hc]
          rw [hPn, hPp]
          by_cases hx1 : x = n
          · subst hx1
            have hc : x < x + 1 ∨ x ^^^ 2 ^ t < x + 1 := Or.inl (by omega)
            rw [if_pos (rfl : x = x), if_pos hc]
            unfold cmpx_pass
            by_cases hasc : x &&& 2 ^ s = 0
            · have hc2 : (x < x ^^^ 2 ^ t ↔ x &&& 2 ^ s = 0) := by simp [hlt, hasc]
              rw [if_pos hasc, if_pos hc2]
            · have hc2 : ¬ (x < x ^^^ 2 ^ t ↔ x &&& 2 ^ s = 0) := by simp [hlt, hasc]
              rw [if_neg hasc, if_neg hc2]
          · by_cases hx2 : x = n ^^^ 2 ^ t
            · subst hx2
              have hc : n ^^^ 2 ^ t < n + 1 ∨ n ^^^ 2 ^ t ^^^ 2 ^ t < n + 1 :=
                Or.inr (by rw [Nat.xor_cancel_right]; omega)
              rw [if_neg hx1, if_pos (rfl : n ^^^ 2 ^ t = n ^^^ 2 ^ t), if_pos hc]
              unfold cmpx_pass
              rw [Nat.xor_cancel_right]
              have hnlt : ¬ n ^^^ 2 ^ t < n := by omega
              have hiff := and_two_pow_xor n t s (by omega)
              by_cases hasc : n &&& 2 ^ s = 0
              · have hc2 : ¬ (n ^^^ 2 ^ t < n ↔ (n ^^^ 2 ^ t) &&& 2 ^ s = 0) := by
                  simp [hnlt, hiff.mpr hasc]
                rw [if_pos hasc, if_neg hc2]
                exact max_comm _ _
              · have hasc2 : ¬ (n ^^^ 2 ^ t) &&& 2 ^ s = 0 := fun h => hasc (hiff.mp h)
                have hc2 : (n ^^^ 2 ^ t < n ↔ (n ^^^ 2 ^ t) &&& 2 ^ s = 0) := by
                  simp [hnlt, hasc2]
                rw [if_neg hasc, if_pos hc2]
                exact min_comm _ _
            · rw [if_neg hx1, if_neg hx2, hval x hx]
              have hx3 : x ^^^ 2 ^ t ≠ n := fun h => hx2 ((xor_eq_iff x n _).mp h)
              by_cases hc : x < n ∨ x ^^^ 2 ^ t < n
              · have hc2 : x < n + 1 ∨ x ^^^ 2 ^ t < n + 1 := by omega
                rw [if_pos hc, if_pos hc2]
              · have hc2 : ¬ (x < n + 1 ∨ x ^^^ 2 ^ t < n + 1) := by omega
                rw [if_neg hc, if_neg hc2]
      · have hth : bitonic_step_thread (2 ^ m) (2 ^ s) (2 ^ t) st n = st := by
          unfold bitonic_step_thread
          simp only [ge_iff_le]
          rw [if_neg (by omega), if_pos (by omega)]
        rw [hth]
        refine ⟨l1, l2, hperm, ?_⟩
        intro x hx
        rw [hval x hx]
        have hpn : n ^^^ 2 ^ t < n := by omega
        by_cases hc : x < n ∨ x ^^^ 2 ^ t < n
        · have hc1 : x < n + 1 ∨ x ^^^ 2 ^ t < n + 1 := by omega
          rw [if_pos hc, if_pos hc1]
        · have hc2 : ¬ (x < n + 1 ∨ x ^^^ 2 ^ t < n + 1) := by
            intro h
            rcases h with h | h
            · have : x = n := by omega
              subst this; omega
            · have : x ^^^ 2 ^ t = n := by omega
              have := (xor_eq_iff x n _).mp this
              omega
          rw [if_neg hc, if_neg hc2]
    · have hth : bitonic_step_thread (2 ^ m) (2 ^ s) (2 ^ t) st n = st := by
        unfold bitonic_step_thread
        simp only [ge_iff_le]
        rw [if_pos (by omega)]
      rw [hth]
      refine ⟨l1, l2, hperm, ?_⟩
      intro x hx
      have hc1 : x < n ∨ x ^^^ 2 ^ t < n := Or.inl (by omega)
      have hc2 : x < n + 1 ∨ x ^^^ 2 ^ t < n + 1 := Or.inl (by omega)
      rw [hval x hx, if_pos hc1, if_pos hc2]

/-- A whole launch with at least `M` threads is one compare-exchange pass. -/
theorem bitonic_step_kernel_spec [LinearOrder F] [Zero F] (m s t nthreads : ℕ) (hts : t < s)
    (htm : t < m) (hnt : 2 ^ m ≤ nthreads) (st0 : DevState F) (h1 : st0.1.length = 2 ^ m)
    (h2 : st0.2.length = 2 ^ m) :
    (bitonic_step_kernel (2 ^ m) (2 ^ s) (2 ^ t) nthreads st0).1.length = 2 ^ m ∧
    (bitonic_step_kernel (2 ^ m) (2 ^ s) (2 ^ t) nthreads st0).2.length = 2 ^ m ∧
    (dev_pairs (bitonic_step_kernel (2 ^ m) (2 ^ s) (2 ^ t) nthreads st0)).Perm (dev_pairs st0) ∧
    ∀ x, x < 2 ^ m →
      (dev_pairs (bitonic_step_kernel (2 ^ m) (2 ^ s) (2 ^ t) nthreads st0)).getD x (toLex (0, 0))
        = cmpx_pass (2 ^ s) (2 ^ t) (fun y => (dev_pairs st0).getD y (toLex (0, 0))) x := by
  obtain ⟨l1, l2, hperm, hval⟩ := bitonic_step_kernel_inv m s t hts htm st0 h1 h2 nthreads
  refine ⟨l1, l2, hperm, ?_⟩
  intro x hx
  have := hval x hx
  have hc : x < nthreads ∨ x ^^^ 2 ^ t < nthreads := Or.inl (by omega)
  rw [if_pos hc] at this
  exact this

/-! ## The loops of the sort -/

theorem cmpx_pass_congr {α : Type} [LinearOrder α] (m s t : ℕ) (htm : t < m) (a b : ℕ → α)
    (h : ∀ x, x < 2 ^ m → a x = b x) :
    ∀ x, x < 2 ^ m → cmpx_pass (2 ^ s) (2 ^ t) a x = cmpx_pass (2 ^ s) (2 ^ t) b x := by
  intro x hx
  unfold cmpx_pass
  rw [h x hx, h _ (xor_two_pow_lt x t m hx htm)]

theorem merge_net_congr {α : Type} [LinearOrder α] (m s : ℕ) :
    ∀ (n : ℕ) (a b : ℕ → α), n ≤ m → (∀ x, x < 2 ^ m → a x = b x) →
      ∀ x, x < 2 ^ m → merge_net (2 ^ s) n a x = merge_net (2 ^ s) n b x := by
  intro n
  induction n with
  | zero => intro a b _ h x hx; exact h x hx
  | succ n ih =>
    intro a b hn h x hx
    show merge_net (2 ^ s) n (cmpx_pass (2 ^ s) (2 ^ n) a) x
      = merge_net (2 ^ s) n (cmpx_pass (2 ^ s) (2 ^ n) b) x
    exact ih _ _ (by omega) (cmpx_pass_congr m s n (by omega) a b h) x hx

theorem shiftRight_two_pow_succ (n : ℕ) : 2 ^ (n + 1) >>> 1 = 2 ^ n := by
  rw [Nat.shiftRight_eq_div_pow, pow_succ]
  simp

theorem sort_inner_spec [LinearOrder F] [Zero F] (m s nthreads : ℕ) (hnt : 2 ^ m ≤ nthreads) :
    ∀ (n : ℕ) (st : DevState F), n ≤ s → n ≤ m → st.1.length = 2 ^ m → st.2.length = 2 ^ m →
      (sort_inner (2 ^ m) (2 ^ s) nthreads (2 ^ n >>> 1) st).1.length = 2 ^ m ∧
      (sort_inner (2 ^ m) (2 ^ s) nthreads (2 ^ n >>> 1) st).2.length = 2 ^ m ∧
      (dev_pairs (sort_inner (2 ^ m) (2 ^ s) nthreads (2 ^ n >>> 1) st)).Perm (dev_pairs st) ∧
      ∀ x, x < 2 ^ m →
        (dev_pairs (sort_inner (2 ^ m) (2 ^ s) nthreads (2 ^ n >>> 1) st)).getD x (toLex (0, 0))
          = merge_net (2 ^ s) n (fun y => (dev_pairs st).getD y (toLex (0, 0))) x := by
  intro n
  induction n with
  | zero =>
    intro st _ _ h1 h2
    have e : (2 : ℕ) ^ 0 >>> 1 = 0 := by decide
    rw [e, sort_inner, if_neg (by omega)]
    exact ⟨h1, h2, List.Perm.refl _, fun x _ => rfl⟩
  | succ n ih =>
    intro st hns hnm h1 h2
    have hpos : 2 ^ n > 0 := by positivity
    rw [shiftRight_two_pow_succ, sort_inner, if_pos hpos]
    obtain ⟨k1, k2, kperm, kval⟩ :=
      bitonic_step_kernel_spec m s n nthreads (by omega) (by omega) hnt st h1 h2
    obtain ⟨r1, r2, rperm, rval⟩ :=
      ih (bitonic_step_kernel (2 ^ m) (2 ^ s) (2 ^ n) nthreads st) (by omega) (by omega) k1 k2
    refine ⟨r1, r2, rperm.trans kperm, ?_⟩
    intro x hx
    rw [rval x hx]
    show _ = merge_net (2 ^ s) n
      (cmpx_pass (2 ^ s) (2 ^ n) (fun y => (dev_pairs st).getD y (toLex (0, 0)))) x
    exact merge_net_congr m s n _ _ (by omega) kval x hx

theorem sort_outer_from [LinearOrder F] [Zero F] (m nthreads : ℕ) (hnt : 2 ^ m ≤ nthreads)
    (a0 : ℕ → Lex (F × ℕ)) :
    ∀ (r q : ℕ) (st : DevState F), q + r = m → st.1.length = 2 ^ m → st.2.length = 2 ^ m →
      (∀ x, x < 2 ^ m → (dev_pairs st).getD x (toLex (0, 0)) = sort_net q a0 x) →
      (sort_outer (2 ^ m) nthreads (2 ^ (q + 1)) st).1.length = 2 ^ m ∧
      (sort_outer (2 ^ m) nthreads (2 ^ (q + 1)) st).2.length = 2 ^ m ∧
      (dev_pairs (sort_outer (2 ^ m) nthreads (2 ^ (q + 1)) st)).Perm (dev_pairs st) ∧
      ∀ x, x < 2 ^ m →
        (dev_pairs (sort_outer (2 ^ m) nthreads (2 ^ (q + 1)) st)).getD x (toLex (0, 0))
          = sort_net m a0 x := by
  intro r
  induction r with
  | zero =>
    intro q st hq h1 h2 hv
    have hqm : q = m := by omega
    subst hqm
    have hnot : ¬ (2 ^ (q + 1) ≤ 2 ^ q ∧ 0 < 2 ^ (q + 1)) := by
      intro h
      have : 2 ^ q < 2 ^ (q + 1) := Nat.pow_lt_pow_right (by norm_num) (by omega)
      omega
    rw [sort_outer, if_neg hnot]
    exact ⟨h1, h2, List.Perm.refl _, hv⟩
  | succ r ih =>
    intro q st hq h1 h2 hv
    have hcond : 2 ^ (q + 1) ≤ 2 ^ m ∧ 0 < 2 ^ (q + 1) :=
      ⟨Nat.pow_le_pow_right (by norm_num) (by omega), by positivity⟩
    have hshl : 2 ^ (q + 1) <<< 1 = 2 ^ (q + 1 + 1) := by
      rw [Nat.shiftLeft_eq, pow_succ 2 (q + 1)]
    rw [sort_outer, if_pos hcond, hshl]
    obtain ⟨i1, i2, iperm, ival⟩ :=
      sort_inner_spec m (q + 1) nthreads hnt (q + 1) st le_rfl (by omega) h1 h2
    have hv' : ∀ x, x < 2 ^ m →
        (dev_pairs (sort_inner (2 ^ m) (2 ^ (q + 1)) nthreads (2 ^ (q + 1) >>> 1) st)).getD x
          (toLex (0, 0)) = sort_net (q + 1) a0 x := by
      intro x hx
      rw [ival x hx]
      show _ = merge_net (2 ^ (q + 1)) (q + 1) (sort_net q a0) x
      exact merge_net_congr m (q + 1) (q + 1) _ _ (by omega) hv x hx
    obtain ⟨o1, o2, operm, oval⟩ := ih (q + 1) _ (by omega) i1 i2 hv'
    exact ⟨o1, o2, operm.trans iperm, oval⟩

theorem pairwise_le_of_getD {α : Type} [Preorder α] (l : List α) (d : α)
    (h : ∀ i j, i ≤ j → j < l.length → l.getD i d ≤ l.getD j d) : l.Pairwise (· ≤ ·) := by
  rw [List.pairwise_iff_getElem]
  intro i j hi hj hij
  have := h i j (le_of_lt hij) hj
  rw [List.getD_eq_getElem _ _ hi, List.getD_eq_getElem _ _ hj] at this
  exact this

/-- The sort loops of `run_gpu_sort` on device arrays of `2^m` slots: the pairs are rearranged
into ascending lexicographic order. -/
theorem sort_outer_sorted [LinearOrder F] [Zero F] (m nthreads : ℕ) (hnt : 2 ^ m ≤ nthreads)
    (st : DevState F) (h1 : st.1.length = 2 ^ m) (h2 : st.2.length = 2 ^ m) :
    (sort_outer (2 ^ m) nthreads 2 st).1.length = 2 ^ m ∧
    (sort_outer (2 ^ m) nthreads 2 st).2.length = 2 ^ m ∧
    (dev_pairs (sort_outer (2 ^ m) nthreads 2 st)).Perm (dev_pairs st) ∧
    (dev_pairs (sort_outer (2 ^ m) nthreads 2 st)).Pairwise (· ≤ ·) := by
  obtain ⟨o1, o2, operm, oval⟩ := sort_outer_from m nthreads hnt
    (fun y => (dev_pairs st).getD y (toLex (0, 0))) m 0 st (by omega) h1 h2 (fun x _ => rfl)
  simp only [Nat.zero_add, pow_one] at o1 o2 operm oval
  refine ⟨o1, o2, operm, ?_⟩
  apply pairwise_le_of_getD _ (toLex (0, 0))
  intro i j hij hj
  rw [dev_pairs_length _ _ o1 o2] at hj
  rw [oval i (by omega), oval j hj]
  exact sort_net_sorted m _ i j hij hj

/-! ## `next_pow2` -/

theorem next_pow2_loop_spec (v : ℕ) :
    ∀ (d e : ℕ), v - 2 ^ e = d → (e = 0 ∨ 2 ^ (e - 1) < v) →
      ∃ m, next_pow2_loop v (2 ^ e) = 2 ^ m ∧ v ≤ 2 ^ m ∧ (m = 0 ∨ 2 ^ (m - 1) < v) := by
  intro d
  induction d using Nat.strong_induction_on with
  | _ d ih =>
    intro e hd he
    have hpos : 0 < 2 ^ e := by positivity
    rw [next_pow2_loop]
    by_cases h : 2 ^ e < v
    · rw [if_pos ⟨h, hpos⟩]
      have hshl : 2 ^ e <<< 1 = 2 ^ (e + 1) := by rw [Nat.shiftLeft_eq, pow_succ 2 e]
      rw [hshl]
      have hlt : 2 ^ e < 2 ^ (e + 1) := Nat.pow_lt_pow_right (by norm_num) (by omega)
      exact ih (v - 2 ^ (e + 1)) (by omega) (e + 1) rfl (Or.inr (by simpa using h))
    · rw [if_neg (by omega)]
      exact ⟨e, rfl, by omega, he⟩

/-- The value of `next_pow2(v)` is the least power of two that is at least `v`. -/
theorem next_pow2_spec (v : ℕ) :
    ∃ m, next_pow2 v = 2 ^ m ∧ v ≤ 2 ^ m ∧ (m = 0 ∨ 2 ^ (m - 1) < v) := by
  unfold next_pow2
  by_cases h : v ≤ 1
  · rw [if_pos h]
    exact ⟨0, rfl, by simpa using h, Or.inl rfl⟩
  · rw [if_neg h]
    have := next_pow2_loop_spec v (v - 2 ^ 0) 0 rfl (Or.inl rfl)
    simpa using this

/-! ## The flattened coordinates and the distance kernel -/

theorem sq_dist_congr [Zero F] [Add F] [Sub F] [Mul F] (p q r : List F) (D : ℕ)
    (h : ∀ j, j < D → p.getD j 0 = q.getD j 0) : sq_dist p r D = sq_dist q r D := by
  unfold sq_dist
  induction D with
  | zero => rfl
  | succ D ih =>
    rw [List.range_succ, List.foldl_append, List.foldl_append,
      ih (fun j hj => h j (by omega))]
    simp only [List.foldl_cons, List.foldl_nil]
    rw [h D (by omega)]

theorem getD_drop {α : Type} (l : List α) (n j : ℕ) (d : α) :
    (l.drop n).getD j d = l.getD (n + j) d := by
  simp [List.getD_eq_getElem?_getD]

/-- A loop that writes `g c` into slot `base + c` for `c < n`. -/
theorem foldl_set_offset {α : Type} (g : ℕ → α) (d : α) (base : ℕ) :
    ∀ (n : ℕ) (l : List α), base + n ≤ l.length →
      ((List.range n).foldl (fun h j => h.set (base + j) (g j)) l).length = l.length ∧
      ∀ x, ((List.range n).foldl (fun h j => h.set (base + j) (g j)) l).getD x d
        = if base ≤ x ∧ x < base + n then g (x - base) else l.getD x d := by
  intro n
  induction n with
  | zero =>
    intro l _
    refine ⟨rfl, fun x => ?_⟩
    rw [if_neg (by omega)]
    rfl
  | succ n ih =>
    intro l hl
    rw [List.range_succ, List.foldl_append]
    simp only [List.foldl_cons, List.foldl_nil]
    obtain ⟨hlen, hval⟩ := ih l (by omega)
    refine ⟨by rw [List.length_set, hlen], fun x => ?_⟩
    rw [getD_set_of_lt _ _ _ _ _ (by rw [hlen]; omega), hval x]
    by_cases hx : base + n = x
    · subst hx
      have hc : base ≤ base + n ∧ base + n < base + (n + 1) := by omega
      rw [if_pos rfl, if_pos hc]
      congr 1
      omega
    · rw [if_neg hx]
      by_cases hc : base ≤ x ∧ x < base + n
      · have hc2 : base ≤ x ∧ x < base + (n + 1) := by omega
        rw [if_pos hc, if_pos hc2]
      · have hc2 : ¬ (base ≤ x ∧ x < base + (n + 1)) := by omega
        rw [if_neg hc, if_neg hc2]

theorem flatten_rows [Zero F] (pts : List (Point F)) (D : ℕ) :
    ∀ (n : ℕ) (l : List F), n * D ≤ l.length →
      ((List.range n).foldl
        (fun h i => (List.range D).foldl
          (fun h j => h.set (i * D + j) ((pts.getD i default).coords.getD j 0)) h) l).length
        = l.length ∧
      ∀ i j, i < n → j < D →
        ((List.range n).foldl
          (fun h i => (List.range D).foldl
            (fun h j => h.set (i * D + j) ((pts.getD i default).coords.getD j 0)) h) l).getD
            (i * D + j) 0
          = (pts.getD i default).coords.getD j 0 := by
  intro n
  induction n with
  | zero =>
    intro l _
    exact ⟨rfl, fun i j hi _ => absurd hi (by omega)⟩
  | succ n ih =>
    intro l hl
    rw [List.range_succ, List.foldl_append]
    simp only [List.foldl_cons, List.foldl_nil]
    have hnD : n * D + D ≤ l.length := by rw [Nat.succ_mul] at hl; exact hl
    obtain ⟨hlen, hval⟩ := ih l (by omega)
    obtain ⟨hlen2, hval2⟩ := foldl_set_offset
      (fun j => (pts.getD n default).coords.getD j 0) 0 (n * D) D _ (by rw [hlen]; exact hnD)
    refine ⟨by rw [hlen2, hlen], ?_⟩
    intro i j hi hj
    rw [hval2]
    by_cases hin : i = n
    · subst hin
      have hc : i * D ≤ i * D + j ∧ i * D + j < i * D + D := by omega
      rw [if_pos hc]
      congr 1
      omega
    · have hlt : i < n := by omega
      have hmul : (i + 1) * D ≤ n * D := Nat.mul_le_mul_right D (by omega)
      rw [Nat.succ_mul] at hmul
      have hc : ¬ (n * D ≤ i * D + j ∧ i * D + j < n * D + D) := by omega
      rw [if_neg hc]
      exact hval i j hlt hj

theorem flatten_coords_row [Zero F] [Add F] [Sub F] [Mul F] (pts : List (Point F))
    (ref : List F) (N D i : ℕ) (hi : i < N) :
    sq_dist ((flatten_coords pts N D).drop (i * D)) ref D
      = sq_dist (pts.getD i default).coords ref D := by
  apply sq_dist_congr
  intro j hj
  rw [getD_drop]
  unfold flatten_coords
  exact (flatten_rows pts D N (List.replicate (N * D) 0) (by simp)).2 i j hi hj

theorem list_eq_map_range {α : Type} (l : List α) (M : ℕ) (g : ℕ → α) (d : α)
    (hlen : l.length = M) (h : ∀ x, x < M → l.getD x d = g x) :
    l = (List.range M).map g := by
  apply List.ext_getElem
  · simp [hlen]
  · intro n h1 h2
    have := h n (by omega)
    rw [List.getD_eq_getElem _ _ h1] at this
    simp [this]

theorem distance_kernel_inv [Zero F] [Add F] [Sub F] [Mul F] (inf : F)
    (coords_flat ref : List F) (N D M : ℕ) (out0 : List F) (h0 : out0.length = M) :
    ∀ n : ℕ,
      ((List.range n).foldl (distance_thread inf coords_flat ref N D M) out0).length = M ∧
      ∀ x, ((List.range n).foldl (distance_thread inf coords_flat ref N D M) out0).getD x 0
        = if x < n ∧ x < M
          then (if x < N then sq_dist (coords_flat.drop (x * D)) ref D else inf)
          else out0.getD x 0 := by
  intro n
  induction n with
  | zero =>
    refine ⟨h0, fun x => ?_⟩
    have hc : ¬ (x < 0 ∧ x < M) := by omega
    rw [if_neg hc]
    rfl
  | succ n ih =>
    rw [List.range_succ, List.foldl_append]
    simp only [List.foldl_cons, List.foldl_nil]
    generalize (List.range n).foldl (distance_thread inf coords_flat ref N D M) out0 = out at ih ⊢
    obtain ⟨hlen, hval⟩ := ih
    unfold distance_thread
    by_cases hM : n ≥ M
    · rw [if_pos hM]
      refine ⟨hlen, fun x => ?_⟩
      rw [hval x]
      by_cases hc : x < n ∧ x < M
      · have hc2 : x < n + 1 ∧ x < M := by omega
        rw [if_pos hc, if_pos hc2]
      · have hc2 : ¬ (x < n + 1 ∧ x < M) := by omega
        rw [if_neg hc, if_neg hc2]
    · rw [if_neg hM]
      have key : ∀ (v : F), (out.set n v).length = M ∧
          ∀ x, (out.set n v).getD x 0
            = if x < n + 1 ∧ x < M then (if x = n then v else
                (if x < N then sq_dist (coords_flat.drop (x * D)) ref D else inf))
              else out0.getD x 0 := by
        intro v
        refine ⟨by rw [List.length_set, hlen], fun x => ?_⟩
        rw [getD_set_of_lt _ _ _ _ _ (by rw [hlen]; omega), hval x]
        by_cases hx : n = x
        · subst hx
          have hc2 : n < n + 1 ∧ n < M := by omega
          rw [if_pos rfl, if_pos hc2, if_pos rfl]
        · have hx' : ¬ x = n := fun h => hx h.symm
          rw [if_neg hx]
          by_cases hc : x < n ∧ x < M
          · have hc2 : x < n + 1 ∧ x < M := by omega
            rw [if_pos hc, if_pos hc2, if_neg hx']
          · have hc2 : ¬ (x < n + 1 ∧ x < M) := by omega
            rw [if_neg hc, if_neg hc2]
      by_cases hN : n ≥ N
      · rw [if_pos hN]
        refine ⟨(key inf).1, fun x => ?_⟩
        rw [(key inf).2 x]
        by_cases hc : x < n + 1 ∧ x < M
        · rw [if_pos hc, if_pos hc]
          by_cases hx : x = n
          · subst hx
            have : ¬ x < N := by omega
            rw [if_pos rfl, if_neg this]
          · rw [if_neg hx]
        · rw [if_neg hc, if_neg hc]
      · rw [if_neg hN]
        refine ⟨(key _).1, fun x => ?_⟩
        rw [(key _).2 x]
        by_cases hc : x < n + 1 ∧ x < M
        · rw [if_pos hc, if_pos hc]
          by_cases hx : x = n
          · subst hx
            have : x < N := by omega
            rw [if_pos rfl, if_pos this]
          · rw [if_neg hx]
        · rw [if_neg hc, if_neg hc]

/-- The keys written by `distance_kernel`: the squared distance of point `i` below `N`,
`INFINITY` in the padding. -/
theorem distance_kernel_spec [Zero F] [Add F] [Sub F] [Mul F] (inf : F)
    (pts : List (Point F)) (ref : List F) (N D M nthreads : ℕ) (hnt : M ≤ nthreads) :
    distance_kernel inf (flatten_coords pts N D) ref N D M nthreads (List.replicate M 0)
      = (List.range M).map
          (fun i => if i < N then sq_dist (pts.getD i default).coords ref D else inf) := by
  unfold distance_kernel
  obtain ⟨hlen, hval⟩ := distance_kernel_inv inf (flatten_coords pts N D) ref N D M
    (List.replicate M 0) (by simp) nthreads
  apply list_eq_map_range _ M _ 0 hlen
  intro x hx
  have hc : x < nthreads ∧ x < M := by omega
  rw [hval x, if_pos hc]
  by_cases hN : x < N
  · rw [if_pos hN, if_pos hN, flatten_coords_row pts ref N D x hN]
  · rw [if_neg hN, if_neg hN]

theorem zipWith_same {α β : Type} (f : α → α → β) (l : List α) :
    List.zipWith f l l = l.map (fun x => f x x) := by
  induction l with
  | nil => rfl
  | cons x l ih => simp [ih]

theorem nthreads_ge (M : ℕ) : M ≤ (M + 256 - 1) / 256 * 256 := by
  omega

/-- The pairs handed to the sort: the real points first, then the padding. -/
theorem initial_pairs (key : ℕ → F) (inf : F) (N M : ℕ) (hNM : N ≤ M) :
    dev_pairs ((List.range M).map (fun i => if i < N then key i else inf), make_idx N M)
      = (List.range N).map (fun i => toLex (key i, i))
        ++ (List.range (M - N)).map (fun i => toLex (inf, N + (N + i))) := by
  unfold dev_pairs make_idx
  simp only [List.zipWith_map_left, List.zipWith_map_right, zipWith_same]
  have hM : M = N + (M - N) := by omega
  conv_lhs => rw [hM, List.range_add, List.map_append, List.map_map]
  congr 1
  · apply List.map_congr_left
    intro i hi
    have : i < N := List.mem_range.mp hi
    simp [this]
  · apply List.map_congr_left
    intro i _
    simp

/-! ## A sorted rearrangement of `A ++ B` with `A` below `B` -/

theorem sorted_perm_append_split {α : Type} [LinearOrder α] (P A B : List α)
    (hp : P.Perm (A ++ B)) (hs : P.Pairwise (· ≤ ·))
    (hAB : ∀ a, a ∈ A → ∀ b, b ∈ B → a ≤ b) :
    ∃ R Q, P = R ++ Q ∧ R.Perm A ∧ Q.Perm B ∧ R.Pairwise (· ≤ ·) := by
  have pA := List.perm_insertionSort (· ≤ ·) A
  have pB := List.perm_insertionSort (· ≤ ·) B
  have sA : (A.insertionSort (· ≤ ·)).Pairwise (· ≤ ·) := List.sorted_insertionSort (· ≤ ·) A
  have sB : (B.insertionSort (· ≤ ·)).Pairwise (· ≤ ·) := List.sorted_insertionSort (· ≤ ·) B
  refine ⟨A.insertionSort (· ≤ ·), B.insertionSort (· ≤ ·), ?_, pA, pB, sA⟩
  apply List.eq_of_perm_of_sorted (hp.trans (pA.append pB).symm) hs
  show List.Pairwise _ _
  rw [List.pairwise_append]
  exact ⟨sA, sB, fun a ha b hb => hAB a (pA.mem_iff.mp ha) b (pB.mem_iff.mp hb)⟩

theorem map_range_getD {α β : Type} (l : List α) (d : α) (G : α → β) :
    (List.range l.length).map (fun x => G (l.getD x d)) = l.map G := by
  apply List.ext_getElem
  · simp
  · intro n h1 h2
    simp only [List.length_map, List.length_range] at h1
    simp [List.getElem?_eq_getElem h1]

theorem getD_append_left {α : Type} (R Q : List α) (d : α) (i : ℕ) (h : i < R.length) :
    (R ++ Q).getD i d = R.getD i d := by
  rw [List.getD_eq_getElem _ _ h, List.getD_eq_getElem _ _ (by simp; omega),
    List.getElem_append_left h]

theorem getD_mem {α : Type} (l : List α) (d : α) (i : ℕ) (h : i < l.length) :
    l.getD i d ∈ l := by
  rw [List.getD_eq_getElem _ _ h]
  exact List.getElem_mem _

theorem nodup_getD_inj {α : Type} (l : List α) (d : α) (hn : l.Nodup) (i j : ℕ)
    (hi : i < l.length) (hj : j < l.length) (h : l.getD i d = l.getD j d) : i = j := by
  rw [List.getD_eq_getElem _ _ hi, List.getD_eq_getElem _ _ hj] at h
  exact (List.Nodup.getElem_inj_iff hn).mp h

/-! ## The host reorder -/

theorem host_reorder_inv [Zero F] (sorted_idx : List ℕ) (sorted_keys : List F)
    (pts : List (Point F)) (N : ℕ) (hN : pts.length = N)
    (hlt : ∀ i, i < N → sorted_idx.getD i 0 < N)
    (hinj : ∀ i j, i < N → j < N → sorted_idx.getD i 0 = sorted_idx.getD j 0 → i = j) :
    ∀ n, n ≤ N → ∃ pts_n temp_n,
      (List.range n).foldl (host_reorder_step sorted_idx sorted_keys)
          (some (pts, List.replicate N default)) = some (pts_n, temp_n) ∧
      pts_n.length = N ∧ temp_n.length = N ∧
      (∀ x, (∀ i, i < n → sorted_idx.getD i 0 ≠ x) →
        pts_n.getD x default = pts.getD x default) ∧
      ∀ x, x < N → temp_n.getD x default
        = if x < n then
            { coords := (pts.getD (sorted_idx.getD x 0) default).coords,
              dist := sorted_keys.getD x 0 }
          else default := by
  intro n
  induction n with
  | zero =>
    intro _
    refine ⟨pts, List.replicate N default, rfl, hN, by simp, fun _ _ => rfl, ?_⟩
    intro x hx
    rw [if_neg (by omega), List.getD_eq_getElem _ _ (by simpa using hx)]
    simp
  | succ n ih =>
    intro hn
    obtain ⟨pts_n, temp_n, hfold, hl1, hl2, hkeep, htemp⟩ := ih (by omega)
    rw [List.range_succ, List.foldl_append, hfold]
    simp only [List.foldl_cons, List.foldl_nil, host_reorder_step]
    have hidx : sorted_idx.getD n 0 < pts_n.length := by rw [hl1]; exact hlt n (by omega)
    rw [if_pos hidx]
    have hsrc : pts_n.getD (sorted_idx.getD n 0) default
        = pts.getD (sorted_idx.getD n 0) default := by
      apply hkeep
      intro i hi heq
      have := hinj i n (by omega) (by omega) heq
      omega
    refine ⟨_, _, rfl, by rw [List.length_set, hl1], by rw [List.length_set, hl2], ?_, ?_⟩
    · intro x hx
      rw [getD_set_of_lt _ _ _ _ _ hidx, if_neg (hx n (by omega))]
      exact hkeep x (fun i hi => hx i (by omega))
    · intro x hxN
      rw [getD_set_of_lt _ _ _ _ _ (by rw [hl2]; omega), hsrc]
      by_cases hx : n = x
      · subst hx
        rw [if_pos rfl, if_pos (by omega)]
      · rw [if_neg hx, htemp x hxN]
        by_cases hc : x < n
        · rw [if_pos hc, if_pos (by omega)]
        · rw [if_neg hc, if_neg (by omega)]

theorem host_reorder_spec [Zero F] (sorted_idx : List ℕ) (sorted_keys : List F)
    (pts : List (Point F)) (N : ℕ) (hN : pts.length = N)
    (hlt : ∀ i, i < N → sorted_idx.getD i 0 < N)
    (hinj : ∀ i j, i < N → j < N → sorted_idx.getD i 0 = sorted_idx.getD j 0 → i = j) :
    ∃ pts_n,
      (List.range N).foldl (host_reorder_step sorted_idx sorted_keys)
          (some (pts, List.replicate N default))
        = some (pts_n, (List.range N).map (fun x =>
            ({ coords := (pts.getD (sorted_idx.getD x 0) default).coords,
               dist := sorted_keys.getD x 0 } : Point F))) := by
  obtain ⟨pts_n, temp_n, hfold, _, hl2, _, htemp⟩ :=
    host_reorder_inv sorted_idx sorted_keys pts N hN hlt hinj N le_rfl
  refine ⟨pts_n, ?_⟩
  rw [hfold]
  congr 2
  apply list_eq_map_range _ N _ default hl2
  intro x hx
  rw [htemp x hx, if_pos hx]

/-! ## `run_gpu_sort` -/

/-- The whole of `run_gpu_sort`: when no real key exceeds `INFINITY` (which matters only if
there is padding), the result lists the input points along an ordering `idx` of the input
positions that is ascending in (squared distance, position), each point carrying its own
squared distance. -/
theorem run_gpu_sort_spec [LinearOrder F] [Zero F] [Add F] [Sub F] [Mul F] (inf : F)
    (pts : List (Point F)) (ref : List F)
    (hinf : pts.length < next_pow2 pts.length →
      ∀ p, p ∈ pts → sq_dist p.coords ref ref.length ≤ inf) :
    ∃ idx : List ℕ, idx.Perm (List.range pts.length) ∧
      idx.Pairwise (fun a b =>
        toLex (sq_dist (pts.getD a default).coords ref ref.length, a)
          ≤ toLex (sq_dist (pts.getD b default).coords ref ref.length, b)) ∧
      run_gpu_sort inf pts ref = some (idx.map (fun v =>
        ({ coords := (pts.getD v default).coords,
           dist := sq_dist (pts.getD v default).coords ref ref.length } : Point F))) := by
  by_cases hN : pts.length = 0
  · have : pts = [] := List.length_eq_zero.mp hN
    subst this
    exact ⟨[], by simp, List.Pairwise.nil, by simp [run_gpu_sort]⟩
  · obtain ⟨m, hm, hNm, _⟩ := next_pow2_spec pts.length
    unfold run_gpu_sort
    simp only [if_neg hN]
    rw [hm, distance_kernel_spec inf pts ref pts.length ref.length (2 ^ m) _ (nthreads_ge (2 ^ m))]
    have hk1 : ((List.range (2 ^ m)).map (fun i =>
        if i < pts.length then sq_dist (pts.getD i default).coords ref ref.length
        else inf)).length = 2 ^ m := by simp
    have hk2 : (make_idx pts.length (2 ^ m)).length = 2 ^ m := by simp [make_idx]
    obtain ⟨o1, o2, operm, osorted⟩ := sort_outer_sorted m ((2 ^ m + 256 - 1) / 256 * 256)
      (nthreads_ge (2 ^ m))
      ((List.range (2 ^ m)).map (fun i =>
        if i < pts.length then sq_dist (pts.getD i default).coords ref ref.length else inf),
       make_idx pts.length (2 ^ m)) hk1 hk2
    generalize sort_outer (2 ^ m) ((2 ^ m + 256 - 1) / 256 * 256) 2
      ((List.range (2 ^ m)).map (fun i =>
        if i < pts.length then sq_dist (pts.getD i default).coords ref ref.length else inf),
       make_idx pts.length (2 ^ m)) = st at o1 o2 operm osorted ⊢
    rw [initial_pairs (fun i => sq_dist (pts.getD i default).coords ref ref.length) inf
      pts.length (2 ^ m) hNm] at operm
    have hAB : ∀ a, a ∈ (List.range pts.length).map
          (fun i => toLex (sq_dist (pts.getD i default).coords ref ref.length, i)) →
        ∀ b, b ∈ (List.range (2 ^ m - pts.length)).map
          (fun i => toLex (inf, pts.length + (pts.length + i))) → a ≤ b := by
      intro a ha b hb
      obtain ⟨i, hi, rfl⟩ := List.mem_map.mp ha
      obtain ⟨i', hi', rfl⟩ := List.mem_map.mp hb
      have hiN : i < pts.length := List.mem_range.mp hi
      have hpad : pts.length < next_pow2 pts.length := by
        have := List.mem_range.mp hi'
        rw [hm]; omega
      have hle := hinf hpad _ (getD_mem pts default i hiN)
      rw [Prod.Lex.le_iff]
      rcases lt_or_eq_of_le hle with h | h
      · exact Or.inl h
      · exact Or.inr ⟨h, by simp only; omega⟩
    obtain ⟨R, Q, hP, hR, _, hRs⟩ := sorted_perm_append_split _ _ _ operm osorted hAB
    have hRlen : R.length = pts.length := by rw [hR.length_eq]; simp
    have hform : ∀ e, e ∈ R → ∃ v, v < pts.length ∧
        e = toLex (sq_dist (pts.getD v default).coords ref ref.length, v) := by
      intro e he
      obtain ⟨v, hv, rfl⟩ := List.mem_map.mp (hR.mem_iff.mp he)
      exact ⟨v, List.mem_range.mp hv, rfl⟩
    have hview : ∀ x, x < pts.length →
        toLex (st.1.getD x 0, st.2.getD x 0) = R.getD x (toLex (0, 0)) := by
      intro x hx
      have h1 := getD_zipWith (fun (k : F) (v : ℕ) => toLex (k, v)) 0 0 st.1 st.2 x
        (by rw [o1, o2])
      have h2 : dev_pairs st = List.zipWith (fun (k : F) (v : ℕ) => toLex (k, v)) st.1 st.2 :=
        rfl
      rw [← h2, hP, getD_append_left R Q _ x (by omega)] at h1
      exact h1.symm
    have hsnd : ∀ x, x < pts.length →
        st.2.getD x 0 = (ofLex (R.getD x (toLex (0, 0)))).2 := by
      intro x hx; rw [← hview x hx]; rfl
    have hfst : ∀ x, x < pts.length →
        st.1.getD x 0 = (ofLex (R.getD x (toLex (0, 0)))).1 := by
      intro x hx; rw [← hview x hx]; rfl
    have hidxperm : (R.map (fun e => (ofLex e).2)).Perm (List.range pts.length) := by
      have := hR.map (fun e : Lex (F × ℕ) => (ofLex e).2)
      rw [List.map_map] at this
      have e2 : (List.range pts.length).map
          ((fun e : Lex (F × ℕ) => (ofLex e).2) ∘
            (fun i => toLex (sq_dist (pts.getD i default).coords ref ref.length, i)))
          = List.range pts.length := by
        conv_rhs => rw [← List.map_id (List.range pts.length)]
        apply List.map_congr_left
        intro i _
        rfl
      rw [e2] at this
      exact this
    have hlt : ∀ i, i < pts.length → st.2.getD i 0 < pts.length := by
      intro i hi
      rw [hsnd i hi]
      obtain ⟨v, hv, hev⟩ := hform _ (getD_mem R _ i (by omega))
      rw [hev]
      exact hv
    have hinj : ∀ i j, i < pts.length → j < pts.length →
        st.2.getD i 0 = st.2.getD j 0 → i = j := by
      intro i j hi hj h
      rw [hsnd i hi, hsnd j hj] at h
      have hnd : (R.map (fun e => (ofLex e).2)).Nodup :=
        hidxperm.nodup_iff.mpr (List.nodup_range _)
      have hi' : i < (R.map (fun e => (ofLex e).2)).length := by
        rw [List.length_map]; omega
      have hj' : j < (R.map (fun e => (ofLex e).2)).length := by
        rw [List.length_map]; omega
      have hi2 : i < R.length := by omega
      have hj2 : j < R.length := by omega
      apply nodup_getD_inj _ 0 hnd i j hi' hj'
      rw [List.getD_eq_getElem _ _ hi', List.getD_eq_getElem _ _ hj']
      rw [List.getD_eq_getElem _ _ hi2, List.getD_eq_getElem _ _ hj2] at h
      simpa using h
    obtain ⟨pts_n, hfold⟩ := host_reorder_spec st.2 st.1 pts pts.length rfl hlt hinj
    rw [hfold]
    simp only
    refine ⟨R.map (fun e => (ofLex e).2), hidxperm, ?_, ?_⟩
    · rw [List.pairwise_map]
      refine hRs.imp_of_mem ?_
      intro a b ha hb hab
      obtain ⟨v, _, hev⟩ := hform a ha
      obtain ⟨w, _, hew⟩ := hform b hb
      rw [hev, hew] at hab ⊢
      exact hab
    · congr 1
      rw [List.map_map, ← hRlen]
      rw [← map_range_getD R (toLex (0, 0))]
      apply List.map_congr_left
      intro x hx
      have hxN : x < pts.length := by rw [← hRlen]; exact List.mem_range.mp hx
      obtain ⟨v, _, hev⟩ := hform _ (getD_mem R (toLex (0, 0)) x (by omega))
      rw [hsnd x hxN, hfst x hxN]
      simp only [Function.comp]
      rw [hev]
      rfl

/-! ## The result of `run_gpu_sort` as a stable sort -/

theorem orderedInsert_congr {α : Type} (r r' : α → α → Prop) [DecidableRel r]
    [DecidableRel r'] (a : α) :
    ∀ (S : List α), (∀ b, b ∈ S → (r a b ↔ r' a b)) →
      List.orderedInsert r a S = List.orderedInsert r' a S := by
  intro S
  induction S with
  | nil => intro _; rfl
  | cons b S ih =>
    intro h
    have hb := h b (List.mem_cons_self b S)
    have hS := ih (fun c hc => h c (List.mem_cons_of_mem b hc))
    simp only [List.orderedInsert]
    by_cases hr : r a b
    · rw [if_pos hr, if_pos (hb.mp hr)]
    · rw [if_neg hr, if_neg (fun h' => hr (hb.mpr h')), hS]

/-- On a list of increasing positions, sorting by key alone (stably) and sorting by the pair
(key, position) give the same list. -/
theorem insertionSort_key_eq_lex [LinearOrder F] (key : ℕ → F) :
    ∀ (l : List ℕ), l.Pairwise (· < ·) →
      l.insertionSort (fun a b => key a ≤ key b)
        = l.insertionSort (fun a b => toLex (key a, a) ≤ toLex (key b, b)) := by
  intro l
  induction l with
  | nil => intro _; rfl
  | cons a l ih =>
    intro h
    rw [List.pairwise_cons] at h
    simp only [List.insertionSort]
    rw [ih h.2]
    apply orderedInsert_congr
    intro b hb
    have hab : a < b := h.1 b ((List.mem_insertionSort _).mp hb)
    rw [Prod.Lex.le_iff]
    constructor
    · intro hk
      rcases lt_or_eq_of_le hk with h1 | h1
      · exact Or.inl h1
      · exact Or.inr ⟨h1, le_of_lt hab⟩
    · intro hk
      rcases hk with h1 | ⟨h1, _⟩
      · exact le_of_lt h1
      · exact le_of_eq h1

theorem insertionSort_lex_unique [LinearOrder F] (key : ℕ → F) (l idx : List ℕ)
    (hperm : idx.Perm l)
    (hsorted : idx.Pairwise (fun a b => toLex (key a, a) ≤ toLex (key b, b))) :
    l.insertionSort (fun a b => toLex (key a, a) ≤ toLex (key b, b)) = idx := by
  haveI : IsTotal ℕ (fun a b => toLex (key a, a) ≤ toLex (key b, b)) :=
    ⟨fun a b => le_total _ _⟩
  haveI : IsTrans ℕ (fun a b => toLex (key a, a) ≤ toLex (key b, b)) :=
    ⟨fun a b c => le_trans⟩
  haveI : IsAntisymm ℕ (fun a b => toLex (key a, a) ≤ toLex (key b, b)) :=
    ⟨fun a b h1 h2 => by
      have := le_antisymm h1 h2
      exact congrArg (fun e : Lex (F × ℕ) => (ofLex e).2) this⟩
  exact List.eq_of_perm_of_sorted ((List.perm_insertionSort _ l).trans hperm.symm)
    (List.sorted_insertionSort _ l) hsorted

/-- The result of `run_gpu_sort` is the stable sort by `dist` of the input with its squared
distances filled in. -/
theorem run_gpu_sort_stable [LinearOrder F] [Zero F] [Add F] [Sub F] [Mul F] (inf : F)
    (pts : List (Point F)) (ref : List F)
    (hinf : pts.length < next_pow2 pts.length →
      ∀ p, p ∈ pts → sq_dist p.coords ref ref.length ≤ inf) :
    run_gpu_sort inf pts ref
      = some ((compute_distances_cpu pts ref).insertionSort (fun a b => a.dist ≤ b.dist)) := by
  obtain ⟨idx, hperm, hsorted, hrun⟩ := run_gpu_sort_spec inf pts ref hinf
  rw [hrun, compute_distances_cpu_eq_map]
  congr 1
  have hkeyed : pts.map (fun p => ({ p with dist := sq_dist p.coords ref ref.length } : Point F))
      = (List.range pts.length).map (fun v =>
          ({ coords := (pts.getD v default).coords,
             dist := sq_dist (pts.getD v default).coords ref ref.length } : Point F)) :=
    (map_range_getD pts default
      (fun p => ({ p with dist := sq_dist p.coords ref ref.length } : Point F))).symm
  rw [hkeyed, ← List.map_insertionSort
    (fun a b => sq_dist (pts.getD a default).coords ref ref.length
      ≤ sq_dist (pts.getD b default).coords ref ref.length)
    (fun a b : Point F => a.dist ≤ b.dist) _ _ (fun a _ b _ => Iff.rfl),
    insertionSort_key_eq_lex (fun v => sq_dist (pts.getD v default).coords ref ref.length)
      _ (List.pairwise_lt_range _),
    insertionSort_lex_unique _ _ idx hperm hsorted]

/-! ## Properties of the rankers -/

theorem insertion_sort_contract [LinearOrder F] :
    StdSortContract (insertion_sort_by_dist : List (Point F) → List (Point F)) := by
  intro l
  refine ⟨List.perm_insertionSort _ l, ?_⟩
  have hs : (l.insertionSort (fun a b : Point F => a.dist ≤ b.dist)).Pairwise
      (fun a b => a.dist ≤ b.dist) := by
    haveI : IsTotal (Point F) (fun a b => a.dist ≤ b.dist) := ⟨fun a b => le_total _ _⟩
    haveI : IsTrans (Point F) (fun a b => a.dist ≤ b.dist) := ⟨fun a b c => le_trans⟩
    exact List.sorted_insertionSort (fun a b : Point F => a.dist ≤ b.dist) l
  exact hs.imp (fun h => not_lt.mpr h)

theorem pairwise_get_of_pairwise {α : Type} (R : α → α → Prop) (l : List α)
    (h : l.Pairwise R) (i j : ℕ) (hij : i < j) (hj : j < l.length) :
    R (l.get ⟨i, lt_trans hij hj⟩) (l.get ⟨j, hj⟩) := by
  have := List.pairwise_iff_getElem.mp h i j (lt_trans hij hj) hj hij
  simpa using this

/-- C1. CPU ranker sortedness: for every point collection, every sort meeting the contract
of `std::sort` and every worker count `≥ 1`, the output of `mergesort_cpu` has the length of
the input and `out[i].dist ≤ out[j].dist` for all `i < j < N`. -/
theorem cpu_ranker_sorted [LinearOrder F] [Zero F] (sort : List (Point F) → List (Point F))
    (hsort : StdSortContract sort) (num_threads : ℕ) (hw : 1 ≤ num_threads)
    (pts : List (Point F)) :
    (mergesort_cpu sort num_threads pts).length = pts.length ∧
    ∀ (i j : ℕ) (hij : i < j) (hj : j < (mergesort_cpu sort num_threads pts).length),
      ((mergesort_cpu sort num_threads pts).get ⟨i, lt_trans hij hj⟩).dist
        ≤ ((mergesort_cpu sort num_threads pts).get ⟨j, hj⟩).dist := by
  obtain ⟨hp, hs⟩ := mergesort_cpu_perm_sorted sort hsort num_threads pts
  exact ⟨hp.length_eq, fun i j hij hj => pairwise_get_of_pairwise _ _ hs i j hij hj⟩

theorem cpu_ranker_sorted_witness :
    StdSortContract (insertion_sort_by_dist : List (Point ℤ) → List (Point ℤ)) ∧ 1 ≤ 4 ∧
    ((mergesort_cpu insertion_sort_by_dist 4 sample_points).length = sample_points.length ∧
    ∀ (i j : ℕ) (hij : i < j)
      (hj : j < (mergesort_cpu insertion_sort_by_dist 4 sample_points).length),
      ((mergesort_cpu insertion_sort_by_dist 4 sample_points).get ⟨i, lt_trans hij hj⟩).dist
        ≤ ((mergesort_cpu insertion_sort_by_dist 4 sample_points).get ⟨j, hj⟩).dist) :=
  ⟨insertion_sort_contract, by decide,
    cpu_ranker_sorted insertion_sort_by_dist insertion_sort_contract 4 (by decide) sample_points⟩

/-- C2. CPU ranker is a pure reordering: the output of `mergesort_cpu` is a permutation of
the input as a list of whole points (coordinates together with their `dist`), so no point is
lost, duplicated or altered and the length is unchanged. -/
theorem cpu_ranker_perm [LinearOrder F] [Zero F] (sort : List (Point F) → List (Point F))
    (hsort : StdSortContract sort) (num_threads : ℕ) (hw : 1 ≤ num_threads)
    (pts : List (Point F)) :
    (mergesort_cpu sort num_threads pts).Perm pts ∧
    (mergesort_cpu sort num_threads pts).length = pts.length := by
  obtain ⟨hp, _⟩ := mergesort_cpu_perm_sorted sort hsort num_threads pts
  exact ⟨hp, hp.length_eq⟩

theorem cpu_ranker_perm_witness :
    StdSortContract (insertion_sort_by_dist : List (Point ℤ) → List (Point ℤ)) ∧ 1 ≤ 2 ∧
    ((mergesort_cpu insertion_sort_by_dist 2 sample_points).Perm sample_points ∧
    (mergesort_cpu insertion_sort_by_dist 2 sample_points).length = sample_points.length) :=
  ⟨insertion_sort_contract, by decide,
    cpu_ranker_perm insertion_sort_by_dist insertion_sort_contract 2 (by decide) sample_points⟩

theorem lex_le_of_ne [LinearOrder F] (ka kb : F) (a b : ℕ) (hab : a ≠ b)
    (h : toLex (ka, a) ≤ toLex (kb, b)) : ka < kb ∨ (ka = kb ∧ a < b) := by
  rw [Prod.Lex.le_iff] at h
  rcases h with h | ⟨h1, h2⟩
  · exact Or.inl h
  · exact Or.inr ⟨h1, lt_of_le_of_ne h2 hab⟩

/-- On unbounded counters and keys in a linear order: for `N ≥ 1` points (`inf` being
`INFINITY`, which no key exceeds), the result of `run_gpu_sort` is the stable sort by distance
of the input with its squared distances filled in; equivalently it lists the input points
along an ordering `idx` of the input positions `0 .. N-1` that is strictly ascending in the
pair (squared distance, input position). -/
theorem gpu_ranker_total_order [LinearOrder F] [Zero F] [Add F] [Sub F] [Mul F] (inf : F)
    (pts : List (Point F)) (ref : List F) (hN : 1 ≤ pts.length)
    (hdim : ∀ p, p ∈ pts → p.coords.length = ref.length)
    (hinf : ∀ p, p ∈ pts → sq_dist p.coords ref ref.length ≤ inf) :
    run_gpu_sort inf pts ref
      = some ((compute_distances_cpu pts ref).insertionSort (fun a b => a.dist ≤ b.dist)) ∧
    ∃ idx : List ℕ, idx.Perm (List.range pts.length) ∧
      run_gpu_sort inf pts ref = some (idx.map (fun v =>
        ({ coords := (pts.getD v default).coords,
           dist := sq_dist (pts.getD v default).coords ref ref.length } : Point F))) ∧
      idx.Pairwise (fun a b =>
        sq_dist (pts.getD a default).coords ref ref.length
            < sq_dist (pts.getD b default).coords ref ref.length ∨
        (sq_dist (pts.getD a default).coords ref ref.length
            = sq_dist (pts.getD b default).coords ref ref.length ∧ a < b)) := by
  refine ⟨run_gpu_sort_stable inf pts ref (fun _ => hinf), ?_⟩
  obtain ⟨idx, hperm, hsorted, hrun⟩ := run_gpu_sort_spec inf pts ref (fun _ => hinf)
  refine ⟨idx, hperm, hrun, ?_⟩
  have hnd : idx.Nodup := hperm.nodup_iff.mpr (List.nodup_range _)
  exact (hsorted.and hnd).imp (fun h => lex_le_of_ne _ _ _ _ h.2 h.1)

theorem sample_triple_below_inf :
    ∀ p, p ∈ sample_triple → sq_dist p.coords [0, 0] ([0, 0] : List ℤ).length ≤ 1000 := by
  decide

theorem sample_triple_dim :
    ∀ p, p ∈ sample_triple → p.coords.length = ([0, 0] : List ℤ).length := by
  decide

/-- On unbounded counters, keys in a linear order and exact arithmetic: `run_gpu_sort` returns
exactly `N` points; slot `i` holds the coordinates of the source point `idx[i]`, where `idx`
is a permutation of `0 .. N-1`, and each output `dist` is the sum of the squared differences
of that point's own coordinates to `ref`. -/
theorem gpu_reorder_perm [LinearOrderedCommRing F] (inf : F)
    (pts : List (Point F)) (ref : List F) (hN : 1 ≤ pts.length)
    (hdim : ∀ p, p ∈ pts → p.coords.length = ref.length)
    (hinf : ∀ p, p ∈ pts → sq_dist p.coords ref ref.length ≤ inf) :
    ∃ (idx : List ℕ) (out : List (Point F)),
      run_gpu_sort inf pts ref = some out ∧
      out.length = pts.length ∧
      idx.Perm (List.range pts.length) ∧
      out.map Point.coords = idx.map (fun v => (pts.getD v default).coords) ∧
      (out.map Point.coords).Perm (pts.map Point.coords) ∧
      ∀ p, p ∈ out → p.dist = (List.zipWith (fun c r => (c - r) ^ 2) p.coords ref).sum := by
  obtain ⟨idx, hperm, _, hrun⟩ := run_gpu_sort_spec inf pts ref (fun _ => hinf)
  have hcoords : (idx.map (fun v =>
        ({ coords := (pts.getD v default).coords,
           dist := sq_dist (pts.getD v default).coords ref ref.length } : Point F))).map
        Point.coords = idx.map (fun v => (pts.getD v default).coords) := by
    rw [List.map_map]; rfl
  refine ⟨idx, _, hrun, by rw [List.length_map, hperm.length_eq, List.length_range], hperm,
    hcoords, ?_, ?_⟩
  · rw [hcoords]
    have := hperm.map (fun v => (pts.getD v default).coords)
    rw [map_range_getD pts default Point.coords] at this
    exact this
  · intro p hp
    obtain ⟨v, hv, rfl⟩ := List.mem_map.mp hp
    have hvN : v < pts.length := List.mem_range.mp (hperm.mem_iff.mp hv)
    exact sq_dist_eq_zipWith _ ref (hdim _ (getD_mem pts default v hvN))

/-- Two sorted rearrangements of one collection of points have the same distance sequence. -/
theorem dist_seq_unique [LinearOrder F] (A B L : List (Point F)) (hA : A.Perm L)
    (hB : B.Perm L) (sA : A.Pairwise (fun a b => a.dist ≤ b.dist))
    (sB : B.Pairwise (fun a b => a.dist ≤ b.dist)) :
    A.map Point.dist = B.map Point.dist := by
  have h1 : (A.map Point.dist).Sorted (· ≤ ·) := List.pairwise_map.mpr sA
  have h2 : (B.map Point.dist).Sorted (· ≤ ·) := List.pairwise_map.mpr sB
  exact List.eq_of_perm_of_sorted ((hA.map Point.dist).trans (hB.map Point.dist).symm) h1 h2

theorem insertionSort_dist_sorted [LinearOrder F] (l : List (Point F)) :
    (l.insertionSort (fun a b => a.dist ≤ b.dist)).Pairwise (fun a b => a.dist ≤ b.dist) := by
  haveI : IsTotal (Point F) (fun a b => a.dist ≤ b.dist) := ⟨fun a b => le_total _ _⟩
  haveI : IsTrans (Point F) (fun a b => a.dist ≤ b.dist) := ⟨fun a b c => le_trans⟩
  exact List.sorted_insertionSort (fun a b : Point F => a.dist ≤ b.dist) l

/-- On unbounded counters, keys in a linear order and one shared evaluation of the keys: the
`dist` sequence of `compute_distances_cpu` followed by `mergesort_cpu` equals the `dist`
sequence of `run_gpu_sort`. -/
theorem backend_dist_equivalence [LinearOrder F] [Zero F] [Add F] [Sub F] [Mul F]
    (sort : List (Point F) → List (Point F)) (hsort : StdSortContract sort)
    (num_threads : ℕ) (hw : 1 ≤ num_threads) (inf : F) (pts : List (Point F)) (ref : List F)
    (hdim : ∀ p, p ∈ pts → p.coords.length = ref.length)
    (hinf : ∀ p, p ∈ pts → sq_dist p.coords ref ref.length ≤ inf) :
    ∃ gpu_out, run_gpu_sort inf pts ref = some gpu_out ∧
      (mergesort_cpu sort num_threads (compute_distances_cpu pts ref)).map Point.dist
        = gpu_out.map Point.dist ∧
      ((mergesort_cpu sort num_threads (compute_distances_cpu pts ref)).map Point.dist).head?
        = (gpu_out.map Point.dist).head? ∧
      ((mergesort_cpu sort num_threads (compute_distances_cpu pts ref)).map Point.dist).getLast?
        = (gpu_out.map Point.dist).getLast? := by
  obtain ⟨hp, hs⟩ := mergesort_cpu_perm_sorted sort hsort num_threads
    (compute_distances_cpu pts ref)
  have heq := dist_seq_unique _ _ _ hp
    (List.perm_insertionSort (fun a b : Point F => a.dist ≤ b.dist)
      (compute_distances_cpu pts ref)) hs (insertionSort_dist_sorted _)
  exact ⟨_, run_gpu_sort_stable inf pts ref (fun _ => hinf), heq, by rw [heq], by rw [heq]⟩

/-- C6. The distance evaluator is the elementwise squared-distance map: when every point has
as many coordinates as `ref`, `compute_distances_cpu` returns the same points in the same
order with the same coordinates, the `dist` of each being the sum over `j` of
`(coords[j] - ref[j])^2`, which depends on that point and `ref` only. -/
theorem distance_evaluator_map [CommRing F] (pts : List (Point F)) (ref : List F)
    (hdim : ∀ p, p ∈ pts → p.coords.length = ref.length) :
    compute_distances_cpu pts ref
      = pts.map (fun p =>
          ({ coords := p.coords,
             dist := (List.zipWith (fun c r => (c - r) ^ 2) p.coords ref).sum } : Point F)) := by
  rw [compute_distances_cpu_eq_map]
  apply List.map_congr_left
  intro p hp
  rw [sq_dist_eq_zipWith p.coords ref (hdim p hp)]

theorem distance_evaluator_map_witness :
    (∀ p, p ∈ sample_triple → p.coords.length = ([1, 2] : List ℤ).length) ∧
    compute_distances_cpu sample_triple [1, 2]
      = sample_triple.map (fun p =>
          ({ coords := p.coords,
             dist := (List.zipWith (fun c r => (c - r) ^ 2) p.coords [1, 2]).sum } : Point ℤ)) :=
  ⟨by decide, distance_evaluator_map sample_triple [1, 2] (by decide)⟩

theorem scenario_distances : compute_distances_cpu scenario_pts [0, 0] = scenario_keyed := by
  rw [compute_distances_cpu_eq_map]
  simp [scenario_pts, scenario_keyed, sq_dist, List.range_succ]
  norm_num

theorem next_pow2_four : next_pow2 4 = 4 := by
  obtain ⟨m, hm, h1, h2⟩ := next_pow2_spec 4
  rw [hm]
  rcases h2 with h2 | h2
  · subst h2; simp at h1
  · have hm2 : m - 1 < 2 := by
      by_contra hc
      have : 2 ^ 2 ≤ 2 ^ (m - 1) := Nat.pow_le_pow_right (by norm_num) (by omega)
      omega
    have hm3 : 2 ≤ m := by
      by_contra hc
      have : 2 ^ m ≤ 2 ^ 1 := Nat.pow_le_pow_right (by norm_num) (by omega)
      omega
    have : m = 2 := by omega
    subst this; rfl

theorem scenario_stable_sort :
    scenario_keyed.insertionSort (fun a b => a.dist ≤ b.dist) = scenario_ranked := by
  simp [scenario_keyed, scenario_ranked, List.insertionSort, List.orderedInsert]
  norm_num

/-- A sorted rearrangement of the keyed scenario points is the expected ranking. -/
theorem scenario_ranking_unique (out : List (Point ℚ)) (hp : out.Perm scenario_keyed)
    (hs : out.Pairwise (fun a b => a.dist ≤ b.dist)) : out = scenario_ranked := by
  have hne : scenario_keyed.Pairwise (fun a b => a.dist ≠ b.dist) := by
    simp [scenario_keyed]
  have hne2 : out.Pairwise (fun a b => a.dist ≠ b.dist) :=
    (hp.pairwise_iff (fun h => Ne.symm h)).mpr hne
  have hlt : out.Sorted (fun a b : Point ℚ => a.dist < b.dist) :=
    (hs.and hne2).imp (fun h => lt_of_le_of_ne h.1 h.2)
  have hlt2 : scenario_ranked.Sorted (fun a b : Point ℚ => a.dist < b.dist) := by
    simp [scenario_ranked, List.Sorted]
    norm_num
  have hp2 : scenario_ranked.Perm scenario_keyed := by
    rw [← scenario_stable_sort]
    exact List.perm_insertionSort _ _
  haveI : IsAntisymm (Point ℚ) (fun a b => a.dist < b.dist) :=
    ⟨fun a b h1 h2 => absurd h1 (not_lt.mpr (le_of_lt h2))⟩
  exact List.eq_of_perm_of_sorted (hp.trans hp2.symm) hlt hlt2

/-- C7. Worked ranking scenario: with reference `(0,0)` and the points `(0,0)`, `(3,4)`,
`(1,1)`, `(10,10)` in that order, the distance evaluator yields `0, 25, 2, 200`, and both the
CPU path (for every conforming `std::sort` and worker count) and the GPU path (`M = 4`, any
value of `INFINITY`) yield `(0,0)[0], (1,1)[2], (3,4)[25], (10,10)[200]`. -/
theorem worked_ranking_scenario (sort : List (Point ℚ) → List (Point ℚ))
    (hsort : StdSortContract sort) (num_threads : ℕ) (hw : 1 ≤ num_threads) (inf : ℚ) :
    compute_distances_cpu scenario_pts [0, 0] = scenario_keyed ∧
    mergesort_cpu sort num_threads (compute_distances_cpu scenario_pts [0, 0])
      = scenario_ranked ∧
    next_pow2 scenario_pts.length = 4 ∧
    run_gpu_sort inf scenario_pts [0, 0] = some scenario_ranked := by
  refine ⟨scenario_distances, ?_, next_pow2_four, ?_⟩
  · rw [scenario_distances]
    obtain ⟨hp, hs⟩ := mergesort_cpu_perm_sorted sort hsort num_threads scenario_keyed
    exact scenario_ranking_unique _ hp hs
  · have hpad : ¬ scenario_pts.length < next_pow2 scenario_pts.length := by
      show ¬ 4 < next_pow2 4
      rw [next_pow2_four]; omega
    rw [run_gpu_sort_stable inf scenario_pts [0, 0] (fun h => absurd h hpad),
      scenario_distances, scenario_stable_sort]

theorem worked_ranking_scenario_witness :
    StdSortContract (insertion_sort_by_dist : List (Point ℚ) → List (Point ℚ)) ∧ 1 ≤ 128 ∧
    (compute_distances_cpu scenario_pts [0, 0] = scenario_keyed ∧
    mergesort_cpu insertion_sort_by_dist 128 (compute_distances_cpu scenario_pts [0, 0])
      = scenario_ranked ∧
    next_pow2 scenario_pts.length = 4 ∧
    run_gpu_sort (1000000 : ℚ) scenario_pts [0, 0] = some scenario_ranked) :=
  ⟨insertion_sort_contract, by decide,
    worked_ranking_scenario insertion_sort_by_dist insertion_sort_contract 128 (by decide)
      1000000⟩

/-! ## load_points.cpp: the record count -/

theorem sum_indicator_eq (n c : ℕ) (hc : c < n) :
    ((List.range n).map (fun t => if c = t then 1 else 0)).sum = 1 := by
  induction n with
  | zero => omega
  | succ n ih =>
    rw [List.range_succ, List.map_append, List.sum_append]
    by_cases h : c = n
    · subst h
      have : ((List.range c).map (fun t => if c = t then 1 else 0)).sum = 0 := by
        apply List.sum_eq_zero
        intro x hx
        obtain ⟨t, ht, rfl⟩ := List.mem_map.mp hx
        have : t < c := List.mem_range.mp ht
        rw [if_neg (by omega)]
      simp [this]
    · rw [ih (by omega)]
      simp [h]

/-- A reduction over any assignment of the iterations to the workers counts every iteration
once. -/
theorem reduction_count (n : ℕ) (hn : 1 ≤ n) (sched : ℕ → ℕ) (q : ℕ → Prop) [DecidablePred q] :
    ∀ l : List ℕ,
      ((List.range n).map (fun t =>
        (l.filter (fun i => sched i % n = t ∧ q i)).length)).sum = (l.filter q).length := by
  intro l
  induction l with
  | nil => simp
  | cons i l ih =>
    have hsplit : ∀ t, ((i :: l).filter (fun i => sched i % n = t ∧ q i)).length
        = (l.filter (fun i => sched i % n = t ∧ q i)).length
          + (if q i then (if sched i % n = t then 1 else 0) else 0) := by
      intro t
      by_cases hq : q i
      · by_cases hs : sched i % n = t
        · simp [List.filter_cons, hq, hs]
        · simp [List.filter_cons, hq, hs]
      · simp [List.filter_cons, hq]
    simp only [hsplit]
    rw [List.sum_map_add, ih]
    by_cases hq : q i
    · have hmod : sched i % n < n := Nat.mod_lt _ (by omega)
      simp only [hq, if_true]
      rw [sum_indicator_eq n (sched i % n) hmod]
      simp [List.filter_cons, hq]
    · simp [List.filter_cons, hq]

theorem count_newlines_by_eq (buf : List Char) (n_threads : ℕ) (hn : 1 ≤ n_threads)
    (sched : ℕ → ℕ) : count_newlines_by buf n_threads sched = buf.count '\n' := by
  unfold count_newlines_by
  rw [reduction_count n_threads hn sched (fun i => buf.getD i '\x00' = '\n')]
  have h := map_range_getD buf '\x00' (fun c => c)
  simp only [List.map_id'] at h
  conv_rhs => rw [← h]
  rw [List.count, List.countP_map, List.countP_eq_length_filter]
  congr 1

theorem last_byte_test (buf : List Char) :
    (buf.length > 0 ∧ buf.getD (buf.length - 1) '\x00' ≠ '\n')
      ↔ (buf ≠ [] ∧ buf.getLast? ≠ some '\n') := by
  cases hb : buf with
  | nil => simp
  | cons c rest =>
    have hne : (c :: rest) ≠ [] := by simp
    have hlast : (c :: rest).getLast? = some ((c :: rest).getD ((c :: rest).length - 1) '\x00') := by
      rw [List.getLast?_eq_getElem?, List.getD_eq_getElem?_getD]
      have : (c :: rest).length - 1 < (c :: rest).length := by simp
      rw [List.getElem?_eq_getElem this]
      rfl
    rw [hlast]
    simp

theorem count_records_eq (buf : List Char) (n_threads : ℕ) (hn : 1 ≤ n_threads)
    (sched : ℕ → ℕ) : count_records buf n_threads sched = line_records buf := by
  unfold count_records line_records
  rw [count_newlines_by_eq buf n_threads hn sched]
  congr 1
  by_cases h : buf.length > 0 ∧ buf.getD (buf.length - 1) '\x00' ≠ '\n'
  · rw [if_pos h, if_pos ((last_byte_test buf).mp h)]
  · rw [if_neg h, if_neg (fun h' => h ((last_byte_test buf).mpr h'))]

theorem parse_record_length [Zero F] (strtof : List Char → F × ℕ) (buf : List Char)
    (D idx curr : ℕ) (points : List (Point F)) :
    (parse_record strtof buf D idx curr points).2.length = points.length := by
  unfold parse_record
  induction D with
  | zero => rfl
  | succ D ih =>
    rw [List.range_succ, List.foldl_append]
    simp only [List.foldl_cons, List.foldl_nil, List.length_set]
    exact ih

theorem parse_chunk_length [Zero F] (strtof : List Char → F × ℕ) (buf : List Char)
    (D N my_end global_idx : ℕ) :
    ∀ (fuel curr local_count : ℕ) (points : List (Point F)),
      (parse_chunk strtof buf D N my_end global_idx fuel curr local_count points).length
        = points.length := by
  intro fuel
  induction fuel with
  | zero => intro _ _ _; rfl
  | succ fuel ih =>
    intro curr local_count points
    simp only [parse_chunk]
    by_cases h1 : curr < my_end
    · rw [if_pos h1]
      by_cases h2 : global_idx + local_count ≥ N
      · rw [if_pos h2]
      · rw [if_neg h2, ih, parse_record_length]
    · rw [if_neg h1]

theorem load_thread_length [Zero F] (strtof : List Char → F × ℕ) (buf : List Char)
    (before : Char) (D N n_threads : ℕ) (points : List (Point F)) (tid : ℕ) :
    (load_thread strtof buf before D N n_threads points tid).length = points.length := by
  unfold load_thread
  exact parse_chunk_length _ _ _ _ _ _ _ _ _ _

theorem load_threads_length [Zero F] (strtof : List Char → F × ℕ) (buf : List Char)
    (before : Char) (D N n_threads : ℕ) :
    ∀ (tids : List ℕ) (points : List (Point F)),
      (tids.foldl (load_thread strtof buf before D N n_threads) points).length
        = points.length := by
  intro tids
  induction tids with
  | nil => intro _; rfl
  | cons t tids ih =>
    intro points
    rw [List.foldl_cons, ih, load_thread_length]

/-- With the byte in front of the mapping taken as a readable byte `before`: for every
input buffer, every worker count `≥ 1` and every assignment of the counting loop's iterations
to the workers, the vector returned by `load_points` has as many points as the file has line
records: its `\n` bytes, plus one if it is not empty and its last byte is not `\n`. -/
theorem loader_record_count [Zero F] (strtof : List Char → F × ℕ) (before : Char)
    (n_threads : ℕ) (hn : 1 ≤ n_threads) (sched : ℕ → ℕ) (buf : List Char) :
    (load_points strtof before n_threads sched buf).points.length
      = buf.count '\n' + (if buf ≠ [] ∧ buf.getLast? ≠ some '\n' then 1 else 0) := by
  unfold load_points
  simp only
  rw [load_threads_length, List.length_replicate, count_records_eq buf n_threads hn sched]
  rfl

/-! ## load_points.cpp: the worked scenario and the dependence on the worker count -/

theorem realign_before_irrel (buf : List Char) (b1 b2 : Char) (my_end : ℕ) :
    ∀ (fuel my_start : ℕ), 1 ≤ my_start →
      realign buf b1 my_end fuel my_start = realign buf b2 my_end fuel my_start := by
  intro fuel
  induction fuel with
  | zero => intro _ _; rfl
  | succ fuel ih =>
    intro my_start h
    have hp : prev_byte buf b1 my_start = prev_byte buf b2 my_start := by
      unfold prev_byte
      rw [if_neg (by omega), if_neg (by omega)]
    simp only [realign, hp]
    rw [ih (my_start + 1) (by omega)]

theorem load_thread_before_irrel [Zero F] (strtof : List Char → F × ℕ) (buf : List Char)
    (b1 b2 : Char) (D N n_threads : ℕ) (points : List (Point F)) (tid : ℕ)
    (h : tid = 0 ∨ 1 ≤ tid * (buf.length / n_threads)) :
    load_thread strtof buf b1 D N n_threads points tid
      = load_thread strtof buf b2 D N n_threads points tid := by
  unfold load_thread
  simp only
  by_cases h0 : tid = 0
  · simp [h0]
  · have h1 : 1 ≤ tid * (buf.length / n_threads) := by
      rcases h with h | h
      · exact absurd h h0
      · exact h
    rw [realign_before_irrel buf b1 b2 _ _ _ h1]

theorem foldl_congr_mem {α β : Type} (f g : α → β → α) :
    ∀ (l : List β) (a : α), (∀ a b, b ∈ l → f a b = g a b) → l.foldl f a = l.foldl g a := by
  intro l
  induction l with
  | nil => intro _ _; rfl
  | cons b l ih =>
    intro a h
    rw [List.foldl_cons, List.foldl_cons, h a b (List.mem_cons_self b l)]
    exact ih _ (fun a' b' hb' => h a' b' (List.mem_cons_of_mem b hb'))

/-- With at most as many workers as bytes, nobody reads before the mapping and the schedule of
the counting loop is immaterial. -/
theorem load_points_env_irrel [Zero F] (strtof : List Char → F × ℕ) (b1 b2 : Char)
    (n_threads : ℕ) (s1 s2 : ℕ → ℕ) (buf : List Char) (h1 : 1 ≤ n_threads)
    (h2 : n_threads ≤ buf.length) :
    load_points strtof b1 n_threads s1 buf = load_points strtof b2 n_threads s2 buf := by
  unfold load_points
  simp only
  rw [count_records_eq buf n_threads h1 s1, count_records_eq buf n_threads h1 s2]
  have hc : 1 ≤ buf.length / n_threads := (Nat.one_le_div_iff (by omega)).mpr h2
  have hf := foldl_congr_mem
    (load_thread strtof buf b1 (first_line_dims buf false 0) (line_records buf) n_threads)
    (load_thread strtof buf b2 (first_line_dims buf false 0) (line_records buf) n_threads)
    (List.range n_threads)
    (List.replicate (line_records buf)
      { coords := List.replicate (first_line_dims buf false 0) 0, dist := 0 })
    (fun a b _ => load_thread_before_irrel strtof buf b1 b2 _ _ _ a b (by
      by_cases hb : b = 0
      · exact Or.inl hb
      · exact Or.inr (Nat.one_le_iff_ne_zero.mpr (Nat.mul_ne_zero hb (by omega)))))
  rw [hf]

set_option maxRecDepth 100000 in
theorem scenario_load_small_teams :
    ∀ n, n ∈ List.range 15 →
      load_points strtof_dec '\x00' (n + 1) (fun i => i) scenario_text
        = { ok := true,
            points := [{ coords := [1, 2], dist := 0 }, { coords := [3, 4], dist := 0 }],
            D := 2 } := by
  decide!

set_option maxRecDepth 100000 in
theorem scenario_load_large_team :
    load_points strtof_dec '\x00' 16 (fun i => i) scenario_text
      = { ok := true,
          points := [{ coords := [0, 0], dist := 0 }, { coords := [3, 4], dist := 0 }],
          D := 2 } := by
  decide!

set_option maxRecDepth 100000 in
/-- C9 (evaluation of the code). Loader order is not independent of the worker count.  On the
seven-byte file `1 2\n3 4` a single worker loads `[[1,2],[3,4]]`, but with eight workers
(more than bytes, `chunk_size = 0`) the last worker realigns from offset `0` by reading
`addr[-1]` and, finding no `\n` there, skips the first line: `[[0,0],[3,4]]`.  On the ten-byte
file whose second line begins with a space, two workers lose the second record, the first
one having skipped its leading space up to the chunk boundary. -/
theorem loader_order_depends_on_workers :
    (load_points strtof_dec '\x00' 1 (fun i => i) two_line_text).points
      = [{ coords := [1, 2], dist := 0 }, { coords := [3, 4], dist := 0 }] ∧
    (load_points strtof_dec '\x00' 8 (fun i => i) two_line_text).points
      = [{ coords := [0, 0], dist := 0 }, { coords := [3, 4], dist := 0 }] ∧
    (load_points strtof_dec '\x00' 1 (fun i => i) indented_text).points
      = [{ coords := [1, 2], dist := 0 }, { coords := [3, 4], dist := 0 }] ∧
    (load_points strtof_dec '\x00' 2 (fun i => i) indented_text).points
      = [{ coords := [1, 2], dist := 0 }, { coords := [0, 0], dist := 0 }] := by
  decide!

/-- C10 (evaluation of the code). The worked loading scenario: on the fifteen bytes
`1.0 2.0\n3.0 4.0`, with `1` to `15` workers (whatever precedes the mapping, whatever the
schedule of the counting loop) `load_points` succeeds with `D = 2` and the points
`[[1,2],[3,4]]`; with `16` workers (`chunk_size = 0`) and a byte other than `\n` before the
mapping, the first record is skipped and the points are `[[0,0],[3,4]]`. -/
theorem worked_loading_scenario :
    (∀ (before : Char) (sched : ℕ → ℕ) (n_threads : ℕ), 1 ≤ n_threads → n_threads ≤ 15 →
      load_points strtof_dec before n_threads sched scenario_text
        = { ok := true,
            points := [{ coords := [1, 2], dist := 0 }, { coords := [3, 4], dist := 0 }],
            D := 2 }) ∧
    load_points strtof_dec '\x00' 16 (fun i => i) scenario_text
      = { ok := true,
          points := [{ coords := [0, 0], dist := 0 }, { coords := [3, 4], dist := 0 }],
          D := 2 } := by
  refine ⟨?_, scenario_load_large_team⟩
  intro before sched n_threads h1 h2
  have hlen : scenario_text.length = 15 := by decide
  rw [load_points_env_irrel strtof_dec before '\x00' n_threads sched (fun i => i)
    scenario_text h1 (by rw [hlen]; exact h2)]
  have := scenario_load_small_teams (n_threads - 1) (List.mem_range.mpr (by omega))
  rwa [Nat.sub_add_cancel h1] at this

/-! ## load_points.cpp and main.cpp: the empty file -/

theorem line_records_eq_zero (buf : List Char) : line_records buf = 0 ↔ buf = [] := by
  unfold line_records
  constructor
  · intro h
    by_contra hne
    by_cases hl : buf.getLast? = some '\n'
    · have hmem : '\n' ∈ buf := List.mem_of_getLast?_eq_some hl
      have := List.count_pos_iff.mpr hmem
      omega
    · rw [if_pos ⟨hne, hl⟩] at h
      omega
  · intro h
    subst h
    simp

theorem load_points_ok_iff [Zero F] (strtof : List Char → F × ℕ) (before : Char)
    (n_threads : ℕ) (hn : 1 ≤ n_threads) (sched : ℕ → ℕ) (buf : List Char) :
    (load_points strtof before n_threads sched buf).ok = true ↔ buf ≠ [] := by
  have hlen : (load_points strtof before n_threads sched buf).points.length
      = line_records buf := by
    unfold load_points
    simp only
    rw [load_threads_length, List.length_replicate, count_records_eq buf n_threads hn sched]
  have hok : (load_points strtof before n_threads sched buf).ok
      = !(load_points strtof before n_threads sched buf).points.isEmpty := rfl
  rw [hok, ← not_iff_not]
  simp only [Bool.not_eq_true', Bool.not_eq_false, Bool.not_eq_true, ne_eq, not_not,
    List.isEmpty_iff]
  rw [← line_records_eq_zero, ← hlen, List.length_eq_zero]

theorem load_points_nil [Zero F] (strtof : List Char → F × ℕ) (before : Char)
    (n_threads : ℕ) (hn : 1 ≤ n_threads) (sched : ℕ → ℕ) :
    load_points strtof before n_threads sched []
      = ({ ok := false, points := [], D := 0 } : LoadResult F) := by
  have hok := load_points_ok_iff strtof before n_threads hn sched []
  have hD : (load_points strtof before n_threads sched []).D = 0 := rfl
  have hpts : (load_points strtof before n_threads sched []).points = [] := by
    have hok2 : (load_points strtof before n_threads sched []).ok
        = !(load_points strtof before n_threads sched []).points.isEmpty := rfl
    have hf : (load_points strtof before n_threads sched []).ok = false := by
      cases h : (load_points strtof before n_threads sched []).ok
      · rfl
      · exact absurd rfl (hok.mp h)
    rw [hf] at hok2
    have : (load_points strtof before n_threads sched []).points.isEmpty = true := by
      cases h : (load_points strtof before n_threads sched []).points.isEmpty
      · rw [h] at hok2; exact absurd hok2 (by decide)
      · rfl
    exact List.isEmpty_iff.mp this
  have hf : (load_points strtof before n_threads sched []).ok = false := by
    cases h : (load_points strtof before n_threads sched []).ok
    · rfl
    · exact absurd rfl (hok.mp h)
  cases hr : load_points strtof before n_threads sched [] with
  | mk ok points D =>
    rw [hr] at hf hpts hD
    simp only at hf hpts hD
    rw [hf, hpts, hD]

/-- C11, the claim as stated fails on the empty file: run by four workers, `load_points`
does not report success, and `main` (called with a data file and a backend) ends with
status `1`. -/
theorem empty_file_not_success :
    ¬ ((load_points strtof_dec 'x' 4 (fun i => i) []).ok = true
        ∧ (load_points strtof_dec 'x' 4 (fun i => i) []).points.length = 0
        ∧ main_exit_status 3 (load_points strtof_dec 'x' 4 (fun i => i) []) ≠ 1) := by
  rw [load_points_nil strtof_dec 'x' 4 (by decide) (fun i => i)]
  simp

/-- C11 as amended: for a file of length 0, `load_points` reports failure (`false`) and leaves
the empty dataset (`N = 0`, `D = 0`), so that `main` takes the "Could not load dataset" exit
with status `1`. (An `mmap` of length 0 fails, which is the same report: `false`, and `points`
and `D` as `main` initialised them.) -/
theorem empty_file_reports_failure [Zero F] (strtof : List Char → F × ℕ) (before : Char)
    (n_threads : ℕ) (hn : 1 ≤ n_threads) (sched : ℕ → ℕ) (argc : ℕ) :
    load_points strtof before n_threads sched []
        = ({ ok := false, points := [], D := 0 } : LoadResult F)
      ∧ main_exit_status argc (load_points strtof before n_threads sched []) = 1 := by
  refine ⟨load_points_nil strtof before n_threads hn sched, ?_⟩
  rw [load_points_nil strtof before n_threads hn sched]
  unfold main_exit_status
  by_cases h : argc < 3
  · rw [if_pos h]
  · rw [if_neg h]; rfl

theorem empty_file_reports_failure_witness :
    1 ≤ 4 ∧
    load_points strtof_dec 'x' 4 (fun i => i) []
        = ({ ok := false, points := [], D := 0 } : LoadResult ℚ)
      ∧ main_exit_status 3 (load_points strtof_dec 'x' 4 (fun i => i) []) = 1 :=
  ⟨by decide, empty_file_reports_failure strtof_dec 'x' 4 (by decide) (fun i => i) 3⟩

/-! ## cpu_mergesort.cpp: the merge step and its frame -/

theorem split_four {α : Type} (l : List α) (left mid right : ℕ) (hlm : left ≤ mid)
    (hmr : mid ≤ right) :
    l = l.take left ++ (l.drop left).take (mid + 1 - left)
          ++ (l.drop (mid + 1)).take (right - mid) ++ l.drop (right + 1) := by
  have h1 : l.drop (mid + 1) = (l.drop left).drop (mid + 1 - left) := by
    rw [List.drop_drop]; congr 1; omega
  have h2 : l.drop (right + 1) = (l.drop (mid + 1)).drop (right - mid) := by
    rw [List.drop_drop]; congr 1; omega
  rw [h2, List.append_assoc _ _ (List.drop (right - mid) (List.drop (mid + 1) l)),
    List.take_append_drop, h1, List.append_assoc, List.take_append_drop, List.take_append_drop]

/-- The merge step on index ranges: what `merge_optimized` returns, in terms of the slices
of `pts` and `scratch`. -/
theorem merge_optimized_slices [LinearOrder F] [Zero F] (pts scratch : List (Point F))
    (left mid right : ℕ) (hlen : scratch.length = pts.length) (hlm : left ≤ mid)
    (hmr : mid < right) (hr : right < pts.length) :
    merge_optimized pts scratch left mid right
      = (pts.take left
          ++ List.merge ((pts.drop left).take (mid + 1 - left))
              ((pts.drop (mid + 1)).take (right - mid)) (fun a b => decide (a.dist ≤ b.dist))
          ++ pts.drop (right + 1),
         scratch.take left
          ++ List.merge ((pts.drop left).take (mid + 1 - left))
              ((pts.drop (mid + 1)).take (right - mid)) (fun a b => decide (a.dist ≤ b.dist))
          ++ scratch.drop (right + 1)) := by
  have hp := split_four pts left mid right hlm (le_of_lt hmr)
  have hs : scratch = scratch.take left ++ (scratch.drop left).take (right + 1 - left)
      ++ scratch.drop (right + 1) := by
    have h2 : scratch.drop (right + 1) = (scratch.drop left).drop (right + 1 - left) := by
      rw [List.drop_drop]; congr 1; omega
    rw [h2, List.append_assoc, List.take_append_drop, List.take_append_drop]
  have hA : ((pts.drop left).take (mid + 1 - left)).length = mid + 1 - left := by
    rw [List.length_take, List.length_drop]; omega
  have hB : ((pts.drop (mid + 1)).take (right - mid)).length = right - mid := by
    rw [List.length_take, List.length_drop]; omega
  have hS : ((scratch.drop left).take (right + 1 - left)).length
      = ((pts.drop left).take (mid + 1 - left)).length
        + ((pts.drop (mid + 1)).take (right - mid)).length := by
    rw [hA, hB, List.length_take, List.length_drop]; omega
  have hP : (pts.take left).length = left := by rw [List.length_take]; omega
  have hP' : (scratch.take left).length = left := by rw [List.length_take]; omega
  have key := merge_optimized_append (pts.take left) ((pts.drop left).take (mid + 1 - left))
    ((pts.drop (mid + 1)).take (right - mid)) (pts.drop (right + 1)) (scratch.take left)
    ((scratch.drop left).take (right + 1 - left)) (scratch.drop (right + 1)) left mid right
    hP hP' hlm (le_of_lt hmr) hA hB hS
  rw [← hp, ← hs] at key
  exact key

/-- The recursion of `mergesort_recursive` on a range of length `L = right + 1 - left`
splits to depth `d` where `d` is the least number with `L ≤ grain_size * 2^d`. -/
theorem split_depth_spec (g : ℕ) (hg : 1 ≤ g) :
    ∀ (L left right : ℕ), right + 1 - left = L →
      L ≤ g * 2 ^ split_depth left right g
        ∧ ∀ d, d < split_depth left right g → g * 2 ^ d < L := by
  intro L
  induction L using Nat.strong_induction_on with
  | _ L ih =>
    intro left right hL
    rw [split_depth]
    by_cases h1 : left ≥ right
    · rw [if_pos h1]
      refine ⟨by simp only [pow_zero, mul_one]; omega, fun d hd => absurd hd (by omega)⟩
    · rw [if_neg h1]
      by_cases h2 : right - left < g
      · rw [if_pos h2]
        refine ⟨by simp only [pow_zero, mul_one]; omega, fun d hd => absurd hd (by omega)⟩
      · rw [if_neg h2]
        simp only
        obtain ⟨a1, b1⟩ := ih (left + (right - left) / 2 + 1 - left) (by omega) left
          (left + (right - left) / 2) rfl
        obtain ⟨a2, b2⟩ := ih (right + 1 - (left + (right - left) / 2 + 1)) (by omega)
          (left + (right - left) / 2 + 1) right rfl
        have hle : split_depth (left + (right - left) / 2 + 1) right g
            ≤ split_depth left (left + (right - left) / 2) g := by
          by_contra hc
          have := b2 (split_depth left (left + (right - left) / 2) g) (by omega)
          omega
        rw [max_eq_left hle]
        constructor
        · have e : g * 2 ^ (1 + split_depth left (left + (right - left) / 2) g)
              = 2 * (g * 2 ^ split_depth left (left + (right - left) / 2) g) := by
            rw [pow_add]; ring
          rw [e]
          omega
        · intro d hd
          cases d with
          | zero => simp only [pow_zero, mul_one]; omega
          | succ e =>
            have := b1 e (by omega)
            have e2 : g * 2 ^ (e + 1) = 2 * (g * 2 ^ e) := by rw [pow_succ]; ring
            rw [e2]
            omega

theorem mergesort_cpu_grain [LinearOrder F] [Zero F] (sort : List (Point F) → List (Point F))
    (num_threads : ℕ) (pts : List (Point F)) (hn : 2 ≤ pts.length) :
    mergesort_cpu sort num_threads pts
      = (mergesort_recursive sort pts
          (first_touch pts.length (List.replicate pts.length default)) 0 (pts.length - 1)
          (grain_size_of pts.length num_threads)).1 := by
  unfold mergesort_cpu grain_size_of
  simp only
  rw [if_neg (by omega)]

/-- The two branches of `mergesort_recursive` on a range `[left, right]` with `left < right`:
the range `[left, left + g + 1]` of `g + 2` elements with grain size `g + 2` is sorted with
`std::sort`, without a split and without touching `scratch`; in general the sequential branch
is taken when `right - left + 1 ≤ grain_size`, and otherwise the range is split at
`mid = left + (right - left) / 2`, both halves are sorted and then merged. -/
theorem mergesort_recursive_branches [LinearOrder F] [Zero F]
    (sort : List (Point F) → List (Point F)) (pts scratch : List (Point F)) (left g : ℕ) :
    mergesort_recursive sort pts scratch left (left + g + 1) (g + 2)
        = (std_sort_range sort pts left (left + g + 2), scratch)
      ∧ split_depth left (left + g + 1) (g + 2) = 0
      ∧ (∀ right grain_size, left < right → right - left + 1 ≤ grain_size →
          mergesort_recursive sort pts scratch left right grain_size
            = (std_sort_range sort pts left (right + 1), scratch))
      ∧ (∀ right grain_size, left < right → grain_size < right - left + 1 →
          mergesort_recursive sort pts scratch left right grain_size
            = merge_optimized
                (mergesort_recursive sort
                  (mergesort_recursive sort pts scratch left
                    (left + (right - left) / 2) grain_size).1
                  (mergesort_recursive sort pts scratch left
                    (left + (right - left) / 2) grain_size).2
                  (left + (right - left) / 2 + 1) right grain_size).1
                (mergesort_recursive sort
                  (mergesort_recursive sort pts scratch left
                    (left + (right - left) / 2) grain_size).1
                  (mergesort_recursive sort pts scratch left
                    (left + (right - left) / 2) grain_size).2
                  (left + (right - left) / 2 + 1) right grain_size).2
                left (left + (right - left) / 2) right) := by
  have hseq : ∀ right grain_size, left < right → right - left + 1 ≤ grain_size →
      mergesort_recursive sort pts scratch left right grain_size
        = (std_sort_range sort pts left (right + 1), scratch) := by
    intro right grain_size h1 h2
    rw [mergesort_recursive]
    have c1 : ¬ left ≥ right := by omega
    have c2 : right - left < grain_size := by omega
    rw [if_neg c1, if_pos c2]
  refine ⟨hseq (left + g + 1) (g + 2) (by omega) (by omega), ?_, hseq, ?_⟩
  · rw [split_depth]
    have c1 : ¬ left ≥ left + g + 1 := by omega
    have c2 : left + g + 1 - left < g + 2 := by omega
    rw [if_neg c1, if_pos c2]
  · intro right grain_size h1 h2
    conv_lhs => rw [mergesort_recursive]
    have c1 : ¬ left ≥ right := by omega
    have c2 : ¬ right - left < grain_size := by omega
    rw [if_neg c1, if_neg c2]

/-- C20. Task-tree depth: for `N ≥ 2` points and `w ≥ 1` workers, with the grain
`g = max(2000, N / (w * 8))` of `mergesort_cpu`, the recursion
`mergesort_recursive(0, N - 1, g)` (a total function) splits to a depth `d` which is the least
natural number with `N ≤ g * 2^d`; it is `0` exactly when `N ≤ g`. -/
theorem task_tree_depth (N w : ℕ) (hN : 2 ≤ N) (hw : 1 ≤ w) :
    N ≤ grain_size_of N w * 2 ^ split_depth 0 (N - 1) (grain_size_of N w)
      ∧ (∀ d, d < split_depth 0 (N - 1) (grain_size_of N w) → grain_size_of N w * 2 ^ d < N)
      ∧ (split_depth 0 (N - 1) (grain_size_of N w) = 0 ↔ N ≤ grain_size_of N w) := by
  have hg : 1 ≤ grain_size_of N w := by
    unfold grain_size_of
    exact le_trans (by decide) (le_max_left 2000 _)
  obtain ⟨a, b⟩ := split_depth_spec (grain_size_of N w) hg N 0 (N - 1) (by omega)
  refine ⟨a, b, ?_⟩
  constructor
  · intro h0
    rw [h0] at a
    simpa using a
  · intro hle
    by_contra hne
    have := b 0 (by omega)
    simp only [pow_zero, mul_one] at this
    omega

theorem task_tree_depth_witness :
    2 ≤ 5000 ∧ 1 ≤ 1 ∧
    5000 ≤ grain_size_of 5000 1 * 2 ^ split_depth 0 (5000 - 1) (grain_size_of 5000 1)
      ∧ (∀ d, d < split_depth 0 (5000 - 1) (grain_size_of 5000 1) →
          grain_size_of 5000 1 * 2 ^ d < 5000)
      ∧ (split_depth 0 (5000 - 1) (grain_size_of 5000 1) = 0 ↔ 5000 ≤ grain_size_of 5000 1) :=
  ⟨by decide, by decide, task_tree_depth 5000 1 (by decide) (by decide)⟩

/-! ## gpu_hip.cpp: `next_pow2` on 32-bit counters -/

theorem shl1_i32_small (p : ℤ) (h0 : -(2 ^ 30) ≤ p) (h1 : p < 2 ^ 30) : shl1_i32 p = 2 * p := by
  unfold shl1_i32 wrap_i32
  omega

theorem shl1_i32_top : shl1_i32 (2 ^ 30) = -(2 ^ 31) := by
  unfold shl1_i32 wrap_i32
  omega

theorem shl1_i32_min : shl1_i32 (-(2 ^ 31)) = 0 := by
  unfold shl1_i32 wrap_i32
  omega

theorem shl1_i32_zero : shl1_i32 0 = 0 := by
  unfold shl1_i32 wrap_i32
  omega

theorem two_pow_le_int (s t : ℕ) (h : s ≤ t) : (2 : ℤ) ^ s ≤ 2 ^ t :=
  pow_le_pow_right₀ (by norm_num) h

theorem two_pow_lt_int (s t : ℕ) (h : (2 : ℤ) ^ s < 2 ^ t) : s < t := by
  by_contra hc
  have := two_pow_le_int t s (by omega)
  omega

/-- Below `2^30` the 32-bit loop of `next_pow2` is the loop on natural numbers. -/
theorem next_pow2_loop_i32_eq (v : ℕ) (hv : v ≤ 2 ^ 30) :
    ∀ (fuel s : ℕ), s ≤ 30 → 32 ≤ fuel + s →
      next_pow2_loop_i32 fuel (v : ℤ) ((2 : ℤ) ^ s)
        = some ((next_pow2_loop v (2 ^ s) : ℕ) : ℤ) := by
  intro fuel
  induction fuel with
  | zero => intro s h1 h2; omega
  | succ fuel ih =>
    intro s h1 h2
    have hvz : (v : ℤ) ≤ 2 ^ 30 := by exact_mod_cast hv
    have hcast : (((2 : ℕ) ^ s : ℕ) : ℤ) = (2 : ℤ) ^ s := by push_cast; rfl
    rw [next_pow2_loop_i32, next_pow2_loop]
    by_cases hlt : (2 : ℤ) ^ s < (v : ℤ)
    · have hs : s < 30 := two_pow_lt_int s 30 (lt_of_lt_of_le hlt hvz)
      have hnat : 2 ^ s < v ∧ 0 < 2 ^ s := by
        refine ⟨?_, by positivity⟩
        have : (((2 : ℕ) ^ s : ℕ) : ℤ) < (v : ℤ) := by rw [hcast]; exact hlt
        exact_mod_cast this
      have hb := two_pow_le_int s 29 (by omega)
      have hpos : (0 : ℤ) < 2 ^ s := by positivity
      rw [if_pos hlt, if_pos hnat, shl1_i32_small _ (by omega) (by omega)]
      have e1 : 2 * (2 : ℤ) ^ s = 2 ^ (s + 1) := by rw [pow_succ]; ring
      have e2 : (2 : ℕ) ^ s <<< 1 = 2 ^ (s + 1) := by
        rw [Nat.shiftLeft_eq, pow_one, pow_succ]
      rw [e1, e2]
      exact ih (s + 1) (by omega) (by omega)
    · have hnat : ¬ (2 ^ s < v ∧ 0 < 2 ^ s) := by
        intro h
        apply hlt
        have : (((2 : ℕ) ^ s : ℕ) : ℤ) < (v : ℤ) := by exact_mod_cast h.1
        rw [hcast] at this
        exact this
      rw [if_neg hlt, if_neg hnat, hcast]

theorem next_pow2_i32_eq (N fuel : ℕ) (h2 : N ≤ 2 ^ 30) (hf : 32 ≤ fuel) :
    next_pow2_i32 fuel (N : ℤ) = some ((next_pow2 N : ℕ) : ℤ) := by
  unfold next_pow2_i32 next_pow2
  by_cases h : N ≤ 1
  · have hz : (N : ℤ) ≤ 1 := by exact_mod_cast h
    rw [if_pos hz, if_pos h]
    rfl
  · have hz : ¬ (N : ℤ) ≤ 1 := by
      intro hc
      apply h
      exact_mod_cast hc
    rw [if_neg hz, if_neg h]
    have := next_pow2_loop_i32_eq N h2 fuel 0 (by omega) (by omega)
    simpa using this

theorem next_pow2_loop_i32_zero (v : ℤ) (hv : 0 < v) :
    ∀ fuel, next_pow2_loop_i32 fuel v 0 = none := by
  intro fuel
  induction fuel with
  | zero => rfl
  | succ fuel ih => rw [next_pow2_loop_i32, if_pos hv, shl1_i32_zero, ih]

theorem next_pow2_loop_i32_min (v : ℤ) (hv : 0 < v) :
    ∀ fuel, next_pow2_loop_i32 fuel v (-(2 ^ 31)) = none := by
  intro fuel
  cases fuel with
  | zero => rfl
  | succ fuel =>
    rw [next_pow2_loop_i32, if_pos (by omega), shl1_i32_min, next_pow2_loop_i32_zero v hv]

/-- Above `2^30` the doubling loop never ends: `p` runs through `1, 2, ..., 2^30`, wraps to
`-2^31`, then stays `0`. -/
theorem next_pow2_loop_i32_diverges (v : ℤ) (hv : 2 ^ 30 < v) :
    ∀ (d s : ℕ), s + d = 30 → ∀ fuel, next_pow2_loop_i32 fuel v ((2 : ℤ) ^ s) = none := by
  intro d
  induction d with
  | zero =>
    intro s hs fuel
    have : s = 30 := by omega
    subst this
    cases fuel with
    | zero => rfl
    | succ fuel =>
      rw [next_pow2_loop_i32, if_pos hv, shl1_i32_top, next_pow2_loop_i32_min v (by omega)]
  | succ d ih =>
    intro s hs fuel
    cases fuel with
    | zero => rfl
    | succ fuel =>
      have hb := two_pow_le_int s 29 (by omega)
      have hpos : (0 : ℤ) < 2 ^ s := by positivity
      have e1 : 2 * (2 : ℤ) ^ s = 2 ^ (s + 1) := by rw [pow_succ]; ring
      rw [next_pow2_loop_i32, if_pos (by omega), shl1_i32_small _ (by omega) (by omega), e1]
      exact ih (s + 1) (by omega) fuel

theorem next_pow2_i32_diverges (v : ℤ) (hv : 2 ^ 30 < v) (fuel : ℕ) :
    next_pow2_i32 fuel v = none := by
  unfold next_pow2_i32
  rw [if_neg (by omega)]
  have := next_pow2_loop_i32_diverges v hv 30 0 (by omega) fuel
  simpa using this

/-- C16, the claim as stated fails at `N = 2^30 + 1` (which is at most `2^31 - 1`): with
32-bit counters the loop of `next_pow2` returns no value, whatever the number of steps it is
given. -/
theorem next_pow2_i32_no_result :
    (1 : ℤ) ≤ 2 ^ 30 + 1 ∧ (2 : ℤ) ^ 30 + 1 ≤ 2 ^ 31 - 1
      ∧ ¬ ∃ fuel M, next_pow2_i32 fuel (2 ^ 30 + 1) = some M := by
  refine ⟨by norm_num, by norm_num, ?_⟩
  rintro ⟨fuel, M, h⟩
  rw [next_pow2_i32_diverges (2 ^ 30 + 1) (by norm_num) fuel] at h
  exact Option.noConfusion h

/-- C16 as amended: for every `N` with `1 ≤ N ≤ 2^30`, with 32-bit counters `next_pow2(N)`
terminates (32 tests of the loop condition are enough) and returns `M = 2^m`, a power of two
with `M ≥ N` that is the least such (`M = 1` for `N = 1`, otherwise `M / 2 < N`); it is the
value of `next_pow2` computed on unbounded numbers. -/
theorem next_pow2_i32_spec (N fuel : ℕ) (h1 : 1 ≤ N) (h2 : N ≤ 2 ^ 30) (hf : 32 ≤ fuel) :
    ∃ m : ℕ, m ≤ 30 ∧ next_pow2_i32 fuel (N : ℤ) = some ((2 : ℤ) ^ m)
      ∧ next_pow2 N = 2 ^ m ∧ N ≤ 2 ^ m ∧ (N = 1 → m = 0) ∧ (m = 0 ∨ 2 ^ (m - 1) < N) := by
  obtain ⟨m, hm, hle, hleast⟩ := next_pow2_spec N
  have hm30 : m ≤ 30 := by
    rcases hleast with h | h
    · omega
    · by_contra hc
      have : 2 ^ 30 ≤ 2 ^ (m - 1) := Nat.pow_le_pow_right (by norm_num) (by omega)
      omega
  refine ⟨m, hm30, ?_, hm, hle, ?_, hleast⟩
  · rw [next_pow2_i32_eq N fuel h2 hf, hm]
    push_cast
    rfl
  · intro hN
    rcases hleast with h | h
    · exact h
    · have : 0 < 2 ^ (m - 1) := by positivity
      omega

theorem next_pow2_i32_spec_witness :
    1 ≤ 5 ∧ 5 ≤ 2 ^ 30 ∧ 32 ≤ 32 ∧
    ∃ m : ℕ, m ≤ 30 ∧ next_pow2_i32 32 ((5 : ℕ) : ℤ) = some ((2 : ℤ) ^ m)
      ∧ next_pow2 5 = 2 ^ m ∧ 5 ≤ 2 ^ m ∧ (5 = 1 → m = 0) ∧ (m = 0 ∨ 2 ^ (m - 1) < 5) :=
  ⟨by decide, by norm_num, by decide, next_pow2_i32_spec 5 32 (by decide) (by norm_num)
    (by decide)⟩

/-! ## gpu_hip.cpp: the sort loops on 32-bit counters -/

theorem shr1_i32_two_pow_succ (t : ℕ) : shr1_i32 ((2 : ℤ) ^ (t + 1)) = 2 ^ t := by
  unfold shr1_i32
  rw [pow_succ]
  exact Int.mul_ediv_cancel _ (by norm_num)

theorem shr1_i32_one : shr1_i32 1 = 0 := by
  unfold shr1_i32
  decide

theorem inner_passes_i32_done (k j : ℤ) (hj : j ≤ 0) (fuel : ℕ) :
    inner_passes_i32 (fuel + 1) k j = some [] := by
  rw [inner_passes_i32, if_neg (by omega)]

/-- The inner loop entered with `j = 2^t` makes the launches `j = 2^t, ..., 2, 1`. -/
theorem inner_passes_i32_pow (k : ℤ) :
    ∀ (t fuel : ℕ), t + 2 ≤ fuel →
      inner_passes_i32 fuel k ((2 : ℤ) ^ t)
        = some ((List.range (t + 1)).map (fun u => (k, (2 : ℤ) ^ (t - u)))) := by
  intro t
  induction t with
  | zero =>
    intro fuel hf
    obtain ⟨f, rfl⟩ : ∃ f, fuel = f + 2 := ⟨fuel - 2, by omega⟩
    rw [inner_passes_i32, if_pos (by norm_num), pow_zero, shr1_i32_one,
      inner_passes_i32_done k 0 (le_refl 0) f]
    rfl
  | succ t ih =>
    intro fuel hf
    obtain ⟨f, rfl⟩ : ∃ f, fuel = f + 1 := ⟨fuel - 1, by omega⟩
    have hpos : (0 : ℤ) < 2 ^ (t + 1) := by positivity
    rw [inner_passes_i32, if_pos hpos, shr1_i32_two_pow_succ, ih f (by omega),
      List.range_succ_eq_map (t + 1)]
    simp only [Option.map_some', List.map_cons, List.map_map, Nat.sub_zero]
    congr 2
    apply List.map_congr_left
    intro u _
    simp only [Function.comp, Nat.succ_eq_add_one, Nat.add_sub_add_right]

theorem bind_map_none {α β γ : Type} (o : Option α) (g : α → β → γ) :
    o.bind (fun here => (none : Option β).map (g here)) = none := by
  cases o <;> rfl

theorem stage_passes_i32_zero (M : ℤ) (hM : 0 ≤ M) :
    ∀ fuel, stage_passes_i32 fuel M 0 = none := by
  intro fuel
  induction fuel with
  | zero => rfl
  | succ fuel ih =>
    rw [stage_passes_i32, if_pos hM, shl1_i32_zero, ih]
    exact bind_map_none _ _

theorem stage_passes_i32_min (M : ℤ) (hM : 0 ≤ M) :
    ∀ fuel, stage_passes_i32 fuel M (-(2 ^ 31)) = none := by
  intro fuel
  cases fuel with
  | zero => rfl
  | succ fuel =>
    rw [stage_passes_i32, if_pos (by omega), shl1_i32_min, stage_passes_i32_zero M hM]
    exact bind_map_none _ _

/-- For `M = 2^30` the outer loop never ends: after the stage `k = 2^30` the counter wraps to
`-2^31`, which is at most `M`, and then stays `0`. -/
theorem stage_passes_i32_diverges :
    ∀ (d s : ℕ), s + d = 30 → ∀ fuel, stage_passes_i32 fuel (2 ^ 30) ((2 : ℤ) ^ s) = none := by
  intro d
  induction d with
  | zero =>
    intro s hs fuel
    have : s = 30 := by omega
    subst this
    cases fuel with
    | zero => rfl
    | succ fuel =>
      rw [stage_passes_i32, if_pos (le_refl _), shl1_i32_top,
        stage_passes_i32_min _ (by norm_num)]
      exact bind_map_none _ _
  | succ d ih =>
    intro s hs fuel
    cases fuel with
    | zero => rfl
    | succ fuel =>
      have hb := two_pow_le_int s 29 (by omega)
      have hpos : (0 : ℤ) < 2 ^ s := by positivity
      have e1 : 2 * (2 : ℤ) ^ s = 2 ^ (s + 1) := by rw [pow_succ]; ring
      rw [stage_passes_i32, if_pos (by omega), shl1_i32_small _ (by omega) (by omega), e1,
        ih (s + 1) (by omega) fuel]
      exact bind_map_none _ _

/-- For `M = 2^m` with `m ≤ 29` the outer loop entered with `k = 2^(s+1)` ends and makes the
launches of the stages `2^(s+1), ..., 2^m`. -/
theorem stage_passes_i32_from (m : ℕ) (hm : m ≤ 29) :
    ∀ (d s fuel : ℕ), s + d = m → 2 * m + 1 ≤ fuel + s →
      stage_passes_i32 fuel (2 ^ m) ((2 : ℤ) ^ (s + 1))
        = some ((List.range d).flatMap (fun r =>
            (List.range (s + r + 1)).map (fun t => ((2 : ℤ) ^ (s + r + 1), (2 : ℤ) ^ (s + r - t))))) := by
  intro d
  induction d with
  | zero =>
    intro s fuel hs hf
    obtain ⟨f, rfl⟩ : ∃ f, fuel = f + 1 := ⟨fuel - 1, by omega⟩
    have hgt : ¬ (2 : ℤ) ^ (s + 1) ≤ 2 ^ m := by
      have : s = m := by omega
      subst this
      have hpos : (0 : ℤ) < 2 ^ s := by positivity
      rw [pow_succ]
      omega
    rw [stage_passes_i32, if_neg hgt]
    rfl
  | succ d ih =>
    intro s fuel hs hf
    obtain ⟨f, rfl⟩ : ∃ f, fuel = f + 1 := ⟨fuel - 1, by omega⟩
    have hle : (2 : ℤ) ^ (s + 1) ≤ 2 ^ m := two_pow_le_int (s + 1) m (by omega)
    have hb := two_pow_le_int (s + 1) 29 (by omega)
    have hpos : (0 : ℤ) < 2 ^ (s + 1) := by positivity
    have e1 : 2 * (2 : ℤ) ^ (s + 1) = 2 ^ (s + 1 + 1) := by rw [pow_succ 2 (s + 1)]; ring
    rw [stage_passes_i32, if_pos hle, shr1_i32_two_pow_succ,
      inner_passes_i32_pow _ s f (by omega), shl1_i32_small _ (by omega) (by omega), e1,
      ih (s + 1) f (by omega) (by omega), List.range_succ_eq_map d]
    simp only [Option.some_bind, Option.map_some', List.flatMap_cons, List.flatMap_map,
      Nat.add_zero]
    congr 2
    apply List.flatMap_congr
    intro r _
    have e : s + 1 + r = s + (r + 1) := by omega
    simp only [Function.comp, Nat.succ_eq_add_one, e]

theorem stage_list_cast (m : ℕ) :
    (stage_list m).map (fun kj => ((kj.1 : ℤ), (kj.2 : ℤ)))
      = (List.range m).flatMap (fun r =>
          (List.range (0 + r + 1)).map (fun t => ((2 : ℤ) ^ (0 + r + 1), (2 : ℤ) ^ (0 + r - t)))) := by
  unfold stage_list
  rw [List.map_flatMap]
  apply List.flatMap_congr
  intro r _
  rw [List.map_map]
  simp only [Nat.zero_add]
  apply List.map_congr_left
  intro t _
  simp only [Function.comp]
  push_cast
  rfl

theorem stage_list_length (m : ℕ) : 2 * (stage_list m).length = m * (m + 1) := by
  induction m with
  | zero => rfl
  | succ m ih =>
    have e : stage_list (m + 1)
        = stage_list m ++ (List.range (m + 1)).map (fun t => (2 ^ (m + 1), 2 ^ (m - t))) := by
      unfold stage_list
      conv_lhs => rw [List.range_succ, List.flatMap_append, List.flatMap_singleton]
    rw [e, List.length_append, List.length_map, List.length_range]
    nlinarith [ih]

/-! ## gpu_hip.cpp: the sort loops and the schedule of launches -/

theorem sort_inner_zero [LinearOrder F] [Zero F] (M k nthreads : ℕ) (st : DevState F) :
    sort_inner M k nthreads 0 st = st := by
  rw [sort_inner, if_neg (by omega)]

theorem sort_inner_eq_run_passes [LinearOrder F] [Zero F] (M k nthreads : ℕ) :
    ∀ (t : ℕ) (st : DevState F),
      sort_inner M k nthreads (2 ^ t) st
        = run_passes M nthreads ((List.range (t + 1)).map (fun u => (k, 2 ^ (t - u)))) st := by
  intro t
  induction t with
  | zero =>
    intro st
    have e : (2 : ℕ) ^ 0 >>> 1 = 0 := by decide
    rw [sort_inner, if_pos (by norm_num), e, sort_inner_zero]
    rfl
  | succ t ih =>
    intro st
    have hpos : (2 : ℕ) ^ (t + 1) > 0 := by positivity
    rw [sort_inner, if_pos hpos, shiftRight_two_pow_succ, ih, List.range_succ_eq_map (t + 1)]
    unfold run_passes
    simp only [List.map_cons, List.map_map, List.foldl_cons, Nat.sub_zero]
    congr 1
    apply List.map_congr_left
    intro u _
    simp only [Function.comp, Nat.succ_eq_add_one, Nat.add_sub_add_right]

theorem sort_outer_from_eq_run_passes [LinearOrder F] [Zero F] (m nthreads : ℕ) :
    ∀ (d s : ℕ) (st : DevState F), s + d = m →
      sort_outer (2 ^ m) nthreads (2 ^ (s + 1)) st
        = run_passes (2 ^ m) nthreads ((List.range d).flatMap (fun r =>
            (List.range (s + r + 1)).map (fun t => (2 ^ (s + r + 1), 2 ^ (s + r - t))))) st := by
  intro d
  induction d with
  | zero =>
    intro s st hs
    have hgt : ¬ (2 ^ (s + 1) ≤ 2 ^ m ∧ 0 < 2 ^ (s + 1)) := by
      have : s = m := by omega
      subst this
      have hpos : 0 < 2 ^ s := by positivity
      rw [pow_succ]
      omega
    rw [sort_outer, if_neg hgt]
    rfl
  | succ d ih =>
    intro s st hs
    have hle : 2 ^ (s + 1) ≤ 2 ^ m ∧ 0 < 2 ^ (s + 1) :=
      ⟨Nat.pow_le_pow_right (by norm_num) (by omega), by positivity⟩
    have e2 : (2 : ℕ) ^ (s + 1) <<< 1 = 2 ^ (s + 1 + 1) := by
      rw [Nat.shiftLeft_eq, pow_one, pow_succ 2 (s + 1)]
    rw [sort_outer, if_pos hle, shiftRight_two_pow_succ, e2, ih (s + 1) _ (by omega),
      sort_inner_eq_run_passes, List.range_succ_eq_map d]
    unfold run_passes
    simp only [List.flatMap_cons, List.flatMap_map, Nat.add_zero, List.foldl_append]
    congr 2
    funext r
    have e : s + 1 + r = s + (r + 1) := by omega
    simp only [Function.comp, Nat.succ_eq_add_one, e]

/-- The two sort loops of `run_gpu_sort` apply the launches of `stage_list m`, in order. -/
theorem sort_outer_eq_run_passes [LinearOrder F] [Zero F] (m nthreads : ℕ) (st : DevState F) :
    sort_outer (2 ^ m) nthreads 2 st = run_passes (2 ^ m) nthreads (stage_list m) st := by
  have h := sort_outer_from_eq_run_passes m nthreads m 0 st (by omega)
  simp only [Nat.zero_add, pow_one] at h
  rw [h]
  rfl

theorem bitonic_step_thread_idle [LinearOrder F] [Zero F] (M k j : ℕ) (st : DevState F)
    (i : ℕ) (h : i ^^^ j ≤ i) : bitonic_step_thread M k j st i = st := by
  unfold bitonic_step_thread
  by_cases hM : i ≥ M
  · rw [if_pos hM]
  · rw [if_neg hM]
    simp only
    rw [if_pos h]

theorem pair_handled_once (t i : ℕ) :
    (i < i ^^^ 2 ^ t ∧ ¬ (i ^^^ 2 ^ t < (i ^^^ 2 ^ t) ^^^ 2 ^ t))
      ∨ (¬ (i < i ^^^ 2 ^ t) ∧ i ^^^ 2 ^ t < (i ^^^ 2 ^ t) ^^^ 2 ^ t) := by
  rw [Nat.xor_cancel_right]
  have := xor_two_pow_ne i t
  omega

/-- C17, on 32-bit counters.  For `M = 2^30` the `(k, j)` loop of `run_gpu_sort` does not
terminate: no bound on its steps yields a result (after the stage `k = 2^30` the counter
wraps to `-2^31`, which is `≤ M`, and then stays `0`).  For `M = 2^m` with `m ≤ 29` it
terminates (`2 m + 1` steps are enough) and dispatches exactly the passes `(k, j)` with
`k = 2, 4, ..., M` and within each `k`, `j = k/2, ..., 1`, in that order: `m (m + 1) / 2`
passes, the ones the loops on unbounded counters apply.  In a pass a thread `i` with
`(i xor j) ≤ i` does nothing, and of the two indices of a pair `{i, i xor j}` exactly one
passes that test. -/
theorem stage_schedule_i32 [LinearOrder F] [Zero F] :
    (∀ fuel, stage_passes_i32 fuel (2 ^ 30) 2 = none)
      ∧ (∀ m fuel, m ≤ 29 → 2 * m + 1 ≤ fuel →
          stage_passes_i32 fuel (2 ^ m) 2
            = some ((stage_list m).map (fun kj => ((kj.1 : ℤ), (kj.2 : ℤ)))))
      ∧ (∀ m, 2 * (stage_list m).length = m * (m + 1))
      ∧ (∀ m nthreads (st : DevState F),
          sort_outer (2 ^ m) nthreads 2 st = run_passes (2 ^ m) nthreads (stage_list m) st)
      ∧ (∀ (M k j : ℕ) (st : DevState F) (i : ℕ), i ^^^ j ≤ i →
          bitonic_step_thread M k j st i = st)
      ∧ (∀ t i : ℕ, (i < i ^^^ 2 ^ t ∧ ¬ (i ^^^ 2 ^ t < (i ^^^ 2 ^ t) ^^^ 2 ^ t))
          ∨ (¬ (i < i ^^^ 2 ^ t) ∧ i ^^^ 2 ^ t < (i ^^^ 2 ^ t) ^^^ 2 ^ t)) := by
  refine ⟨?_, ?_, stage_list_length, sort_outer_eq_run_passes, bitonic_step_thread_idle,
    pair_handled_once⟩
  · intro fuel
    have := stage_passes_i32_diverges 29 1 (by omega) fuel
    simpa using this
  · intro m fuel hm hf
    have := stage_passes_i32_from m hm m 0 fuel (by omega) (by omega)
    rw [stage_list_cast]
    simpa using this

/-! ## Ranking twice, and ranking at most one point -/

theorem insertionSort_of_sorted_dist [LinearOrder F] (l : List (Point F))
    (h : l.Pairwise (fun a b => a.dist ≤ b.dist)) :
    l.insertionSort (fun a b => a.dist ≤ b.dist) = l :=
  List.Sorted.insertionSort_eq h

theorem map_dist_fixed [Zero F] [Add F] [Sub F] [Mul F] (ref : List F) (l : List (Point F))
    (h : ∀ p, p ∈ l → p.dist = sq_dist p.coords ref ref.length) :
    l.map (fun p => ({ p with dist := sq_dist p.coords ref ref.length } : Point F)) = l := by
  conv_rhs => rw [← List.map_id l]
  apply List.map_congr_left
  intro p hp
  rw [← h p hp]
  rfl

theorem fixed_of_map_eq_self {α : Type} (f : α → α) :
    ∀ l : List α, l.map f = l → ∀ q, q ∈ l → f q = q := by
  intro l
  induction l with
  | nil => intro _ q hq; simp at hq
  | cons a l ih =>
    intro h q hq
    rw [List.map_cons] at h
    have h1 := List.head_eq_of_cons_eq h
    have h2 := List.tail_eq_of_cons_eq h
    rcases List.mem_cons.mp hq with rfl | hq
    · exact h1
    · exact ih h2 q hq

theorem next_pow2_le_one (n : ℕ) (h : n ≤ 1) : next_pow2 n = 1 := by
  unfold next_pow2
  rw [if_pos h]

/-- At most one point: `run_gpu_sort` fills in the squared distance and changes nothing else. -/
theorem run_gpu_sort_small [LinearOrder F] [Zero F] [Add F] [Sub F] [Mul F] (inf : F)
    (pts : List (Point F)) (ref : List F) (hN : pts.length ≤ 1) :
    run_gpu_sort inf pts ref
      = some (pts.map (fun p => ({ p with dist := sq_dist p.coords ref ref.length } : Point F))) := by
  have hinf : pts.length < next_pow2 pts.length →
      ∀ p, p ∈ pts → sq_dist p.coords ref ref.length ≤ inf := by
    intro hlt p hp
    rw [next_pow2_le_one _ hN] at hlt
    have : pts = [] := List.length_eq_zero.mp (by omega)
    subst this
    simp at hp
  rw [run_gpu_sort_stable inf pts ref hinf, compute_distances_cpu_eq_map]
  congr 1
  apply insertionSort_of_sorted_dist
  exact pairwise_of_length_le_one _ _ (by rw [List.length_map]; exact hN)

/-- C13, the claim as stated fails for `run_gpu_sort` at `N = 1`: the single point
`((3, 4), dist 0)` ranked against the reference `(0, 0)` comes back with `dist = 25`. -/
theorem gpu_single_point_changes :
    lone_point.length = 1
      ∧ run_gpu_sort 1000 lone_point [0, 0] = some [{ coords := [3, 4], dist := 25 }]
      ∧ run_gpu_sort 1000 lone_point [0, 0] ≠ some lone_point := by
  have h := run_gpu_sort_small (1000 : ℤ) lone_point [0, 0] (by decide)
  have e : run_gpu_sort 1000 lone_point [0, 0] = some [{ coords := [3, 4], dist := 25 }] := by
    rw [h]
    decide
  refine ⟨rfl, e, ?_⟩
  rw [e]
  decide

/-- C13 as amended: for `N = 0` and `N = 1`, `mergesort_cpu` leaves the collection exactly as
it was; `run_gpu_sort` leaves an empty collection as it was, and for `N = 1` keeps the point
and its coordinates and sets its `dist` to the squared distance to `ref` (so that it leaves
the collection as it was exactly when `dist` already holds that value). -/
theorem boundary_sizes [LinearOrder F] [Zero F] [Add F] [Sub F] [Mul F]
    (sort : List (Point F) → List (Point F)) (num_threads : ℕ) (inf : F)
    (pts : List (Point F)) (ref : List F) (hN : pts.length ≤ 1) :
    mergesort_cpu sort num_threads pts = pts
      ∧ run_gpu_sort inf pts ref
          = some (pts.map (fun p =>
              ({ coords := p.coords, dist := sq_dist p.coords ref ref.length } : Point F)))
      ∧ (pts.length = 0 → run_gpu_sort inf pts ref = some pts)
      ∧ (run_gpu_sort inf pts ref = some pts
          ↔ ∀ p, p ∈ pts → p.dist = sq_dist p.coords ref ref.length) := by
  have hgpu := run_gpu_sort_small inf pts ref hN
  refine ⟨?_, hgpu, ?_, ?_⟩
  · unfold mergesort_cpu
    simp only
    rw [if_pos hN]
  · intro h0
    have : pts = [] := List.length_eq_zero.mp h0
    subst this
    rw [hgpu]
    rfl
  · rw [hgpu]
    constructor
    · intro h p hp
      have h2 := Option.some.inj h
      have h3 := fixed_of_map_eq_self
        (fun q : Point F => ({ q with dist := sq_dist q.coords ref ref.length } : Point F))
        pts h2 p hp
      have := congrArg Point.dist h3
      exact this.symm
    · intro h
      rw [map_dist_fixed ref pts h]

theorem boundary_sizes_witness :
    lone_point.length ≤ 1
      ∧ mergesort_cpu insertion_sort_by_dist 4 lone_point = lone_point
      ∧ run_gpu_sort 1000 lone_point [0, 0]
          = some (lone_point.map (fun p =>
              ({ coords := p.coords, dist := sq_dist p.coords [0, 0] ([0, 0] : List ℤ).length }
                : Point ℤ)))
      ∧ (lone_point.length = 0 → run_gpu_sort 1000 lone_point [0, 0] = some lone_point)
      ∧ (run_gpu_sort 1000 lone_point [0, 0] = some lone_point
          ↔ ∀ p, p ∈ lone_point → p.dist = sq_dist p.coords [0, 0] ([0, 0] : List ℤ).length) :=
  ⟨by decide, boundary_sizes insertion_sort_by_dist 4 1000 lone_point [0, 0] (by decide)⟩

/-! ## gpu_hip.cpp: the network on arbitrary pairs -/

theorem dev_pairs_map_snd :
    ∀ (keys : List F) (vals : List ℕ), keys.length = vals.length →
      (dev_pairs (keys, vals)).map (fun e => (ofLex e).2) = vals := by
  intro keys
  induction keys with
  | nil =>
    intro vals h
    have : vals = [] := List.length_eq_zero.mp (by simpa using h.symm)
    subst this
    rfl
  | cons k keys ih =>
    intro vals h
    cases vals with
    | nil => simp at h
    | cons v vals =>
      have h2 : keys.length = vals.length := by simpa using h
      have := ih vals h2
      simp only [dev_pairs, List.zipWith_cons_cons, List.map_cons] at this ⊢
      rw [this]
      rfl

/-- The host reorder of `run_gpu_sort` reads the arrays `gpu_sorted_arrays`. -/
theorem run_gpu_sort_eq_reorder [LinearOrder F] [Zero F] [Add F] [Sub F] [Mul F] (inf : F)
    (pts : List (Point F)) (ref : List F) (hN : pts.length ≠ 0) :
    run_gpu_sort inf pts ref
      = ((List.range pts.length).foldl
          (host_reorder_step (gpu_sorted_arrays inf pts ref).2 (gpu_sorted_arrays inf pts ref).1)
          (some (pts, List.replicate pts.length default))).map (fun r => r.2) := by
  unfold run_gpu_sort gpu_sorted_arrays
  simp only [if_neg hN]
  split
  · next h => rw [h]; rfl
  · next h => rw [h]; rfl

/-- After the distance kernel and the sort loops the device pairs are the real pairs, sorted,
followed by the padding pairs. -/
theorem gpu_sorted_arrays_split [LinearOrder F] [Zero F] [Add F] [Sub F] [Mul F] (inf : F)
    (pts : List (Point F)) (ref : List F)
    (hinf : ∀ p, p ∈ pts → sq_dist p.coords ref ref.length ≤ inf) :
    ∃ R Q : List (Lex (F × ℕ)),
      (gpu_sorted_arrays inf pts ref).1.length = next_pow2 pts.length
        ∧ (gpu_sorted_arrays inf pts ref).2.length = next_pow2 pts.length
        ∧ dev_pairs (gpu_sorted_arrays inf pts ref) = R ++ Q
        ∧ R.Perm ((List.range pts.length).map
            (fun i => toLex (sq_dist (pts.getD i default).coords ref ref.length, i)))
        ∧ Q.Perm ((List.range (next_pow2 pts.length - pts.length)).map
            (fun i => toLex (inf, pts.length + (pts.length + i))))
        ∧ R.Pairwise (· ≤ ·) := by
  obtain ⟨m, hm, hNm, _⟩ := next_pow2_spec pts.length
  unfold gpu_sorted_arrays
  simp only
  rw [hm, distance_kernel_spec inf pts ref pts.length ref.length (2 ^ m) _ (nthreads_ge (2 ^ m))]
  have hk1 : ((List.range (2 ^ m)).map (fun i =>
      if i < pts.length then sq_dist (pts.getD i default).coords ref ref.length
      else inf)).length = 2 ^ m := by simp
  have hk2 : (make_idx pts.length (2 ^ m)).length = 2 ^ m := by simp [make_idx]
  obtain ⟨o1, o2, operm, osorted⟩ := sort_outer_sorted m ((2 ^ m + 256 - 1) / 256 * 256)
    (nthreads_ge (2 ^ m))
    ((List.range (2 ^ m)).map (fun i =>
      if i < pts.length then sq_dist (pts.getD i default).coords ref ref.length else inf),
     make_idx pts.length (2 ^ m)) hk1 hk2
  generalize sort_outer (2 ^ m) ((2 ^ m + 256 - 1) / 256 * 256) 2
    ((List.range (2 ^ m)).map (fun i =>
      if i < pts.length then sq_dist (pts.getD i default).coords ref ref.length else inf),
     make_idx pts.length (2 ^ m)) = st at o1 o2 operm osorted ⊢
  rw [initial_pairs (fun i => sq_dist (pts.getD i default).coords ref ref.length) inf
    pts.length (2 ^ m) hNm] at operm
  have hAB : ∀ a, a ∈ (List.range pts.length).map
        (fun i => toLex (sq_dist (pts.getD i default).coords ref ref.length, i)) →
      ∀ b, b ∈ (List.range (2 ^ m - pts.length)).map
        (fun i => toLex (inf, pts.length + (pts.length + i))) → a ≤ b := by
    intro a ha b hb
    obtain ⟨i, hi, rfl⟩ := List.mem_map.mp ha
    obtain ⟨i', hi', rfl⟩ := List.mem_map.mp hb
    have hiN : i < pts.length := List.mem_range.mp hi
    have hle := hinf _ (getD_mem pts default i hiN)
    rw [Prod.Lex.le_iff]
    rcases lt_or_eq_of_le hle with h | h
    · exact Or.inl h
    · exact Or.inr ⟨h, by simp only; omega⟩
  obtain ⟨R, Q, hP, hR, hQ, hRs⟩ := sorted_perm_append_split _ _ _ operm osorted hAB
  exact ⟨R, Q, o1, o2, hP, hR, hQ, hRs⟩

theorem sample_triple_at_most_inf :
    ∀ p, p ∈ sample_triple → sq_dist p.coords [0, 0] ([0, 0] : List ℤ).length ≤ 25 := by
  decide

/-- On unbounded counters and keys in a linear order: for `N ≥ 1` points and
`M = next_pow2(N)`, when no real key exceeds `INFINITY`, the sorted index array has `M`
entries, its first `N` entries are a permutation of `0, ..., N-1`, and its entries at
positions `[N, M)` are the padding markers `N + i` for `N ≤ i < M`, all at least `N`; so the
host reorder reads inside `pts`. -/
theorem padding_sorts_to_tail [LinearOrder F] [Zero F] [Add F] [Sub F] [Mul F] (inf : F)
    (pts : List (Point F)) (ref : List F) (hN : 1 ≤ pts.length)
    (hinf : ∀ p, p ∈ pts → sq_dist p.coords ref ref.length ≤ inf) :
    (gpu_sorted_arrays inf pts ref).2.length = next_pow2 pts.length
      ∧ ((gpu_sorted_arrays inf pts ref).2.take pts.length).Perm (List.range pts.length)
      ∧ ((gpu_sorted_arrays inf pts ref).2.drop pts.length).Perm
          ((List.range (next_pow2 pts.length - pts.length)).map
            (fun i => pts.length + (pts.length + i)))
      ∧ (∀ v, v ∈ (gpu_sorted_arrays inf pts ref).2.drop pts.length → pts.length ≤ v)
      ∧ (∀ i, i < pts.length → (gpu_sorted_arrays inf pts ref).2.getD i 0 < pts.length)
      ∧ (∃ out, run_gpu_sort inf pts ref = some out ∧
          run_gpu_sort inf pts ref
            = ((List.range pts.length).foldl
                (host_reorder_step (gpu_sorted_arrays inf pts ref).2
                  (gpu_sorted_arrays inf pts ref).1)
                (some (pts, List.replicate pts.length default))).map (fun r => r.2)) := by
  obtain ⟨R, Q, h1, h2, hP, hR, hQ, _⟩ := gpu_sorted_arrays_split inf pts ref hinf
  have hsnd := dev_pairs_map_snd (gpu_sorted_arrays inf pts ref).1
    (gpu_sorted_arrays inf pts ref).2 (by rw [h1, h2])
  have hsnd2 : (gpu_sorted_arrays inf pts ref).2
      = R.map (fun e => (ofLex e).2) ++ Q.map (fun e => (ofLex e).2) := by
    rw [← List.map_append, ← hP]
    exact hsnd.symm
  have hRlen : (R.map (fun e : Lex (F × ℕ) => (ofLex e).2)).length = pts.length := by
    rw [List.length_map, hR.length_eq]; simp
  have hRperm : (R.map (fun e : Lex (F × ℕ) => (ofLex e).2)).Perm (List.range pts.length) := by
    have := hR.map (fun e : Lex (F × ℕ) => (ofLex e).2)
    rw [List.map_map] at this
    have e2 : (List.range pts.length).map
        ((fun e : Lex (F × ℕ) => (ofLex e).2) ∘
          (fun i => toLex (sq_dist (pts.getD i default).coords ref ref.length, i)))
        = List.range pts.length := by
      conv_rhs => rw [← List.map_id (List.range pts.length)]
      apply List.map_congr_left
      intro i _
      rfl
    rw [e2] at this
    exact this
  have hQperm : (Q.map (fun e : Lex (F × ℕ) => (ofLex e).2)).Perm
      ((List.range (next_pow2 pts.length - pts.length)).map
        (fun i => pts.length + (pts.length + i))) := by
    have := hQ.map (fun e : Lex (F × ℕ) => (ofLex e).2)
    rw [List.map_map] at this
    exact this
  have htake : (gpu_sorted_arrays inf pts ref).2.take pts.length
      = R.map (fun e => (ofLex e).2) := by
    rw [hsnd2, ← hRlen, List.take_left]
  have hdrop : (gpu_sorted_arrays inf pts ref).2.drop pts.length
      = Q.map (fun e => (ofLex e).2) := by
    rw [hsnd2, ← hRlen, List.drop_left]
  refine ⟨h2, ?_, ?_, ?_, ?_, ?_⟩
  · rw [htake]; exact hRperm
  · rw [hdrop]; exact hQperm
  · intro v hv
    rw [hdrop] at hv
    obtain ⟨i, _, rfl⟩ := List.mem_map.mp (hQperm.mem_iff.mp hv)
    omega
  · intro i hi
    have hi2 : i < (R.map (fun e : Lex (F × ℕ) => (ofLex e).2)).length := by omega
    rw [hsnd2, getD_append_left _ _ 0 i hi2]
    exact List.mem_range.mp (hRperm.mem_iff.mp (getD_mem _ 0 i hi2))
  · obtain ⟨idx, _, _, hrun⟩ := run_gpu_sort_spec inf pts ref (fun _ => hinf)
    exact ⟨_, hrun, run_gpu_sort_eq_reorder inf pts ref (by omega)⟩

/-! ## load_points.cpp: the dimension read off the first line -/

theorem token_runs_from_cons (in_val : Bool) (c : Char) (l : List Char) :
    token_runs_from in_val (c :: l)
      = (if (!isspace c && !in_val) = true then 1 else 0) + token_runs_from (!isspace c) l := by
  unfold token_runs_from
  rw [← List.countP_eq_length_filter, ← List.countP_eq_length_filter, List.length_cons,
    List.range_succ_eq_map, List.countP_cons, List.countP_map]
  have hcongr : (List.range l.length).countP
      ((fun i => !isspace ((c :: l).getD i ' ')
          && (if i = 0 then !in_val else isspace ((c :: l).getD (i - 1) ' '))) ∘ Nat.succ)
      = (List.range l.length).countP
          (fun i => !isspace (l.getD i ' ')
            && (if i = 0 then !(!isspace c) else isspace (l.getD (i - 1) ' '))) := by
    apply List.countP_congr
    intro i _
    simp only [Function.comp, Nat.succ_eq_add_one, List.getD_cons_succ, Nat.add_sub_cancel,
      Nat.add_one_ne_zero, if_false]
    cases i with
    | zero => simp
    | succ j => simp
  rw [hcongr]
  simp only [List.getD_cons_zero, if_true]
  omega

theorem token_runs_eq_from (line : List Char) : token_runs line = token_runs_from false line := by
  unfold token_runs token_runs_from
  congr 1
  apply List.filter_congr
  intro i _
  by_cases h : i = 0
  · simp [h]
  · have hb : (i == 0) = false := by simp [h]
    simp [h, hb]

/-- The scan of the first line counts the runs of non-whitespace bytes of that line. -/
theorem first_line_dims_eq :
    ∀ (buf : List Char) (in_val : Bool) (D : ℕ),
      first_line_dims buf in_val D = D + token_runs_from in_val (first_line buf) := by
  intro buf
  induction buf with
  | nil => intro in_val D; rfl
  | cons c rest ih =>
    intro in_val D
    by_cases hc : c = '\n'
    · subst hc
      rfl
    · have hfl : first_line (c :: rest) = c :: first_line rest := by
        unfold first_line
        rw [List.takeWhile_cons]
        simp [hc]
      rw [hfl, token_runs_from_cons, first_line_dims, if_pos hc]
      cases hs : isspace c <;> cases in_val <;> simp [ih]
      all_goals omega

/-! ## load_points.cpp: white space around the tokens of the first line -/

/-- A run of white space before the end of the line leaves the count as it is. -/
theorem first_line_dims_ws_end :
    ∀ (ws rest : List Char) (in_val : Bool) (D : ℕ), (∀ c, c ∈ ws → isspace c = true) →
      (rest = [] ∨ rest.head? = some '\n') → first_line_dims (ws ++ rest) in_val D = D := by
  intro ws
  induction ws with
  | nil =>
    intro rest in_val D _ hrest
    rcases hrest with h | h
    · subst h; rfl
    · cases rest with
      | nil => rfl
      | cons r rest =>
        have hr : r = '\n' := by simpa using h
        subst hr
        rfl
  | cons w ws ih =>
    intro rest in_val D hws hrest
    have hw : isspace w = true := hws w (List.mem_cons_self _ _)
    rw [List.cons_append, first_line_dims]
    by_cases hn : w ≠ '\n'
    · rw [if_pos hn]
      simp only [hw, Bool.not_true, Bool.false_eq_true, if_false]
      exact ih rest false D (fun c hc => hws c (List.mem_cons_of_mem _ hc)) hrest
    · rw [if_neg hn]

/-- A non-empty run of white space inside the line resets the scan to "outside a token". -/
theorem first_line_dims_ws_skip :
    ∀ (ws rest : List Char) (in_val : Bool) (D : ℕ),
      (∀ c, c ∈ ws → isspace c = true ∧ c ≠ '\n') →
      first_line_dims (ws ++ rest) in_val D
        = first_line_dims rest (if ws = [] then in_val else false) D := by
  intro ws
  induction ws with
  | nil => intro rest in_val D _; rfl
  | cons w ws ih =>
    intro rest in_val D hws
    obtain ⟨hw, hn⟩ := hws w (List.mem_cons_self _ _)
    rw [List.cons_append, first_line_dims, if_pos hn]
    simp only [hw, Bool.not_true, Bool.false_eq_true, if_false]
    rw [ih rest false D (fun c hc => hws c (List.mem_cons_of_mem _ hc))]
    simp

theorem first_line_dims_trailing :
    ∀ (line ws rest : List Char) (in_val : Bool) (D : ℕ), (∀ c, c ∈ ws → isspace c = true) →
      (rest = [] ∨ rest.head? = some '\n') →
      first_line_dims (line ++ ws ++ rest) in_val D = first_line_dims (line ++ rest) in_val D := by
  intro line
  induction line with
  | nil =>
    intro ws rest in_val D hws hrest
    rw [List.nil_append, List.nil_append, first_line_dims_ws_end ws rest in_val D hws hrest]
    have := first_line_dims_ws_end [] rest in_val D (by simp) hrest
    simpa using this.symm
  | cons c line ih =>
    intro ws rest in_val D hws hrest
    simp only [List.cons_append]
    rw [first_line_dims, first_line_dims]
    by_cases hn : c ≠ '\n'
    · rw [if_pos hn, if_pos hn]
      have h1 := ih ws rest
      simp only [List.append_assoc] at h1 ⊢
      split_ifs
      · exact h1 true (D + 1) hws hrest
      · exact h1 in_val D hws hrest
      · exact h1 false D hws hrest
    · rw [if_neg hn, if_neg hn]

theorem first_line_dims_repeated :
    ∀ (a ws1 ws2 b : List Char) (in_val : Bool) (D : ℕ), ws1 ≠ [] → ws2 ≠ [] →
      (∀ c, c ∈ ws1 → isspace c = true ∧ c ≠ '\n') →
      (∀ c, c ∈ ws2 → isspace c = true ∧ c ≠ '\n') →
      first_line_dims (a ++ ws1 ++ b) in_val D = first_line_dims (a ++ ws2 ++ b) in_val D := by
  intro a
  induction a with
  | nil =>
    intro ws1 ws2 b in_val D h1 h2 hw1 hw2
    rw [List.nil_append, List.nil_append, first_line_dims_ws_skip ws1 b in_val D hw1,
      first_line_dims_ws_skip ws2 b in_val D hw2, if_neg h1, if_neg h2]
  | cons c a ih =>
    intro ws1 ws2 b in_val D h1 h2 hw1 hw2
    simp only [List.cons_append]
    rw [first_line_dims, first_line_dims]
    by_cases hn : c ≠ '\n'
    · rw [if_pos hn, if_pos hn]
      have h := ih ws1 ws2 b
      simp only [List.append_assoc] at h ⊢
      split_ifs
      · exact h true (D + 1) h1 h2 hw1 hw2
      · exact h in_val D h1 h2 hw1 hw2
      · exact h false D h1 h2 hw1 hw2
    · rw [if_neg hn, if_neg hn]

theorem load_points_D [Zero F] (strtof : List Char → F × ℕ) (before : Char) (n_threads : ℕ)
    (sched : ℕ → ℕ) (buf : List Char) :
    (load_points strtof before n_threads sched buf).D = first_line_dims buf false 0 := rfl

/-- C21. Dimensionality inference: for every input buffer (empty or not), the `D` computed by
`load_points` equals the number of maximal runs of non-whitespace bytes in the first line
(the bytes before the first `\n`, or the whole buffer if it holds no `\n`); white space before
the first token, white space at the end of the line, and the length of a run of white space
between two bytes do not change `D`. -/
theorem dimension_inference [Zero F] (strtof : List Char → F × ℕ) (before : Char)
    (n_threads : ℕ) (sched : ℕ → ℕ) (buf : List Char) :
    (load_points strtof before n_threads sched buf).D = token_runs (first_line buf)
      ∧ (∀ ws : List Char, (∀ c, c ∈ ws → isspace c = true ∧ c ≠ '\n') →
          (load_points strtof before n_threads sched (ws ++ buf)).D
            = (load_points strtof before n_threads sched buf).D)
      ∧ (∀ line ws rest : List Char, (∀ c, c ∈ ws → isspace c = true) →
          (rest = [] ∨ rest.head? = some '\n') →
          (load_points strtof before n_threads sched (line ++ ws ++ rest)).D
            = (load_points strtof before n_threads sched (line ++ rest)).D)
      ∧ (∀ a ws1 ws2 b : List Char, ws1 ≠ [] → ws2 ≠ [] →
          (∀ c, c ∈ ws1 → isspace c = true ∧ c ≠ '\n') →
          (∀ c, c ∈ ws2 → isspace c = true ∧ c ≠ '\n') →
          (load_points strtof before n_threads sched (a ++ ws1 ++ b)).D
            = (load_points strtof before n_threads sched (a ++ ws2 ++ b)).D) := by
  simp only [load_points_D]
  refine ⟨?_, ?_, ?_, ?_⟩
  · rw [first_line_dims_eq, token_runs_eq_from, Nat.zero_add]
  · intro ws hws
    rw [first_line_dims_ws_skip ws buf false 0 hws]
    simp
  · intro line ws rest hws hrest
    exact first_line_dims_trailing line ws rest false 0 hws hrest
  · intro a ws1 ws2 b h1 h2 hw1 hw2
    exact first_line_dims_repeated a ws1 ws2 b false 0 h1 h2 hw1 hw2

/-- The first line of `spaced_text` holds three tokens between leading, repeated and trailing
white space. -/
theorem dimension_inference_witness :
    (load_points strtof_dec 'x' 4 (fun i => i) spaced_text).D
        = token_runs (first_line spaced_text)
      ∧ token_runs (first_line spaced_text) = 3 :=
  ⟨(dimension_inference strtof_dec 'x' 4 (fun i => i) spaced_text).1, by decide⟩

/-! ## load_points.cpp: which reads stay inside the mapping -/

theorem byte_at_nat (buf : List Char) (i : ℕ) : byte_at buf (i : ℤ) = buf[i]? := by
  unfold byte_at
  rw [if_pos (by omega)]
  rfl

theorem byte_at_pred (buf : List Char) (i : ℕ) (hi : 1 ≤ i) :
    byte_at buf ((i : ℤ) - 1) = buf[i - 1]? := by
  have e : ((i : ℤ) - 1) = ((i - 1 : ℕ) : ℤ) := by omega
  rw [e, byte_at_nat]

theorem byte_at_before_start (buf : List Char) : byte_at buf (((0 : ℕ) : ℤ) - 1) = none := by
  unfold byte_at
  rw [if_neg (by omega)]

/-- The checked scan of the first line from `pos`: it ends inside the mapping exactly when a
`\n` lies at or after `pos`, and then gives the count of the scan; otherwise it reads
`addr[length]`. -/
theorem first_line_checked_eq (buf : List Char) :
    ∀ (n pos : ℕ) (in_val : Bool) (D : ℕ), buf.length - pos = n → pos ≤ buf.length →
      first_line_checked buf pos in_val D
        = if '\n' ∈ buf.drop pos then some (first_line_dims (buf.drop pos) in_val D)
          else none := by
  intro n
  induction n with
  | zero =>
    intro pos in_val D hn hle
    have hpos : pos = buf.length := by omega
    subst hpos
    rw [first_line_checked, byte_at_nat, List.getElem?_eq_none (le_refl _)]
    simp
  | succ n ih =>
    intro pos in_val D hn hle
    have hlt : pos < buf.length := by omega
    have hdrop : buf.drop pos = buf[pos] :: buf.drop (pos + 1) := List.drop_eq_getElem_cons hlt
    rw [first_line_checked, byte_at_nat, List.getElem?_eq_getElem hlt, hdrop]
    simp only
    by_cases hc : buf[pos] = '\n'
    · have hneg : ¬ (buf[pos] ≠ '\n' ∧ pos < buf.length) := fun h => h.1 hc
      have hmem : '\n' ∈ buf[pos] :: buf.drop (pos + 1) := by
        rw [hc]; exact List.mem_cons_self _ _
      have hnn : ¬ buf[pos] ≠ '\n' := fun h => h hc
      rw [dif_neg hneg, if_pos hmem, first_line_dims, if_neg hnn]
    · have hpos : buf[pos] ≠ '\n' ∧ pos < buf.length := ⟨hc, hlt⟩
      have hmem : ('\n' ∈ buf[pos] :: buf.drop (pos + 1)) ↔ '\n' ∈ buf.drop (pos + 1) := by
        rw [List.mem_cons]
        constructor
        · intro h
          rcases h with h | h
          · exact absurd h.symm hc
          · exact h
        · intro h; exact Or.inr h
      rw [dif_pos hpos, first_line_dims, if_pos hc]
      simp only [hmem]
      split_ifs <;> first
        | exact ih (pos + 1) _ _ (by omega) (by omega)
        | (rw [ih (pos + 1) _ _ (by omega) (by omega)]; simp_all)

theorem first_line_checked_start (buf : List Char) :
    first_line_checked buf 0 false 0
      = if '\n' ∈ buf then some (first_line_dims buf false 0) else none := by
  have := first_line_checked_eq buf buf.length 0 false 0 (by omega) (by omega)
  simpa using this

/-- A worker whose realignment starts at offset `0` with a non-empty range reads
`addr[-1]`. -/
theorem realign_checked_fault (buf : List Char) (my_end fuel : ℕ) (h : 0 < my_end) :
    realign_checked buf my_end (fuel + 1) 0 = none := by
  rw [realign_checked, if_pos h, byte_at_before_start]

/-- From an offset `≥ 1` the realignment reads inside the mapping and is the unchecked one. -/
theorem realign_checked_ok (buf : List Char) (before : Char) (my_end : ℕ)
    (hend : my_end ≤ buf.length) :
    ∀ (fuel my_start : ℕ), 1 ≤ my_start →
      realign_checked buf my_end fuel my_start
        = some (realign buf before my_end fuel my_start) := by
  intro fuel
  induction fuel with
  | zero => intro my_start _; rfl
  | succ fuel ih =>
    intro my_start h1
    rw [realign_checked, realign]
    by_cases hlt : my_start < my_end
    · have hidx : my_start - 1 < buf.length := by omega
      have hprev : prev_byte buf before my_start = buf[my_start - 1] := by
        unfold prev_byte
        rw [if_neg (by omega), List.getD_eq_getElem _ _ hidx]
      rw [if_pos hlt, byte_at_pred buf my_start h1, List.getElem?_eq_getElem hidx, hprev]
      simp only
      by_cases hc : buf[my_start - 1] ≠ '\n'
      · rw [if_pos hc, if_pos ⟨hlt, hc⟩]
        exact ih (my_start + 1) (by omega)
      · rw [if_neg hc, if_neg (fun h => hc h.2)]
    · rw [if_neg hlt, if_neg (fun h => hlt h.1)]

/-- The count of the line breaks before `my_start` reads inside the mapping. -/
theorem count_before_checked_ok (buf : List Char) :
    ∀ my_start, my_start ≤ buf.length →
      count_before_checked buf my_start = some ((buf.take my_start).count '\n') := by
  intro my_start
  induction my_start with
  | zero => intro _; rfl
  | succ n ih =>
    intro h
    have hlt : n < buf.length := by omega
    have ih' := ih (by omega)
    unfold count_before_checked at ih' ⊢
    rw [List.range_succ, List.foldl_append, ih']
    simp only [List.foldl_cons, List.foldl_nil]
    rw [byte_at_nat, List.getElem?_eq_getElem hlt]
    simp only
    rw [List.take_succ, List.getElem?_eq_getElem hlt, List.count_append]
    by_cases hc : buf[n] = '\n'
    · rw [if_pos hc]
      simp [hc]
    · rw [if_neg hc]
      have hne : ¬ '\n' = buf[n] := fun h => hc h.symm
      simp [hc, List.count_cons, hne]

/-- The loop over line breaks reads inside the mapping and is the unchecked one. -/
theorem skip_breaks_checked_ok (buf : List Char) (my_end : ℕ) (hend : my_end ≤ buf.length) :
    ∀ (fuel curr : ℕ),
      skip_breaks_checked buf my_end fuel curr = some (skip_breaks buf my_end fuel curr) := by
  intro fuel
  induction fuel with
  | zero => intro curr; rfl
  | succ fuel ih =>
    intro curr
    rw [skip_breaks_checked, skip_breaks]
    by_cases hlt : curr < my_end
    · have hidx : curr < buf.length := by omega
      rw [if_pos hlt, byte_at_nat, List.getElem?_eq_getElem hidx, List.getD_eq_getElem _ _ hidx]
      simp only
      by_cases hc : buf[curr] = '\n' ∨ buf[curr] = '\r' ∨ buf[curr] = ' '
      · rw [if_pos hc, if_pos ⟨hlt, hc⟩]
        exact ih (curr + 1)
      · rw [if_neg hc, if_neg (fun h => hc h.2)]
    · rw [if_neg hlt, if_neg (fun h => hlt h.1)]

/-- With more workers than bytes the last worker reads `addr[-1]`. -/
theorem load_thread_checked_last [Zero F] (strtof : List Char → F × ℕ) (buf : List Char)
    (D N n_threads : ℕ) (points : List (Point F)) (hne : buf ≠ [])
    (hn : buf.length < n_threads) :
    load_thread_checked strtof buf D N n_threads points (n_threads - 1) = none := by
  have hlen : 0 < buf.length := List.length_pos.mpr hne
  have hchunk : buf.length / n_threads = 0 := Nat.div_eq_of_lt hn
  have htid : n_threads - 1 ≠ 0 := by omega
  unfold load_thread_checked
  simp only [hchunk, Nat.mul_zero, if_true, Nat.sub_zero]
  rw [if_pos htid]
  obtain ⟨f, hf⟩ : ∃ f, buf.length = f + 1 := ⟨buf.length - 1, by omega⟩
  rw [hf, realign_checked_fault buf (f + 1) f (by omega)]

theorem foldl_none_absorb {σ β : Type} (step : Option σ → β → Option σ)
    (hstep : ∀ b, step none b = none) : ∀ l : List β, l.foldl step none = none := by
  intro l
  induction l with
  | nil => rfl
  | cons b l ih => rw [List.foldl_cons, hstep, ih]

/-- No `\n` in the buffer: the scan of the first line reads `addr[length]`. -/
theorem load_points_checked_no_newline [Zero F] (strtof : List Char → F × ℕ)
    (n_threads : ℕ) (sched : ℕ → ℕ) (buf : List Char) (h : '\n' ∉ buf) :
    load_points_checked strtof n_threads sched buf = none := by
  unfold load_points_checked
  rw [first_line_checked_start, if_neg h]

/-- More workers than bytes: the realignment of the last worker reads `addr[-1]`. -/
theorem load_points_checked_many_workers [Zero F] (strtof : List Char → F × ℕ)
    (n_threads : ℕ) (sched : ℕ → ℕ) (buf : List Char) (hne : buf ≠ [])
    (hn : buf.length < n_threads) :
    load_points_checked strtof n_threads sched buf = none := by
  unfold load_points_checked
  cases hfl : first_line_checked buf 0 false 0 with
  | none => rfl
  | some D =>
    simp only
    obtain ⟨k, hk⟩ : ∃ k, n_threads = k + 1 := ⟨n_threads - 1, by omega⟩
    have hlast := fun points => load_thread_checked_last strtof buf D
      (count_records buf n_threads sched) n_threads points hne hn
    rw [hk] at hlast ⊢
    simp only [Nat.add_sub_cancel] at hlast
    rw [List.range_succ, List.foldl_append]
    simp only [List.foldl_cons, List.foldl_nil]
    split
    · rfl
    · next points hpts =>
      exfalso
      split at hpts
      · exact Option.noConfusion hpts
      · next p _ =>
        rw [hlast p] at hpts
        exact Option.noConfusion hpts

/-! ## load_points.cpp: the checked loader refines the loader -/

theorem realign_checked_some (buf : List Char) (before : Char) (my_end : ℕ)
    (hend : my_end ≤ buf.length) (fuel my_start r : ℕ)
    (h : realign_checked buf my_end fuel my_start = some r) :
    realign buf before my_end fuel my_start = r := by
  by_cases h1 : 1 ≤ my_start
  · rw [realign_checked_ok buf before my_end hend fuel my_start h1] at h
    exact Option.some.inj h
  · have h0 : my_start = 0 := by omega
    subst h0
    cases fuel with
    | zero => exact Option.some.inj h
    | succ fuel =>
      rw [realign]
      by_cases hlt : 0 < my_end
      · rw [realign_checked_fault buf my_end fuel hlt] at h
        exact Option.noConfusion h
      · rw [realign_checked, if_neg hlt] at h
        rw [if_neg (fun hh => hlt hh.1)]
        exact Option.some.inj h

theorem realign_le (buf : List Char) (before : Char) (my_end : ℕ) :
    ∀ (fuel my_start : ℕ), my_start ≤ my_end →
      realign buf before my_end fuel my_start ≤ my_end := by
  intro fuel
  induction fuel with
  | zero => intro my_start h; exact h
  | succ fuel ih =>
    intro my_start h
    rw [realign]
    split_ifs with hc
    · exact ih (my_start + 1) (by omega)
    · exact h

theorem parse_record_checked_fold [Zero F] (strtof : List Char → F × ℕ) (buf : List Char)
    (idx : ℕ) :
    ∀ (l : List ℕ) (st r : ℕ × List (Point F)),
      l.foldl
        (fun st i =>
          match st with
          | none => none
          | some (curr, points) =>
            match strtof_checked strtof buf curr with
            | none => none
            | some r =>
              some (curr + r.2,
                points.set idx { points.getD idx default with
                  coords := (points.getD idx default).coords.set i r.1 }))
        (some st) = some r →
      l.foldl
        (fun st i =>
          (st.1 + (strtof (buf.drop st.1)).2,
           st.2.set idx { st.2.getD idx default with
             coords := (st.2.getD idx default).coords.set i (strtof (buf.drop st.1)).1 }))
        st = r := by
  intro l
  induction l with
  | nil => intro st r h; exact Option.some.inj h
  | cons i l ih =>
    intro st r h
    obtain ⟨curr, points⟩ := st
    rw [List.foldl_cons] at h ⊢
    simp only at h
    cases hs : strtof_checked strtof buf curr with
    | none =>
      rw [hs] at h
      simp only at h
      rw [foldl_none_absorb _ (fun _ => rfl)] at h
      exact Option.noConfusion h
    | some v =>
      have hv : v = strtof (buf.drop curr) := by
        unfold strtof_checked at hs
        split at hs
        · exact Option.noConfusion hs
        · exact (Option.some.inj hs).symm
      rw [hs] at h
      simp only at h
      rw [hv] at h
      exact ih _ r h

theorem parse_record_checked_some [Zero F] (strtof : List Char → F × ℕ) (buf : List Char)
    (D idx curr : ℕ) (points : List (Point F)) (r : ℕ × List (Point F))
    (h : parse_record_checked strtof buf D idx curr points = some r) :
    parse_record strtof buf D idx curr points = r :=
  parse_record_checked_fold strtof buf idx (List.range D) (curr, points) r h

theorem parse_chunk_checked_some [Zero F] (strtof : List Char → F × ℕ) (buf : List Char)
    (D N my_end global_idx : ℕ) (hend : my_end ≤ buf.length) :
    ∀ (fuel curr local_count : ℕ) (points r : List (Point F)),
      parse_chunk_checked strtof buf D N my_end global_idx fuel curr local_count points
          = some r →
      parse_chunk strtof buf D N my_end global_idx fuel curr local_count points = r := by
  intro fuel
  induction fuel with
  | zero => intro curr local_count points r h; exact Option.some.inj h
  | succ fuel ih =>
    intro curr local_count points r h
    rw [parse_chunk_checked] at h
    rw [parse_chunk]
    by_cases hlt : curr < my_end
    · rw [if_pos hlt] at h ⊢
      by_cases hN : global_idx + local_count ≥ N
      · rw [if_pos hN] at h ⊢
        exact Option.some.inj h
      · rw [if_neg hN] at h ⊢
        cases hp : parse_record_checked strtof buf D (global_idx + local_count) curr points with
        | none =>
          rw [hp] at h
          exact Option.noConfusion h
        | some c1 =>
          have e1 := parse_record_checked_some strtof buf D _ curr points c1 hp
          rw [hp] at h
          simp only at h
          rw [skip_breaks_checked_ok buf my_end hend] at h
          simp only at h
          rw [e1]
          exact ih _ _ _ r h
    · rw [if_neg hlt] at h ⊢
      exact Option.some.inj h

theorem load_thread_checked_some [Zero F] (strtof : List Char → F × ℕ) (buf : List Char)
    (before : Char) (D N n_threads : ℕ) (points r : List (Point F)) (tid : ℕ)
    (htid : tid < n_threads)
    (h : load_thread_checked strtof buf D N n_threads points tid = some r) :
    load_thread strtof buf before D N n_threads points tid = r := by
  have hb : (tid + 1) * (buf.length / n_threads) ≤ buf.length :=
    le_trans (Nat.mul_le_mul_right _ htid) (Nat.mul_div_le buf.length n_threads)
  have ha : tid * (buf.length / n_threads) ≤ (tid + 1) * (buf.length / n_threads) :=
    Nat.mul_le_mul_right _ (Nat.le_succ tid)
  unfold load_thread_checked at h
  unfold load_thread
  simp only at h ⊢
  generalize hme : (if tid = n_threads - 1 then buf.length
    else (tid + 1) * (buf.length / n_threads)) = my_end at h ⊢
  have hend : my_end ≤ buf.length := by
    rw [← hme]
    split_ifs
    · exact le_refl _
    · exact hb
  have hstart : tid * (buf.length / n_threads) ≤ my_end := by
    rw [← hme]
    split_ifs
    · exact le_trans ha hb
    · exact ha
  by_cases h0 : tid ≠ 0
  · rw [if_pos h0] at h ⊢
    cases hr : realign_checked buf my_end (my_end - tid * (buf.length / n_threads))
        (tid * (buf.length / n_threads)) with
    | none =>
      rw [hr] at h
      exact Option.noConfusion h
    | some my_start =>
      have e := realign_checked_some buf before my_end hend _ _ my_start hr
      have hle := realign_le buf before my_end (my_end - tid * (buf.length / n_threads))
        (tid * (buf.length / n_threads)) hstart
      rw [e] at hle
      rw [hr] at h
      simp only at h
      rw [count_before_checked_ok buf my_start (le_trans hle hend)] at h
      simp only at h
      rw [e]
      exact parse_chunk_checked_some strtof buf D N my_end _ hend _ _ _ points r h
  · rw [if_neg h0] at h ⊢
    simp only at h
    rw [count_before_checked_ok buf _ (le_trans hstart hend)] at h
    simp only at h
    exact parse_chunk_checked_some strtof buf D N my_end _ hend _ _ _ points r h

theorem load_threads_checked_some [Zero F] (strtof : List Char → F × ℕ) (buf : List Char)
    (before : Char) (D N n_threads : ℕ) :
    ∀ (tids : List ℕ) (points r : List (Point F)), (∀ t, t ∈ tids → t < n_threads) →
      tids.foldl
        (fun acc tid =>
          match acc with
          | none => none
          | some points => load_thread_checked strtof buf D N n_threads points tid)
        (some points) = some r →
      tids.foldl (load_thread strtof buf before D N n_threads) points = r := by
  intro tids
  induction tids with
  | nil => intro points r _ h; exact Option.some.inj h
  | cons t tids ih =>
    intro points r hlt h
    rw [List.foldl_cons] at h ⊢
    simp only at h
    cases ht : load_thread_checked strtof buf D N n_threads points t with
    | none =>
      rw [ht, foldl_none_absorb _ (fun _ => rfl)] at h
      exact Option.noConfusion h
    | some p1 =>
      rw [ht] at h
      rw [load_thread_checked_some strtof buf before D N n_threads points p1 t
        (hlt t (List.mem_cons_self _ _)) ht]
      exact ih p1 r (fun u hu => hlt u (List.mem_cons_of_mem _ hu)) h

/-- When every read of the checked loader falls inside the mapping, its result is the one of
`load_points`, whatever lies before the mapping. -/
theorem load_points_checked_some [Zero F] (strtof : List Char → F × ℕ) (before : Char)
    (n_threads : ℕ) (sched : ℕ → ℕ) (buf : List Char) (r : LoadResult F)
    (h : load_points_checked strtof n_threads sched buf = some r) :
    load_points strtof before n_threads sched buf = r := by
  unfold load_points_checked at h
  rw [first_line_checked_start] at h
  by_cases hnl : '\n' ∈ buf
  · rw [if_pos hnl] at h
    simp only at h
    split at h
    · exact Option.noConfusion h
    · next points hfold =>
      have e := load_threads_checked_some strtof buf before (first_line_dims buf false 0)
        (count_records buf n_threads sched) n_threads (List.range n_threads) _ points
        (fun t ht => List.mem_range.mp ht) hfold
      unfold load_points
      simp only
      rw [e]
      exact Option.some.inj h
  · rw [if_neg hnl] at h
    exact Option.noConfusion h

/-- C22, with every read of the mapping checked.  On the three-byte file `1 2` (no `\n`), run
by one worker, the scan of the first line reads `addr[3]`, one past the mapping; on the
two-byte file `1\n` run by three workers the first-line scan is fine but the realignment of
the last worker reads `addr[-1]`.  In general the loader leaves the mapping whenever the
buffer holds no `\n` (first-line scan) and whenever there are more workers than bytes
(realignment of the last worker).  The other reads behave as the claim says: the first-line
scan of a buffer with a `\n` stays inside, a realignment that starts at an offset `≥ 1`
stays inside, and so do the count of the preceding line breaks and the loop over line breaks;
and when no read leaves the mapping the checked loader returns what `load_points` returns. -/
theorem loader_reads_outside_mapping [Zero F] :
    (1 ≤ one_line_text.length ∧ first_line_checked one_line_text 0 false 0 = none
        ∧ load_points_checked strtof_dec 1 (fun i => i) one_line_text = none)
      ∧ (1 ≤ short_text.length ∧ first_line_checked short_text 0 false 0 = some 1
        ∧ load_points_checked strtof_dec 3 (fun i => i) short_text = none)
      ∧ (∀ (strtof : List Char → F × ℕ) (n_threads : ℕ) (sched : ℕ → ℕ) (buf : List Char),
          '\n' ∉ buf → load_points_checked strtof n_threads sched buf = none)
      ∧ (∀ (strtof : List Char → F × ℕ) (n_threads : ℕ) (sched : ℕ → ℕ) (buf : List Char),
          buf ≠ [] → buf.length < n_threads →
          load_points_checked strtof n_threads sched buf = none)
      ∧ (∀ buf : List Char, first_line_checked buf 0 false 0
          = if '\n' ∈ buf then some (first_line_dims buf false 0) else none)
      ∧ (∀ (buf : List Char) (before : Char) (my_end fuel my_start : ℕ),
          my_end ≤ buf.length → 1 ≤ my_start →
          realign_checked buf my_end fuel my_start
            = some (realign buf before my_end fuel my_start))
      ∧ (∀ (buf : List Char) (my_start : ℕ), my_start ≤ buf.length →
          count_before_checked buf my_start = some ((buf.take my_start).count '\n'))
      ∧ (∀ (buf : List Char) (my_end fuel curr : ℕ), my_end ≤ buf.length →
          skip_breaks_checked buf my_end fuel curr = some (skip_breaks buf my_end fuel curr))
      ∧ (∀ (strtof : List Char → F × ℕ) (before : Char) (n_threads : ℕ) (sched : ℕ → ℕ)
          (buf : List Char) (r : LoadResult F),
          load_points_checked strtof n_threads sched buf = some r →
          load_points strtof before n_threads sched buf = r) := by
  refine ⟨⟨by decide, ?_, ?_⟩, ⟨by decide, ?_, ?_⟩, load_points_checked_no_newline,
    load_points_checked_many_workers, first_line_checked_start, ?_, count_before_checked_ok,
    ?_, load_points_checked_some⟩
  · rw [first_line_checked_start, if_neg (by decide)]
  · exact load_points_checked_no_newline strtof_dec 1 (fun i => i) one_line_text (by decide)
  · rw [first_line_checked_start, if_pos (by decide)]
    rfl
  · exact load_points_checked_many_workers strtof_dec 3 (fun i => i) short_text (by decide)
      (by decide)
  · intro buf before my_end fuel my_start hend h1
    exact realign_checked_ok buf before my_end hend fuel my_start h1
  · intro buf my_end fuel curr hend
    exact skip_breaks_checked_ok buf my_end hend fuel curr

/-! ## gpu_hip.cpp: keys that are not NaN are sorted as in a linear order -/

theorem exact_cmp_agrees [LinearOrder F] [Zero F] : (exact_cmp : FloatCmp F).Agrees := by
  refine ⟨by simp [exact_cmp], ?_⟩
  intro a b _ _
  simp [exact_cmp]

theorem exact_cmp_not_nan [LinearOrder F] (a : F) : (exact_cmp : FloatCmp F).not_nan a := by
  simp [FloatCmp.not_nan, exact_cmp]

theorem getD_of_forall {α : Type} (P : α → Prop) (l : List α) (d : α)
    (hl : ∀ x, x ∈ l → P x) (hd : P d) (i : ℕ) : P (l.getD i d) := by
  by_cases h : i < l.length
  · rw [List.getD_eq_getElem _ _ h]
    exact hl _ (List.getElem_mem h)
  · rw [List.getD_eq_default _ _ (by omega)]
    exact hd

/-- On keys that are not NaN a thread of the kernel does what it does in the linear order. -/
theorem bitonic_step_thread_f_eq [LinearOrder F] [Zero F] (cmp : FloatCmp F)
    (hcmp : cmp.Agrees) (M k j : ℕ) (st : DevState F) (i : ℕ)
    (hok : ∀ x, x ∈ st.1 → cmp.not_nan x) :
    bitonic_step_thread_f cmp M k j st i = bitonic_step_thread M k j st i := by
  have hi := getD_of_forall cmp.not_nan st.1 0 hok hcmp.1 i
  have hj := getD_of_forall cmp.not_nan st.1 0 hok hcmp.1 (i ^^^ j)
  obtain ⟨a1, a2⟩ := hcmp.2 _ _ hj hi
  obtain ⟨b1, b2⟩ := hcmp.2 _ _ hi hj
  unfold bitonic_step_thread_f bitonic_step_thread
  simp only [a1, b1, b2, gt_iff_lt]

theorem bitonic_step_thread_keys [LinearOrder F] [Zero F] (P : F → Prop) (M k j : ℕ)
    (st : DevState F) (i : ℕ) (hok : ∀ x, x ∈ st.1 → P x) (h0 : P 0) :
    ∀ x, x ∈ (bitonic_step_thread M k j st i).1 → P x := by
  have hi := getD_of_forall P st.1 0 hok h0 i
  have hj := getD_of_forall P st.1 0 hok h0 (i ^^^ j)
  have hset : ∀ x, x ∈ (st.1.set i (st.1.getD (i ^^^ j) 0)).set (i ^^^ j) (st.1.getD i 0) →
      P x := by
    intro x hx
    rcases List.mem_or_eq_of_mem_set hx with h | h
    · rcases List.mem_or_eq_of_mem_set h with h' | h'
      · exact hok x h'
      · rw [h']; exact hj
    · rw [h]; exact hi
  unfold bitonic_step_thread
  simp only
  split_ifs <;> first | exact hok | exact hset

theorem bitonic_step_kernel_f_fold [LinearOrder F] [Zero F] (cmp : FloatCmp F)
    (hcmp : cmp.Agrees) (M k j : ℕ) :
    ∀ (l : List ℕ) (st : DevState F), (∀ x, x ∈ st.1 → cmp.not_nan x) →
      l.foldl (bitonic_step_thread_f cmp M k j) st = l.foldl (bitonic_step_thread M k j) st
        ∧ ∀ x, x ∈ (l.foldl (bitonic_step_thread M k j) st).1 → cmp.not_nan x := by
  intro l
  induction l with
  | nil => intro st hok; exact ⟨rfl, hok⟩
  | cons i l ih =>
    intro st hok
    rw [List.foldl_cons, List.foldl_cons, bitonic_step_thread_f_eq cmp hcmp M k j st i hok]
    exact ih _ (bitonic_step_thread_keys cmp.not_nan M k j st i hok hcmp.1)

theorem bitonic_step_kernel_f_eq [LinearOrder F] [Zero F] (cmp : FloatCmp F)
    (hcmp : cmp.Agrees) (M k j nthreads : ℕ) (st : DevState F)
    (hok : ∀ x, x ∈ st.1 → cmp.not_nan x) :
    bitonic_step_kernel_f cmp M k j nthreads st = bitonic_step_kernel M k j nthreads st
      ∧ ∀ x, x ∈ (bitonic_step_kernel M k j nthreads st).1 → cmp.not_nan x :=
  bitonic_step_kernel_f_fold cmp hcmp M k j (List.range nthreads) st hok

/-- The passes of the 32-bit loops on keys that are not NaN are the passes in the linear
order. -/
theorem run_passes_f_eq [LinearOrder F] [Zero F] (cmp : FloatCmp F) (hcmp : cmp.Agrees)
    (M nthreads : ℕ) :
    ∀ (passes : List (ℕ × ℕ)) (st : DevState F), (∀ x, x ∈ st.1 → cmp.not_nan x) →
      run_passes_f cmp M nthreads (passes.map (fun kj => ((kj.1 : ℤ), (kj.2 : ℤ)))) st
        = run_passes M nthreads passes st := by
  intro passes
  induction passes with
  | nil => intro st _; rfl
  | cons kj passes ih =>
    intro st hok
    obtain ⟨e, hok2⟩ := bitonic_step_kernel_f_eq cmp hcmp M kj.1 kj.2 nthreads st hok
    unfold run_passes_f run_passes at ih ⊢
    rw [List.map_cons, List.foldl_cons, List.foldl_cons]
    simp only [Int.toNat_ofNat]
    rw [e]
    exact ih _ hok2

/-! ## gpu_hip.cpp: up to `2^29` points the 32-bit run is the run on unbounded counters -/

theorem stage_passes_i32_pow (m fuel : ℕ) (hm : m ≤ 29) (hf : 2 * m + 1 ≤ fuel) :
    stage_passes_i32 fuel (2 ^ m) 2
      = some ((stage_list m).map (fun kj => ((kj.1 : ℤ), (kj.2 : ℤ)))) := by
  have := stage_passes_i32_from m hm m 0 fuel (by omega) (by omega)
  rw [stage_list_cast]
  simpa using this

theorem next_pow2_small (N : ℕ) (hN : N ≤ 2 ^ 29) : ∃ m, m ≤ 29 ∧ next_pow2 N = 2 ^ m := by
  obtain ⟨m, hm, _, hleast⟩ := next_pow2_spec N
  refine ⟨m, ?_, hm⟩
  rcases hleast with h | h
  · omega
  · by_contra hc
    have : 2 ^ 29 ≤ 2 ^ (m - 1) := Nat.pow_le_pow_right (by norm_num) (by omega)
    omega

/-- Up to `2^29` points, with keys that are not NaN, the 32-bit loops end and leave the
device arrays that the loops on unbounded counters leave. -/
theorem gpu_sorted_arrays_f_eq [LinearOrder F] [Zero F] [Add F] [Sub F] [Mul F]
    (cmp : FloatCmp F) (hcmp : cmp.Agrees) (fuel : ℕ) (hfuel : 64 ≤ fuel) (inf : F)
    (pts : List (Point F)) (ref : List F) (hN : pts.length ≤ 2 ^ 29)
    (hinf : cmp.not_nan inf)
    (hkeys : ∀ p, p ∈ pts → cmp.not_nan (sq_dist p.coords ref ref.length)) :
    gpu_sorted_arrays_f cmp fuel inf pts ref = some (gpu_sorted_arrays inf pts ref) := by
  obtain ⟨m, hm29, hm⟩ := next_pow2_small pts.length hN
  have hcast : (((2 : ℕ) ^ m : ℕ) : ℤ) = (2 : ℤ) ^ m := by push_cast; rfl
  unfold gpu_sorted_arrays_f gpu_sorted_arrays
  simp only
  rw [next_pow2_i32_eq pts.length fuel (le_trans hN (by norm_num)) (by omega), hm]
  simp only [Int.toNat_ofNat]
  rw [hcast, stage_passes_i32_pow m fuel hm29 (by omega)]
  simp only
  rw [distance_kernel_spec inf pts ref pts.length ref.length (2 ^ m) _ (nthreads_ge (2 ^ m))]
  rw [run_passes_f_eq cmp hcmp, sort_outer_eq_run_passes]
  intro x hx
  simp only at hx
  obtain ⟨i, _, rfl⟩ := List.mem_map.mp hx
  by_cases hi : i < pts.length
  · rw [if_pos hi]
    exact hkeys _ (getD_mem pts default i hi)
  · rw [if_neg hi]
    exact hinf

/-- Up to `2^29` points, with keys that are not NaN, the 32-bit run returns what the run on
unbounded counters returns. -/
theorem run_gpu_sort_f_eq [LinearOrder F] [Zero F] [Add F] [Sub F] [Mul F]
    (cmp : FloatCmp F) (hcmp : cmp.Agrees) (fuel : ℕ) (hfuel : 64 ≤ fuel) (inf : F)
    (pts : List (Point F)) (ref : List F) (hN : pts.length ≤ 2 ^ 29)
    (hinf : cmp.not_nan inf)
    (hkeys : ∀ p, p ∈ pts → cmp.not_nan (sq_dist p.coords ref ref.length))
    (hle : ∀ p, p ∈ pts → sq_dist p.coords ref ref.length ≤ inf) :
    run_gpu_sort_f cmp fuel inf pts ref
      = GpuRun.finished
          ((compute_distances_cpu pts ref).insertionSort (fun a b => a.dist ≤ b.dist)) := by
  have hstable := run_gpu_sort_stable inf pts ref (fun _ => hle)
  by_cases h0 : pts.length = 0
  · have hnil : pts = [] := List.length_eq_zero.mp h0
    subst hnil
    rfl
  · have hre := run_gpu_sort_eq_reorder inf pts ref h0
    rw [hstable] at hre
    unfold run_gpu_sort_f
    simp only [if_neg h0]
    rw [gpu_sorted_arrays_f_eq cmp hcmp fuel hfuel inf pts ref hN hinf hkeys]
    simp only
    split
    · next hfold =>
      rw [hfold] at hre
      exact Option.noConfusion hre
    · next a temp hfold =>
      rw [hfold] at hre
      have := Option.some.inj hre
      simp only at this
      rw [this]

/-! ## gpu_hip.cpp: above `2^29` points the host loops do not end -/

theorem next_pow2_loop_i32_some (v : ℕ) (hv : v ≤ 2 ^ 30) :
    ∀ (fuel s : ℕ) (r : ℤ), s ≤ 30 →
      next_pow2_loop_i32 fuel (v : ℤ) ((2 : ℤ) ^ s) = some r →
      r = ((next_pow2_loop v (2 ^ s) : ℕ) : ℤ) := by
  intro fuel
  induction fuel with
  | zero => intro s r _ h; exact Option.noConfusion h
  | succ fuel ih =>
    intro s r h1 h
    have hvz : (v : ℤ) ≤ 2 ^ 30 := by exact_mod_cast hv
    have hcast : (((2 : ℕ) ^ s : ℕ) : ℤ) = (2 : ℤ) ^ s := by push_cast; rfl
    rw [next_pow2_loop_i32] at h
    rw [next_pow2_loop]
    by_cases hlt : (2 : ℤ) ^ s < (v : ℤ)
    · have hs : s < 30 := two_pow_lt_int s 30 (lt_of_lt_of_le hlt hvz)
      have hnat : 2 ^ s < v ∧ 0 < 2 ^ s := by
        refine ⟨?_, by positivity⟩
        have : (((2 : ℕ) ^ s : ℕ) : ℤ) < (v : ℤ) := by rw [hcast]; exact hlt
        exact_mod_cast this
      have hb := two_pow_le_int s 29 (by omega)
      have hpos : (0 : ℤ) < 2 ^ s := by positivity
      rw [if_pos hlt, shl1_i32_small _ (by omega) (by omega)] at h
      have e1 : 2 * (2 : ℤ) ^ s = 2 ^ (s + 1) := by rw [pow_succ]; ring
      have e2 : (2 : ℕ) ^ s <<< 1 = 2 ^ (s + 1) := by
        rw [Nat.shiftLeft_eq, pow_one, pow_succ]
      rw [e1] at h
      rw [if_pos hnat, e2]
      exact ih (s + 1) r (by omega) h
    · have hnat : ¬ (2 ^ s < v ∧ 0 < 2 ^ s) := by
        intro h'
        apply hlt
        have : (((2 : ℕ) ^ s : ℕ) : ℤ) < (v : ℤ) := by exact_mod_cast h'.1
        rw [hcast] at this
        exact this
      rw [if_neg hlt] at h
      rw [if_neg hnat, hcast]
      exact (Option.some.inj h).symm

theorem next_pow2_i32_some (N fuel : ℕ) (Mz : ℤ) (hN : N ≤ 2 ^ 30)
    (h : next_pow2_i32 fuel (N : ℤ) = some Mz) : Mz = ((next_pow2 N : ℕ) : ℤ) := by
  unfold next_pow2_i32 at h
  unfold next_pow2
  by_cases h1 : N ≤ 1
  · have hz : (N : ℤ) ≤ 1 := by exact_mod_cast h1
    rw [if_pos hz] at h
    rw [if_pos h1]
    exact (Option.some.inj h).symm
  · have hz : ¬ (N : ℤ) ≤ 1 := by
      intro hc
      apply h1
      exact_mod_cast hc
    rw [if_neg hz] at h
    rw [if_neg h1]
    have := next_pow2_loop_i32_some N hN fuel 0 Mz (by omega) (by simpa using h)
    simpa using this

theorem next_pow2_top (N : ℕ) (h1 : 2 ^ 29 < N) (h2 : N ≤ 2 ^ 30) : next_pow2 N = 2 ^ 30 := by
  obtain ⟨m, hm, hle, hleast⟩ := next_pow2_spec N
  have hm1 : 30 ≤ m := by
    by_contra hc
    have : 2 ^ m ≤ 2 ^ 29 := Nat.pow_le_pow_right (by norm_num) (by omega)
    omega
  have hm2 : m ≤ 30 := by
    rcases hleast with h | h
    · omega
    · by_contra hc
      have : 2 ^ 30 ≤ 2 ^ (m - 1) := Nat.pow_le_pow_right (by norm_num) (by omega)
      omega
  have : m = 30 := by omega
  rw [hm, this]

/-- For more than `2^29` points the host loops of `run_gpu_sort` do not end: `next_pow2` does
not return above `2^30`, and up to `2^30` it returns `2^30`, for which the stage loop does not
end. -/
theorem gpu_sorted_arrays_f_none [Zero F] [Add F] [Sub F] [Mul F] (cmp : FloatCmp F)
    (fuel : ℕ) (inf : F) (pts : List (Point F)) (ref : List F) (hN : 2 ^ 29 < pts.length) :
    gpu_sorted_arrays_f cmp fuel inf pts ref = none := by
  unfold gpu_sorted_arrays_f
  simp only
  by_cases h30 : pts.length ≤ 2 ^ 30
  · cases hnp : next_pow2_i32 fuel (pts.length : ℤ) with
    | none => rfl
    | some Mz =>
      have hMz := next_pow2_i32_some pts.length fuel Mz h30 hnp
      rw [next_pow2_top pts.length hN h30] at hMz
      have hMz2 : Mz = (2 : ℤ) ^ 30 := by rw [hMz]; norm_num
      simp only
      have hdiv := stage_passes_i32_diverges 29 1 (by omega) fuel
      simp only [pow_one] at hdiv
      rw [hMz2, hdiv]
  · have hz : (2 : ℤ) ^ 30 < (pts.length : ℤ) := by
      have : 2 ^ 30 < pts.length := by omega
      exact_mod_cast this
    rw [next_pow2_i32_diverges (pts.length : ℤ) hz fuel]

theorem run_gpu_sort_f_no_return [Zero F] [Add F] [Sub F] [Mul F] (cmp : FloatCmp F)
    (fuel : ℕ) (inf : F) (pts : List (Point F)) (ref : List F) (hN : 2 ^ 29 < pts.length) :
    run_gpu_sort_f cmp fuel inf pts ref = GpuRun.no_return := by
  have h0 : pts.length ≠ 0 := by
    have : 0 < 2 ^ 29 := by norm_num
    omega
  unfold run_gpu_sort_f
  simp only [if_neg h0]
  rw [gpu_sorted_arrays_f_none cmp fuel inf pts ref hN]

theorem origin_points_length (n : ℕ) : (origin_points n).length = n := by
  unfold origin_points
  exact List.length_replicate _ _

/-! ## The comparisons of `float` and the samples with a NaN and with rounding -/

theorem flt_lt_iff (a b : Flt) : a < b ↔ Flt.rank a < Flt.rank b := Iff.rfl

theorem ieee_cmp_agrees : ieee_cmp.Agrees := by
  refine ⟨by decide, ?_⟩
  intro a b ha hb
  cases a <;> cases b <;> first
    | exact absurd ha (by decide)
    | exact absurd hb (by decide)
    | exact ⟨by simp only [ieee_cmp, decide_eq_true_iff, flt_lt_iff],
        by simp only [ieee_cmp, decide_eq_true_iff]⟩

theorem ieee_not_nan_iff (a : Flt) : ieee_cmp.not_nan a ↔ a ≠ Flt.nan := by
  cases a <;> simp [FloatCmp.not_nan, ieee_cmp]

set_option maxRecDepth 1000000 in
/-- The device arrays for `nan_points`: the NaN key stops the network from sorting, and the
padding marker `12` ends in slot `4`. -/
theorem nan_points_sorted_idx :
    (gpu_sorted_arrays_f ieee_cmp 64 Flt.pinf nan_points [0]).map (fun s => s.2)
      = some [0, 1, 2, 3, 12, 5, 4, 13] := by
  decide!

set_option maxRecDepth 1000000 in
theorem nan_points_run :
    run_gpu_sort_f ieee_cmp 64 Flt.pinf nan_points [0] = GpuRun.out_of_bounds := by
  decide!

set_option maxRecDepth 1000000 in
theorem nan_points_key :
    sq_dist [Flt.nan] [0] 1 = Flt.nan ∧ sq_dist [Flt.fin 1] [0] 1 = Flt.fin 1 := by
  decide!

set_option maxRecDepth 1000000 in
theorem rounding_point_simd :
    compute_distances_simd two_lane_sum rounding_point [0, 0, 0]
      = [{ coords := [Flt.fin 1, Flt.fin 4096, Flt.fin 1], dist := Flt.fin 16777218 }] := by
  decide!

set_option maxRecDepth 1000000 in
theorem rounding_point_gpu :
    run_gpu_sort_f ieee_cmp 64 Flt.pinf rounding_point [0, 0, 0]
      = GpuRun.finished
          [{ coords := [Flt.fin 1, Flt.fin 4096, Flt.fin 1], dist := Flt.fin 16777216 }] := by
  decide!

/-! ## gpu_hip.cpp: the ranker on `float` keys and 32-bit counters -/

/-- Up to `2^29` points, with keys that are not NaN, a result of the run on unbounded counters
is the result of the 32-bit run. -/
theorem run_gpu_sort_f_of_exact [LinearOrder F] [Zero F] [Add F] [Sub F] [Mul F]
    (cmp : FloatCmp F) (hcmp : cmp.Agrees) (fuel : ℕ) (hfuel : 64 ≤ fuel) (inf : F)
    (pts : List (Point F)) (ref : List F) (hN : pts.length ≤ 2 ^ 29)
    (hinf : cmp.not_nan inf)
    (hkeys : ∀ p, p ∈ pts → cmp.not_nan (sq_dist p.coords ref ref.length))
    (hle : ∀ p, p ∈ pts → sq_dist p.coords ref ref.length ≤ inf)
    (out : List (Point F)) (h : run_gpu_sort inf pts ref = some out) :
    run_gpu_sort_f cmp fuel inf pts ref = GpuRun.finished out := by
  rw [run_gpu_sort_f_eq cmp hcmp fuel hfuel inf pts ref hN hinf hkeys hle]
  rw [run_gpu_sort_stable inf pts ref (fun _ => hle)] at h
  rw [Option.some.inj h]

theorem origin_points_many : 2 ^ 29 < (origin_points (2 ^ 29 + 1)).length := by
  rw [origin_points_length]
  exact Nat.lt_succ_self _

theorem getD_take {α : Type} (l : List α) (d : α) (n i : ℕ) (hi : i < n) :
    (l.take n).getD i d = l.getD i d := by
  simp only [List.getD_eq_getElem?_getD, List.getElem?_take, if_pos hi]

theorem flt_points_dim :
    ∀ p, p ∈ flt_points → p.coords.length = ([0, 0] : List Flt).length := by
  decide

set_option maxRecDepth 1000000 in
theorem flt_points_not_nan :
    ∀ p, p ∈ flt_points →
      ieee_cmp.not_nan (sq_dist p.coords [0, 0] ([0, 0] : List Flt).length) := by
  decide!

set_option maxRecDepth 1000000 in
theorem flt_points_below_inf :
    ∀ p, p ∈ flt_points → sq_dist p.coords [0, 0] ([0, 0] : List Flt).length ≤ Flt.pinf := by
  decide!

set_option maxRecDepth 1000000 in
/-- On `flt_points` the reduction over two lanes gives the keys of the device loop. -/
theorem flt_points_two_lane :
    ∀ p, p ∈ flt_points →
      two_lane_sum (sq_terms p.coords [0, 0] ([0, 0] : List Flt).length)
        = sq_dist p.coords [0, 0] ([0, 0] : List Flt).length := by
  decide!

/-- C3 as amended: for `1 ≤ N ≤ 2^29` points whose keys are not NaN (`inf` being `INFINITY`,
not a NaN and exceeded by no key), the call of `run_gpu_sort` on `float` comparisons and 32-bit
counters returns, and what it leaves in `pts` is the stable sort by distance of the input with
its squared distances filled in; equivalently it lists the input points along an ordering `idx`
of the input positions `0 .. N-1` that is strictly ascending in the pair (squared distance,
input position). -/
theorem gpu_ranker_stable_order [LinearOrder F] [Zero F] [Add F] [Sub F] [Mul F]
    (cmp : FloatCmp F) (hcmp : cmp.Agrees) (fuel : ℕ) (hfuel : 64 ≤ fuel) (inf : F)
    (pts : List (Point F)) (ref : List F) (hN : 1 ≤ pts.length) (hN29 : pts.length ≤ 2 ^ 29)
    (hdim : ∀ p, p ∈ pts → p.coords.length = ref.length)
    (hinf : cmp.not_nan inf)
    (hkeys : ∀ p, p ∈ pts → cmp.not_nan (sq_dist p.coords ref ref.length))
    (hle : ∀ p, p ∈ pts → sq_dist p.coords ref ref.length ≤ inf) :
    run_gpu_sort_f cmp fuel inf pts ref
      = GpuRun.finished
          ((compute_distances_cpu pts ref).insertionSort (fun a b => a.dist ≤ b.dist)) ∧
    ∃ idx : List ℕ, idx.Perm (List.range pts.length) ∧
      run_gpu_sort_f cmp fuel inf pts ref = GpuRun.finished (idx.map (fun v =>
        ({ coords := (pts.getD v default).coords,
           dist := sq_dist (pts.getD v default).coords ref ref.length } : Point F))) ∧
      idx.Pairwise (fun a b =>
        sq_dist (pts.getD a default).coords ref ref.length
            < sq_dist (pts.getD b default).coords ref ref.length ∨
        (sq_dist (pts.getD a default).coords ref ref.length
            = sq_dist (pts.getD b default).coords ref ref.length ∧ a < b)) := by
  obtain ⟨_, idx, hp, hrun, hpw⟩ := gpu_ranker_total_order inf pts ref hN hdim hle
  exact ⟨run_gpu_sort_f_eq cmp hcmp fuel hfuel inf pts ref hN29 hinf hkeys hle, idx, hp,
    run_gpu_sort_f_of_exact cmp hcmp fuel hfuel inf pts ref hN29 hinf hkeys hle _ hrun, hpw⟩

set_option maxRecDepth 1000000 in
theorem gpu_ranker_stable_order_witness :
    ieee_cmp.Agrees ∧ 64 ≤ 64 ∧ 1 ≤ flt_points.length ∧ flt_points.length ≤ 2 ^ 29
      ∧ (∀ p, p ∈ flt_points → p.coords.length = ([0, 0] : List Flt).length)
      ∧ ieee_cmp.not_nan Flt.pinf
      ∧ (∀ p, p ∈ flt_points →
          ieee_cmp.not_nan (sq_dist p.coords [0, 0] ([0, 0] : List Flt).length))
      ∧ (∀ p, p ∈ flt_points → sq_dist p.coords [0, 0] ([0, 0] : List Flt).length ≤ Flt.pinf)
      ∧ (run_gpu_sort_f ieee_cmp 64 Flt.pinf flt_points [0, 0]
      = GpuRun.finished
          ((compute_distances_cpu flt_points [0, 0]).insertionSort
            (fun a b => a.dist ≤ b.dist)) ∧
    ∃ idx : List ℕ, idx.Perm (List.range flt_points.length) ∧
      run_gpu_sort_f ieee_cmp 64 Flt.pinf flt_points [0, 0]
        = GpuRun.finished (idx.map (fun v =>
          ({ coords := (flt_points.getD v default).coords,
             dist := sq_dist (flt_points.getD v default).coords [0, 0]
               ([0, 0] : List Flt).length } : Point Flt))) ∧
      idx.Pairwise (fun a b =>
        sq_dist (flt_points.getD a default).coords [0, 0] ([0, 0] : List Flt).length
            < sq_dist (flt_points.getD b default).coords [0, 0] ([0, 0] : List Flt).length ∨
        (sq_dist (flt_points.getD a default).coords [0, 0] ([0, 0] : List Flt).length
            = sq_dist (flt_points.getD b default).coords [0, 0] ([0, 0] : List Flt).length
          ∧ a < b))) :=
  ⟨ieee_cmp_agrees, le_refl 64, by decide, by decide, flt_points_dim, by decide,
    flt_points_not_nan, flt_points_below_inf,
    gpu_ranker_stable_order ieee_cmp ieee_cmp_agrees 64 (le_refl 64) Flt.pinf flt_points [0, 0]
      (by decide) (by decide) flt_points_dim (by decide) flt_points_not_nan
      flt_points_below_inf⟩

set_option maxRecDepth 1000000 in
/-- C3, the claim as stated fails. With a NaN among the keys (keys `1, 4, 1, NaN`) the call
returns the points in their input order, the key `4` in front of a key `1`, which is not the
stable sort by distance; and on `2^29 + 1` points the call does not return, whatever the bound
on the steps of its loops. -/
theorem gpu_ranker_order_fails :
    run_gpu_sort_f ieee_cmp 64 Flt.pinf unordered_points [0]
        = GpuRun.finished
            [{ coords := [Flt.fin 1], dist := Flt.fin 1 },
             { coords := [Flt.fin 2], dist := Flt.fin 4 },
             { coords := [Flt.fin 1], dist := Flt.fin 1 },
             { coords := [Flt.nan], dist := Flt.nan }]
      ∧ ieee_cmp.lt (Flt.fin 1) (Flt.fin 4) = true
      ∧ run_gpu_sort_f ieee_cmp 64 Flt.pinf unordered_points [0]
          ≠ GpuRun.finished
              ((compute_distances_cpu unordered_points [0]).insertionSort
                (fun a b => a.dist ≤ b.dist))
      ∧ ∀ fuel : ℕ,
          run_gpu_sort_f exact_cmp fuel 0 (origin_points (2 ^ 29 + 1)) [0]
            = GpuRun.no_return :=
  ⟨by decide!, by decide!, by decide!,
    fun fuel => run_gpu_sort_f_no_return exact_cmp fuel 0 (origin_points (2 ^ 29 + 1)) [0]
      origin_points_many⟩

/-! ## gpu_hip.cpp: the host reorder on `float` keys and 32-bit counters -/

/-- C4 as amended: for `1 ≤ N ≤ 2^29` points whose keys are not NaN, `run_gpu_sort` returns
exactly `N` points; the first `N` entries of the sorted index array are a permutation of
`0 .. N-1` (every source point is moved exactly once and no index `≥ N` is used as a source);
slot `i` of the output holds the coordinates of the source point `sorted_idx[i]`, so the
coordinate sequences are a permutation of those of the input; and each output `dist` is the
squared distance, as the device loop computes it, of that point's own coordinates to `ref`. -/
theorem gpu_reorder_keeps_points [LinearOrder F] [Zero F] [Add F] [Sub F] [Mul F]
    (cmp : FloatCmp F) (hcmp : cmp.Agrees) (fuel : ℕ) (hfuel : 64 ≤ fuel) (inf : F)
    (pts : List (Point F)) (ref : List F) (hN : 1 ≤ pts.length) (hN29 : pts.length ≤ 2 ^ 29)
    (hdim : ∀ p, p ∈ pts → p.coords.length = ref.length)
    (hinf : cmp.not_nan inf)
    (hkeys : ∀ p, p ∈ pts → cmp.not_nan (sq_dist p.coords ref ref.length))
    (hle : ∀ p, p ∈ pts → sq_dist p.coords ref ref.length ≤ inf) :
    ∃ (sorted : DevState F) (out : List (Point F)),
      gpu_sorted_arrays_f cmp fuel inf pts ref = some sorted ∧
      run_gpu_sort_f cmp fuel inf pts ref = GpuRun.finished out ∧
      out.length = pts.length ∧
      (sorted.2.take pts.length).Perm (List.range pts.length) ∧
      (∀ i, i < pts.length → sorted.2.getD i 0 < pts.length) ∧
      out.map Point.coords
        = (sorted.2.take pts.length).map (fun v => (pts.getD v default).coords) ∧
      (out.map Point.coords).Perm (pts.map Point.coords) ∧
      ∀ p, p ∈ out → p.dist = sq_dist p.coords ref ref.length := by
  have _ := hdim
  obtain ⟨hlen, hperm, _, _, hlt, _, _, hfold⟩ := padding_sorts_to_tail inf pts ref hN hle
  have hNM : pts.length ≤ (gpu_sorted_arrays inf pts ref).2.length := by
    obtain ⟨m, hm, hNm, _⟩ := next_pow2_spec pts.length
    rw [hlen, hm]
    exact hNm
  have htl : ((gpu_sorted_arrays inf pts ref).2.take pts.length).length = pts.length := by
    rw [List.length_take]
    exact Nat.min_eq_left hNM
  have hinj : ∀ i j, i < pts.length → j < pts.length →
      (gpu_sorted_arrays inf pts ref).2.getD i 0 = (gpu_sorted_arrays inf pts ref).2.getD j 0 →
      i = j := by
    intro i j hi hj h
    rw [← getD_take _ 0 pts.length i hi, ← getD_take _ 0 pts.length j hj] at h
    exact nodup_getD_inj _ 0 (hperm.nodup_iff.mpr (List.nodup_range _)) i j
      (by rw [htl]; exact hi) (by rw [htl]; exact hj) h
  obtain ⟨pts_n, hspec⟩ := host_reorder_spec (gpu_sorted_arrays inf pts ref).2
    (gpu_sorted_arrays inf pts ref).1 pts pts.length rfl hlt hinj
  rw [hspec] at hfold
  have hrun : run_gpu_sort inf pts ref = some ((List.range pts.length).map (fun x =>
      ({ coords := (pts.getD ((gpu_sorted_arrays inf pts ref).2.getD x 0) default).coords,
         dist := (gpu_sorted_arrays inf pts ref).1.getD x 0 } : Point F))) := hfold
  have hcoords : ((List.range pts.length).map (fun x =>
      ({ coords := (pts.getD ((gpu_sorted_arrays inf pts ref).2.getD x 0) default).coords,
         dist := (gpu_sorted_arrays inf pts ref).1.getD x 0 } : Point F))).map Point.coords
      = ((gpu_sorted_arrays inf pts ref).2.take pts.length).map
          (fun v => (pts.getD v default).coords) := by
    rw [← map_range_getD ((gpu_sorted_arrays inf pts ref).2.take pts.length) 0
      (fun v => (pts.getD v default).coords), htl, List.map_map]
    apply List.map_congr_left
    intro x hx
    simp only [Function.comp_apply]
    rw [getD_take _ 0 pts.length x (List.mem_range.mp hx)]
  refine ⟨gpu_sorted_arrays inf pts ref, _,
    gpu_sorted_arrays_f_eq cmp hcmp fuel hfuel inf pts ref hN29 hinf hkeys,
    run_gpu_sort_f_of_exact cmp hcmp fuel hfuel inf pts ref hN29 hinf hkeys hle _ hrun,
    by simp, hperm, hlt, hcoords, ?_, ?_⟩
  · rw [hcoords]
    have := hperm.map (fun v => (pts.getD v default).coords)
    rw [map_range_getD pts default Point.coords] at this
    exact this
  · intro p hp
    have hst := run_gpu_sort_stable inf pts ref (fun _ => hle)
    rw [hrun] at hst
    rw [Option.some.inj hst] at hp
    have hp2 := (List.perm_insertionSort (fun a b : Point F => a.dist ≤ b.dist)
      (compute_distances_cpu pts ref)).mem_iff.mp hp
    rw [compute_distances_cpu_eq_map] at hp2
    obtain ⟨q, _, rfl⟩ := List.mem_map.mp hp2
    rfl

set_option maxRecDepth 1000000 in
theorem gpu_reorder_keeps_points_witness :
    ieee_cmp.Agrees ∧ 64 ≤ 64 ∧ 1 ≤ flt_points.length ∧ flt_points.length ≤ 2 ^ 29
      ∧ (∀ p, p ∈ flt_points → p.coords.length = ([0, 0] : List Flt).length)
      ∧ ieee_cmp.not_nan Flt.pinf
      ∧ (∀ p, p ∈ flt_points →
          ieee_cmp.not_nan (sq_dist p.coords [0, 0] ([0, 0] : List Flt).length))
      ∧ (∀ p, p ∈ flt_points → sq_dist p.coords [0, 0] ([0, 0] : List Flt).length ≤ Flt.pinf)
      ∧ (∃ (sorted : DevState Flt) (out : List (Point Flt)),
      gpu_sorted_arrays_f ieee_cmp 64 Flt.pinf flt_points [0, 0] = some sorted ∧
      run_gpu_sort_f ieee_cmp 64 Flt.pinf flt_points [0, 0] = GpuRun.finished out ∧
      out.length = flt_points.length ∧
      (sorted.2.take flt_points.length).Perm (List.range flt_points.length) ∧
      (∀ i, i < flt_points.length → sorted.2.getD i 0 < flt_points.length) ∧
      out.map Point.coords
        = (sorted.2.take flt_points.length).map
            (fun v => (flt_points.getD v default).coords) ∧
      (out.map Point.coords).Perm (flt_points.map Point.coords) ∧
      ∀ p, p ∈ out → p.dist = sq_dist p.coords [0, 0] ([0, 0] : List Flt).length) :=
  ⟨ieee_cmp_agrees, le_refl 64, by decide, by decide, flt_points_dim, by decide,
    flt_points_not_nan, flt_points_below_inf,
    gpu_reorder_keeps_points ieee_cmp ieee_cmp_agrees 64 (le_refl 64) Flt.pinf flt_points [0, 0]
      (by decide) (by decide) flt_points_dim (by decide) flt_points_not_nan
      flt_points_below_inf⟩

set_option maxRecDepth 1000000 in
/-- C4, the claim as stated fails. With one NaN among six keys the sorted index array holds
the padding marker `12` in slot `4`, among the first `N = 6`, so the host reorder uses an
index `≥ N` as a source and reads `pts[12]` outside the vector; and on `2^29 + 1` points the
call does not return, whatever the bound on the steps of its loops. -/
theorem gpu_reorder_reads_padding :
    (gpu_sorted_arrays_f ieee_cmp 64 Flt.pinf nan_points [0]).map (fun s => s.2.getD 4 0)
        = some 12
      ∧ nan_points.length = 6
      ∧ run_gpu_sort_f ieee_cmp 64 Flt.pinf nan_points [0] = GpuRun.out_of_bounds
      ∧ ∀ fuel : ℕ,
          run_gpu_sort_f exact_cmp fuel 1 (origin_points (2 ^ 29 + 1)) [0]
            = GpuRun.no_return :=
  ⟨by decide!, by decide, by decide!,
    fun fuel => run_gpu_sort_f_no_return exact_cmp fuel 1 (origin_points (2 ^ 29 + 1)) [0]
      origin_points_many⟩

/-! ## gpu_hip.cpp: the padding on `float` keys and 32-bit counters -/

/-- C15 as amended: for `1 ≤ N ≤ 2^29` points whose keys are not NaN (a real key may equal
`INFINITY`), `next_pow2(N)` returns `M`, the distance kernel and the sort loops end, and the
sorted index array has `M` entries of which the first `N` are a permutation of `0, ..., N-1`
and those at positions `[N, M)` are the padding markers `N + i` for `N ≤ i < M`, all at least
`N`; so every lookup `pts[sorted_idx[i]]` of the host reorder is in bounds and the call
returns. -/
theorem padding_at_tail [LinearOrder F] [Zero F] [Add F] [Sub F] [Mul F]
    (cmp : FloatCmp F) (hcmp : cmp.Agrees) (fuel : ℕ) (hfuel : 64 ≤ fuel) (inf : F)
    (pts : List (Point F)) (ref : List F) (hN : 1 ≤ pts.length) (hN29 : pts.length ≤ 2 ^ 29)
    (hinf : cmp.not_nan inf)
    (hkeys : ∀ p, p ∈ pts → cmp.not_nan (sq_dist p.coords ref ref.length))
    (hle : ∀ p, p ∈ pts → sq_dist p.coords ref ref.length ≤ inf) :
    next_pow2_i32 fuel (pts.length : ℤ) = some ((next_pow2 pts.length : ℕ) : ℤ)
      ∧ ∃ sorted : DevState F,
        gpu_sorted_arrays_f cmp fuel inf pts ref = some sorted
        ∧ sorted.2.length = next_pow2 pts.length
        ∧ (sorted.2.take pts.length).Perm (List.range pts.length)
        ∧ (sorted.2.drop pts.length).Perm
            ((List.range (next_pow2 pts.length - pts.length)).map
              (fun i => pts.length + (pts.length + i)))
        ∧ (∀ v, v ∈ sorted.2.drop pts.length → pts.length ≤ v)
        ∧ (∀ i, i < pts.length → sorted.2.getD i 0 < pts.length)
        ∧ ∃ out, run_gpu_sort_f cmp fuel inf pts ref = GpuRun.finished out := by
  obtain ⟨h1, h2, h3, h4, h5, _⟩ := padding_sorts_to_tail inf pts ref hN hle
  exact ⟨next_pow2_i32_eq pts.length fuel (le_trans hN29 (by norm_num)) (by omega),
    gpu_sorted_arrays inf pts ref,
    gpu_sorted_arrays_f_eq cmp hcmp fuel hfuel inf pts ref hN29 hinf hkeys,
    h1, h2, h3, h4, h5, _,
    run_gpu_sort_f_eq cmp hcmp fuel hfuel inf pts ref hN29 hinf hkeys hle⟩

set_option maxRecDepth 1000000 in
theorem padding_at_tail_witness :
    ieee_cmp.Agrees ∧ 64 ≤ 64 ∧ 1 ≤ flt_points.length ∧ flt_points.length ≤ 2 ^ 29
      ∧ (∀ p, p ∈ flt_points → p.coords.length = ([0, 0] : List Flt).length)
      ∧ ieee_cmp.not_nan Flt.pinf
      ∧ (∀ p, p ∈ flt_points →
          ieee_cmp.not_nan (sq_dist p.coords [0, 0] ([0, 0] : List Flt).length))
      ∧ (∀ p, p ∈ flt_points → sq_dist p.coords [0, 0] ([0, 0] : List Flt).length ≤ Flt.pinf)
      ∧ (next_pow2_i32 64 (flt_points.length : ℤ) = some ((next_pow2 flt_points.length : ℕ) : ℤ)
      ∧ ∃ sorted : DevState Flt,
        gpu_sorted_arrays_f ieee_cmp 64 Flt.pinf flt_points [0, 0] = some sorted
        ∧ sorted.2.length = next_pow2 flt_points.length
        ∧ (sorted.2.take flt_points.length).Perm (List.range flt_points.length)
        ∧ (sorted.2.drop flt_points.length).Perm
            ((List.range (next_pow2 flt_points.length - flt_points.length)).map
              (fun i => flt_points.length + (flt_points.length + i)))
        ∧ (∀ v, v ∈ sorted.2.drop flt_points.length → flt_points.length ≤ v)
        ∧ (∀ i, i < flt_points.length → sorted.2.getD i 0 < flt_points.length)
        ∧ ∃ out, run_gpu_sort_f ieee_cmp 64 Flt.pinf flt_points [0, 0]
            = GpuRun.finished out) :=
  ⟨ieee_cmp_agrees, le_refl 64, by decide, by decide, flt_points_dim, by decide,
    flt_points_not_nan, flt_points_below_inf,
    padding_at_tail ieee_cmp ieee_cmp_agrees 64 (le_refl 64) Flt.pinf flt_points [0, 0]
      (by decide) (by decide) (by decide) flt_points_not_nan flt_points_below_inf⟩

set_option maxRecDepth 1000000 in
/-- C15, the claim as stated fails. For the six keys `1, 1, 1, 1, 1, NaN` and `M = 8` the
sorted index array is `0, 1, 2, 3, 12, 5, 4, 13`: its first six entries are not a permutation
of `0, ..., 5`, the padding marker `12` stands in slot `4` and the real index `4` in the tail;
and for `N = 2^29 + 1` the loops leave no sorted array, whatever the bound on their steps. -/
theorem padding_among_real_slots :
    (gpu_sorted_arrays_f ieee_cmp 64 Flt.pinf nan_points [0]).map (fun s => s.2)
        = some [0, 1, 2, 3, 12, 5, 4, 13]
      ∧ next_pow2_i32 64 (nan_points.length : ℤ) = some 8
      ∧ ¬ ([0, 1, 2, 3, 12, 5].Perm (List.range nan_points.length))
      ∧ ∀ fuel : ℕ,
          gpu_sorted_arrays_f exact_cmp fuel 0 (origin_points (2 ^ 29 + 1)) [0] = none :=
  ⟨by decide!, by decide!, by decide,
    fun fuel => gpu_sorted_arrays_f_none exact_cmp fuel 0 (origin_points (2 ^ 29 + 1)) [0]
      origin_points_many⟩

/-! ## Ranking twice -/

theorem compute_distances_simd_eq_map [Zero F] [Sub F] [Mul F] (reduce : List F → F)
    (pts : List (Point F)) (ref : List F) :
    compute_distances_simd reduce pts ref
      = pts.map (fun p => { p with dist := reduce (sq_terms p.coords ref ref.length) }) := by
  unfold compute_distances_simd
  exact foldl_set_range_all
    (fun p : Point F => { p with dist := reduce (sq_terms p.coords ref ref.length) }) default pts

/-- When the reduction of the CPU loop gives every point the key that the loop gives in the
order of its iterations, the function is `compute_distances_cpu`. -/
theorem compute_distances_simd_eq_cpu [Zero F] [Add F] [Sub F] [Mul F] (reduce : List F → F)
    (pts : List (Point F)) (ref : List F)
    (hred : ∀ p, p ∈ pts →
      reduce (sq_terms p.coords ref ref.length) = sq_dist p.coords ref ref.length) :
    compute_distances_simd reduce pts ref = compute_distances_cpu pts ref := by
  rw [compute_distances_simd_eq_map, compute_distances_cpu_eq_map]
  apply List.map_congr_left
  intro p hp
  rw [hred p hp]

/-- C5 as amended: for at most `2^29` points of the dimension of `ref` whose keys are not NaN,
and when the reduction of the CPU loop gives every point the same key as the device loop, the
GPU path (`run_gpu_sort`) returns and the sequence of `dist` values of the CPU path
(`compute_distances_cpu`, then `mergesort_cpu`) equals the sequence of `dist` values it
leaves; in particular the first (minimum) and the last (maximum) value are the same. -/
theorem backend_dist_agreement [LinearOrder F] [Zero F] [Add F] [Sub F] [Mul F]
    (sort : List (Point F) → List (Point F)) (hsort : StdSortContract sort)
    (num_threads : ℕ) (hw : 1 ≤ num_threads) (reduce : List F → F)
    (cmp : FloatCmp F) (hcmp : cmp.Agrees) (fuel : ℕ) (hfuel : 64 ≤ fuel) (inf : F)
    (pts : List (Point F)) (ref : List F) (hN29 : pts.length ≤ 2 ^ 29)
    (hdim : ∀ p, p ∈ pts → p.coords.length = ref.length)
    (hinf : cmp.not_nan inf)
    (hkeys : ∀ p, p ∈ pts → cmp.not_nan (sq_dist p.coords ref ref.length))
    (hle : ∀ p, p ∈ pts → sq_dist p.coords ref ref.length ≤ inf)
    (hred : ∀ p, p ∈ pts →
      reduce (sq_terms p.coords ref ref.length) = sq_dist p.coords ref ref.length) :
    ∃ gpu_out, run_gpu_sort_f cmp fuel inf pts ref = GpuRun.finished gpu_out ∧
      (mergesort_cpu sort num_threads (compute_distances_simd reduce pts ref)).map Point.dist
        = gpu_out.map Point.dist ∧
      ((mergesort_cpu sort num_threads
          (compute_distances_simd reduce pts ref)).map Point.dist).head?
        = (gpu_out.map Point.dist).head? ∧
      ((mergesort_cpu sort num_threads
          (compute_distances_simd reduce pts ref)).map Point.dist).getLast?
        = (gpu_out.map Point.dist).getLast? := by
  obtain ⟨gpu_out, hrun, h1, h2, h3⟩ :=
    backend_dist_equivalence sort hsort num_threads hw inf pts ref hdim hle
  rw [compute_distances_simd_eq_cpu reduce pts ref hred]
  exact ⟨gpu_out,
    run_gpu_sort_f_of_exact cmp hcmp fuel hfuel inf pts ref hN29 hinf hkeys hle _ hrun,
    h1, h2, h3⟩

set_option maxRecDepth 1000000 in
theorem backend_dist_agreement_witness :
    ieee_cmp.Agrees ∧ 64 ≤ 64 ∧ 1 ≤ flt_points.length ∧ flt_points.length ≤ 2 ^ 29
      ∧ (∀ p, p ∈ flt_points → p.coords.length = ([0, 0] : List Flt).length)
      ∧ ieee_cmp.not_nan Flt.pinf
      ∧ (∀ p, p ∈ flt_points →
          ieee_cmp.not_nan (sq_dist p.coords [0, 0] ([0, 0] : List Flt).length))
      ∧ (∀ p, p ∈ flt_points → sq_dist p.coords [0, 0] ([0, 0] : List Flt).length ≤ Flt.pinf)
      ∧ StdSortContract (insertion_sort_by_dist : List (Point Flt) → List (Point Flt))
      ∧ (∀ p, p ∈ flt_points →
          two_lane_sum (sq_terms p.coords [0, 0] ([0, 0] : List Flt).length)
            = sq_dist p.coords [0, 0] ([0, 0] : List Flt).length)
      ∧ (∃ gpu_out, run_gpu_sort_f ieee_cmp 64 Flt.pinf flt_points [0, 0]
        = GpuRun.finished gpu_out ∧
      (mergesort_cpu insertion_sort_by_dist 4
          (compute_distances_simd two_lane_sum flt_points [0, 0])).map Point.dist
        = gpu_out.map Point.dist ∧
      ((mergesort_cpu insertion_sort_by_dist 4
          (compute_distances_simd two_lane_sum flt_points [0, 0])).map Point.dist).head?
        = (gpu_out.map Point.dist).head? ∧
      ((mergesort_cpu insertion_sort_by_dist 4
          (compute_distances_simd two_lane_sum flt_points [0, 0])).map Point.dist).getLast?
        = (gpu_out.map Point.dist).getLast?) :=
  ⟨ieee_cmp_agrees, le_refl 64, by decide, by decide, flt_points_dim, by decide,
    flt_points_not_nan, flt_points_below_inf, insertion_sort_contract, flt_points_two_lane,
    backend_dist_agreement insertion_sort_by_dist insertion_sort_contract 4 (by decide)
      two_lane_sum ieee_cmp ieee_cmp_agrees 64 (le_refl 64) Flt.pinf flt_points [0, 0]
      (by decide) flt_points_dim (by decide) flt_points_not_nan flt_points_below_inf
      flt_points_two_lane⟩

set_option maxRecDepth 1000000 in
/-- C5, the claim as stated fails. For the point `(1, 4096, 1)` and the origin the terms are
`1, 2^24, 1`: a reduction of the CPU loop over two lanes gives the `dist` sequence
`16777218`, the device loop gives `16777216`. With a NaN among six keys the GPU path reads
outside `pts` and leaves no sequence; and on `2^29 + 1` points it does not return, whatever
the bound on the steps of its loops. -/
theorem backend_dist_differs :
    (mergesort_cpu insertion_sort_by_dist 1
        (compute_distances_simd two_lane_sum rounding_point [0, 0, 0])).map Point.dist
        = [Flt.fin 16777218]
      ∧ run_gpu_sort_f ieee_cmp 64 Flt.pinf rounding_point [0, 0, 0]
        = GpuRun.finished
            [{ coords := [Flt.fin 1, Flt.fin 4096, Flt.fin 1], dist := Flt.fin 16777216 }]
      ∧ run_gpu_sort_f ieee_cmp 64 Flt.pinf nan_points [0] = GpuRun.out_of_bounds
      ∧ ∀ fuel : ℕ,
          run_gpu_sort_f exact_cmp fuel 3 (origin_points (2 ^ 29 + 1)) [0]
            = GpuRun.no_return :=
  ⟨by decide!, by decide!, by decide!,
    fun fuel => run_gpu_sort_f_no_return exact_cmp fuel 3 (origin_points (2 ^ 29 + 1)) [0]
      origin_points_many⟩

/-! ## load_points.cpp: the record count and the size of the team -/

set_option maxRecDepth 1000000 in
theorem short_text_two_workers :
    load_points_checked strtof_dec 2 (fun i => i) short_text
      = some { ok := true, points := [{ coords := [1], dist := 0 }], D := 1 } := by
  unfold load_points_checked
  rw [first_line_checked_start, if_pos (by decide)]
  decide!

/-- C8, with the team against the size of the file. With at most as many workers as bytes
the number of points left by `load_points` is the number of line records of the file (its
`\n` bytes, plus one if its last byte is not `\n`), and neither the byte in front of the
mapping nor the schedule of the counting loop has a part in the result; whenever no read of
the loader leaves the mapping the count is that number too. With more workers than bytes the
last worker reads `addr[-1]` and the loader has no defined result: the two-byte file `1\n`
gives one point to two workers and nothing to three. -/
theorem loader_count_by_team [Zero F] :
    (∀ (strtof : List Char → F × ℕ) (before : Char) (n_threads : ℕ) (sched : ℕ → ℕ)
        (buf : List Char), 1 ≤ n_threads → n_threads ≤ buf.length →
        (load_points strtof before n_threads sched buf).points.length
            = buf.count '\n' + (if buf ≠ [] ∧ buf.getLast? ≠ some '\n' then 1 else 0)
          ∧ ∀ (before2 : Char) (sched2 : ℕ → ℕ),
              load_points strtof before2 n_threads sched2 buf
                = load_points strtof before n_threads sched buf)
      ∧ (∀ (strtof : List Char → F × ℕ) (n_threads : ℕ) (sched : ℕ → ℕ) (buf : List Char)
          (r : LoadResult F), 1 ≤ n_threads →
          load_points_checked strtof n_threads sched buf = some r →
          r.points.length
            = buf.count '\n' + (if buf ≠ [] ∧ buf.getLast? ≠ some '\n' then 1 else 0))
      ∧ (∀ (strtof : List Char → F × ℕ) (n_threads : ℕ) (sched : ℕ → ℕ) (buf : List Char),
          buf ≠ [] → buf.length < n_threads →
          load_points_checked strtof n_threads sched buf = none)
      ∧ short_text.length = 2
      ∧ load_points_checked strtof_dec 2 (fun i => i) short_text
          = some { ok := true, points := [{ coords := [1], dist := 0 }], D := 1 }
      ∧ load_points_checked strtof_dec 3 (fun i => i) short_text = none := by
  refine ⟨?_, ?_, load_points_checked_many_workers, by decide, short_text_two_workers,
    load_points_checked_many_workers strtof_dec 3 (fun i => i) short_text (by decide)
      (by decide)⟩
  · intro strtof before n_threads sched buf h1 h2
    exact ⟨loader_record_count strtof before n_threads h1 sched buf,
      fun before2 sched2 => load_points_env_irrel strtof before2 before n_threads sched2 sched
        buf h1 h2⟩
  · intro strtof n_threads sched buf r h1 h
    rw [← load_points_checked_some strtof 'x' n_threads sched buf r h]
    exact loader_record_count strtof 'x' n_threads h1 sched buf

/-! ## cpu_mergesort.cpp: the sequential cutoff -/

/-- C19, the claim as stated fails on a range whose length equals the grain size. For the
range `[0, 1]` and grain size `2` the length `2` is not below the grain size, so the claim has
the range split at `mid = 0`, whose merge leaves the merged run in `scratch`; the code sorts
the range with `std::sort`, does not split (depth `0`) and leaves `scratch` as it was. -/
theorem cutoff_at_grain_size :
    ¬ (1 - 0 + 1 < 2)
      ∧ mergesort_recursive insertion_sort_by_dist sample_pair (List.replicate 2 default) 0 1 2
          = (std_sort_range insertion_sort_by_dist sample_pair 0 2, List.replicate 2 default)
      ∧ split_depth 0 1 2 = 0
      ∧ (merge_optimized sample_pair (List.replicate 2 default) 0 0 1).2
          ≠ List.replicate 2 default :=
  ⟨by decide,
    (mergesort_recursive_branches insertion_sort_by_dist sample_pair
      (List.replicate 2 default) 0 0).1,
    (mergesort_recursive_branches insertion_sort_by_dist sample_pair
      (List.replicate 2 default) 0 0).2.1,
    by
      rw [merge_optimized_slices sample_pair (List.replicate 2 default) 0 0 1 (by decide)
        (by decide) (by decide) (by decide)]
      simp only [sample_pair, List.merge, List.take, List.drop, List.replicate,
        List.nil_append, List.append_nil, ne_eq, List.cons.injEq, and_true, not_and]
      intro h
      exact absurd h (by decide)⟩

/-- C19 as amended: for every range `[left, right]` with `left < right` and every grain size,
`mergesort_recursive` sorts the range sequentially in place without splitting if and only if
the length `right - left + 1` of the range is at most the grain size (the test of the code is
`right - left < grain_size`); otherwise it splits at `mid = left + (right - left) / 2` into
`[left, mid]` and `[mid + 1, right]`, sorts both, then merges. -/
theorem sequential_cutoff [LinearOrder F] [Zero F]
    (sort : List (Point F) → List (Point F)) (pts scratch : List (Point F))
    (left right grain_size : ℕ) (hlr : left < right) :
    (split_depth left right grain_size = 0 ↔ right - left + 1 ≤ grain_size)
      ∧ (right - left + 1 ≤ grain_size →
          mergesort_recursive sort pts scratch left right grain_size
            = (std_sort_range sort pts left (right + 1), scratch))
      ∧ (grain_size < right - left + 1 →
          split_depth left right grain_size
              = 1 + max (split_depth left (left + (right - left) / 2) grain_size)
                  (split_depth (left + (right - left) / 2 + 1) right grain_size)
            ∧ mergesort_recursive sort pts scratch left right grain_size
              = merge_optimized
                  (mergesort_recursive sort
                    (mergesort_recursive sort pts scratch left
                      (left + (right - left) / 2) grain_size).1
                    (mergesort_recursive sort pts scratch left
                      (left + (right - left) / 2) grain_size).2
                    (left + (right - left) / 2 + 1) right grain_size).1
                  (mergesort_recursive sort
                    (mergesort_recursive sort pts scratch left
                      (left + (right - left) / 2) grain_size).1
                    (mergesort_recursive sort pts scratch left
                      (left + (right - left) / 2) grain_size).2
                    (left + (right - left) / 2 + 1) right grain_size).2
                  left (left + (right - left) / 2) right) := by
  obtain ⟨_, _, hseq, hsplit⟩ := mergesort_recursive_branches sort pts scratch left 0
  have c1 : ¬ left ≥ right := by omega
  refine ⟨?_, hseq right grain_size hlr, ?_⟩
  · rw [split_depth, if_neg c1]
    by_cases c2 : right - left < grain_size
    · rw [if_pos c2]
      exact ⟨fun _ => by omega, fun _ => rfl⟩
    · rw [if_neg c2]
      exact ⟨fun h => by simp only at h; omega, fun h => by omega⟩
  · intro h
    refine ⟨?_, hsplit right grain_size hlr h⟩
    have c2 : ¬ right - left < grain_size := by omega
    rw [split_depth, if_neg c1, if_neg c2]

theorem sequential_cutoff_witness :
    (0 : ℕ) < 1
      ∧ (split_depth 0 1 2 = 0 ↔ 1 - 0 + 1 ≤ 2)
      ∧ (1 - 0 + 1 ≤ 2 →
          mergesort_recursive insertion_sort_by_dist sample_pair (List.replicate 2 default)
              0 1 2
            = (std_sort_range insertion_sort_by_dist sample_pair 0 (1 + 1),
                List.replicate 2 default)) :=
  have h := sequential_cutoff insertion_sort_by_dist sample_pair (List.replicate 2 default)
    0 1 2 (by decide)
  ⟨by decide, h.1, h.2.1⟩

end PMSort
